import Mathlib

/-!
Verification development for the TrezarCoin block-template assembler
(`src/miner.cpp`).  The C++ source is shallowly embedded: the mempool is a
list of entries carrying the cached aggregates the miner reads
(`GetTxSize`, `GetTxWeight`, `GetSigOpCost`, `GetSizeWithAncestors`, ...),
the `BlockAssembler` member state is an explicit `BState` record, and the
two selection loops are written with explicit fuel.  Machine integers are
modelled as `Nat`/`Int`; the `uint64_t` subtraction in the modified-entry
bookkeeping and the `uint32_t` header-time assignments keep their modular
behaviour (`usub64`, `u32I`).  External collaborators that are not part of
`src` (mempool index maintenance, `IsFinalTx`, `AllowFree`, fee rate,
chain-state accessors) appear as per-entry cached fields or as fields of
an `Env` record, following the interface description of the spec.
-/

/-- Modelled from the spec: consensus constant `WITNESS_SCALE_FACTOR` = 4
(`consensus.h` is not in src; the value is fixed by the spec's glossary). -/
def WITNESS_SCALE_FACTOR : Nat := 4

/-- Modelled from the spec: consensus constant `MAX_BLOCK_WEIGHT`
(`consensus.h` is not in src; bitcoin-lineage value used, no claim depends
on the concrete number). -/
def MAX_BLOCK_WEIGHT : Nat := 4000000

/-- Modelled from the spec: consensus constant `MAX_BLOCK_SERIALIZED_SIZE`
(`consensus.h` is not in src). -/
def MAX_BLOCK_SERIALIZED_SIZE : Nat := 4000000

/-- Modelled from the spec: consensus constant `MAX_BLOCK_SIGOPS_COST`
(`consensus.h` is not in src). -/
def MAX_BLOCK_SIGOPS_COST : Nat := 80000

/-- Modelled from the spec: policy default `DEFAULT_BLOCK_MAX_WEIGHT`
(`policy.h` is not in src; no claim depends on the concrete number). -/
def DEFAULT_BLOCK_MAX_WEIGHT : Nat := 3000000

/-- Modelled from the spec: policy default `DEFAULT_BLOCK_MAX_SIZE`
(`policy.h` is not in src). -/
def DEFAULT_BLOCK_MAX_SIZE : Nat := 750000

/-- Modelled from the spec: consensus constant `BLOCK_LIMITER_TIME`
(not in src; no claim depends on the concrete number). -/
def BLOCK_LIMITER_TIME : Int := 60

/-- Modulus of a 64-bit machine word. -/
def U64 : Nat := 18446744073709551616

/-- Modulus of a 32-bit machine word. -/
def U32 : Nat := 4294967296

/-- Wrapping `uint64_t` subtraction: `a - b` computed modulo `2^64`,
as performed by the `-=` operators on the modified-entry fields. -/
def usub64 (a b : Nat) : Nat := (a + (U64 - b % U64)) % U64

/-- Conversion of a signed 64-bit time value to a `uint32_t` field,
as performed by the assignments to `CBlockHeader::nTime`. -/
def u32I (x : Int) : Int := x % (U32 : Int)

/-- Conversion of an unsigned value to a `uint32_t` transaction-time field. -/
def u32N (n : Nat) : Nat := n % U32

/-- One mempool entry as seen by the miner: the transaction attributes it
reads plus the cached aggregates maintained by the (external) mempool.
`isFinal` caches the value of the external `IsFinalTx(tx, nHeight,
nLockTimeCutoff)` check for the assembly in progress, and `priority`
abstracts the coin-age priority (a `double` in the source, used only
through its ordering).  `parents` and `ancestors` are the id sets returned
by the external `GetMemPoolParents` and `CalculateMemPoolAncestors`
(`ancestors` excludes the entry itself). -/
structure MemEntry where
  txTime : Nat
  hasWitness : Bool
  isFinal : Bool
  txSize : Nat
  serSize : Nat
  txWeight : Nat
  fee : Int
  modifiedFee : Int
  sigOpCost : Nat
  sizeWithAncestors : Nat
  modFeesWithAncestors : Int
  sigOpCostWithAncestors : Int
  countWithAncestors : Nat
  parents : List Nat
  ancestors : List Nat
  priority : Int
  deriving Repr, DecidableEq

/-- The all-zero entry used as the out-of-range default of `ent`. -/
def MemEntry.null : MemEntry :=
  { txTime := 0, hasWitness := false, isFinal := false, txSize := 0,
    serSize := 0, txWeight := 0, fee := 0, modifiedFee := 0, sigOpCost := 0,
    sizeWithAncestors := 0, modFeesWithAncestors := 0,
    sigOpCostWithAncestors := 0, countWithAncestors := 0, parents := [],
    ancestors := [], priority := 0 }

instance : Inhabited MemEntry := ⟨MemEntry.null⟩

/-- Entry lookup by id (list index); out-of-range ids yield the null entry. -/
def ent (pool : List MemEntry) (i : Nat) : MemEntry := pool.getD i MemEntry.null

/-- Sum of `GetTxSize` over a list of entry ids. -/
def sumTxSize (pool : List MemEntry) (l : List Nat) : Nat :=
  (l.map (fun i => (ent pool i).txSize)).sum

/-- Sum of serialized sizes (`GetSerializeSize`) over a list of entry ids. -/
def sumSerSize (pool : List MemEntry) (l : List Nat) : Nat :=
  (l.map (fun i => (ent pool i).serSize)).sum

/-- Sum of `GetTxWeight` over a list of entry ids. -/
def sumWeight (pool : List MemEntry) (l : List Nat) : Nat :=
  (l.map (fun i => (ent pool i).txWeight)).sum

/-- Sum of `GetSigOpCost` over a list of entry ids, as `Nat`. -/
def sumSigOpsN (pool : List MemEntry) (l : List Nat) : Nat :=
  (l.map (fun i => (ent pool i).sigOpCost)).sum

/-- Sum of `GetSigOpCost` over a list of entry ids, as `Int`. -/
def sumSigOpsI (pool : List MemEntry) (l : List Nat) : Int :=
  (l.map (fun i => ((ent pool i).sigOpCost : Int))).sum

/-- Sum of `GetFee` over a list of entry ids. -/
def sumFees (pool : List MemEntry) (l : List Nat) : Int :=
  (l.map (fun i => (ent pool i).fee)).sum

/-- Sum of `GetModifiedFee` over a list of entry ids. -/
def sumModFees (pool : List MemEntry) (l : List Nat) : Int :=
  (l.map (fun i => (ent pool i).modifiedFee)).sum

/-- Well-formedness of one entry with respect to the pool: the ancestor
list is a self-free, duplicate-free transitive closure of the parent
relation, ancestor counts are a strict topological rank (spec Invariant A),
the cached aggregates agree with the sums over the ancestor set, transaction
weight is bounded by `WITNESS_SCALE_FACTOR` times the vsize-based
`GetTxSize`, and the machine-word fields are in range.  All of this is
maintained by external mempool code (`txmempool`, not in src) and matches
the spec's data-model section. -/
def wfEntry (pool : List MemEntry) (i : Nat) : Bool :=
  let e := ent pool i
  e.ancestors.all (fun a => decide (a ≠ i)) &&
  decide e.ancestors.Nodup &&
  e.parents.all (fun p => decide (p ∈ e.ancestors)) &&
  e.ancestors.all (fun a =>
    decide (a ∈ e.parents) ||
    e.parents.any (fun p => decide (a ∈ (ent pool p).ancestors))) &&
  e.ancestors.all (fun a =>
    (ent pool a).ancestors.all (fun b => decide (b ∈ e.ancestors))) &&
  e.ancestors.all (fun a =>
    decide ((ent pool a).countWithAncestors < e.countWithAncestors)) &&
  decide (e.sizeWithAncestors = e.txSize + sumTxSize pool e.ancestors) &&
  decide (e.sigOpCostWithAncestors = (e.sigOpCost : Int) + sumSigOpsI pool e.ancestors) &&
  decide (e.modFeesWithAncestors = e.modifiedFee + sumModFees pool e.ancestors) &&
  decide (e.txWeight ≤ WITNESS_SCALE_FACTOR * e.txSize) &&
  decide (e.sizeWithAncestors < U64) &&
  decide (e.txTime < U32)

/-- Well-formedness of the whole mempool snapshot. -/
def wfPool (pool : List MemEntry) : Bool :=
  (List.range pool.length).all (wfEntry pool)

/-- The `BlockAssembler` member state together with the block template
vectors being filled (`pblock->vtx`, `pblocktemplate->vTxFees`,
`pblocktemplate->vTxSigOpsCost`).  In `vtx`, `none` is the coinbase slot
pushed as a dummy at the start of `CreateNewBlock` and `some i` is the
mempool transaction with id `i`. -/
structure BState where
  nBlockMaxWeight : Nat
  nBlockMaxSize : Nat
  fNeedSizeAccounting : Bool
  fIncludeWitness : Bool
  nHeight : Nat
  nBlockSize : Nat
  nBlockWeight : Nat
  nBlockSigOpsCost : Nat
  nFees : Int
  nBlockTx : Nat
  inBlock : List Nat
  lastFewTxs : Nat
  blockFinished : Bool
  vtx : List (Option Nat)
  vTxFees : List Int
  vTxSigOpsCost : List Int
  deriving Repr, DecidableEq

/-- Block header fields filled in by the assembler.  `nTime` is a
`uint32_t` in the source, modelled as an `Int` kept in `[0, 2^32)` by the
`u32I` conversions at each assignment. -/
structure BlockHeader where
  nVersion : Int
  hashPrevBlock : Nat
  nTime : Int
  nBits : Nat
  nNonce : Nat
  deriving Repr, DecidableEq

/-- The coinbase transaction built by the finalizer: creation timestamp,
the single output (script bytes and value) and the height pushed into
`scriptSig` (`CScript() << nHeight << OP_0`). -/
structure CoinbaseTx where
  nTime : Nat
  scriptPubKey : List Nat
  value : Int
  scriptSigHeight : Nat
  deriving Repr, DecidableEq

/-- The returned `CBlockTemplate`. -/
structure CBlockTemplate where
  coinbase : CoinbaseTx
  vtx : List (Option Nat)
  vTxFees : List Int
  vTxSigOpsCost : List Int
  header : BlockHeader
  vchCoinbaseCommitment : List Nat
  deriving Repr, DecidableEq

/-- External collaborators consumed by `CreateNewBlock`, frozen for the
duration of one call (the spec's concurrency section: both locks are held
throughout, no suspension happens inside the call). -/
structure Env where
  adjTime : Nat
  medianTimePast : Int
  tipTime : Int
  tipHeight : Nat
  hashPrevBlock : Nat
  blockVersion : Int
  pastDrift : Int → Int
  blockSubsidy : Nat → Int
  posReward : Nat → Int
  nextWorkRequired : Bool → Nat
  minRelayFee : Nat → Int
  allowFree : Int → Bool
  blockPrioritySize : Nat
  dummyTxTime : Nat
  witnessEnabled : Bool
  allocOk : Bool
  coinbaseLegacySigOps : Nat
  commitment : List Nat

/-- The non-coinbase transaction ids of a template vector, in block order. -/
def idsOfVtx (v : List (Option Nat)) : List Nat := (v.drop 1).filterMap id

/-- The non-coinbase transaction ids of the block in progress. -/
def stateIds (s : BState) : List Nat := idsOfVtx s.vtx

/-- The non-coinbase transaction ids of a finished template. -/
def blockIds (t : CBlockTemplate) : List Nat := idsOfVtx t.vtx

/-- `UpdateTime` (miner.cpp lines 66-75): recompute the header time as the
maximum of `medianTimePast + BLOCK_LIMITER_TIME + 1` and the adjusted
time, overwrite `nTime` only if strictly newer, and return the delta
between the recomputed value and the old `nTime`. -/
def UpdateTime (pblock : BlockHeader) (mtpPrev adjTime : Int) : Int × BlockHeader :=
  let nOldTime : Int := pblock.nTime
  let nNewTime : Int := max (mtpPrev + BLOCK_LIMITER_TIME + 1) adjTime
  let pblock2 : BlockHeader :=
    if nOldTime < nNewTime then { pblock with nTime := u32I nNewTime } else pblock
  (nNewTime - nOldTime, pblock2)

/-- The `BlockAssembler` constructor (lines 77-106): resolve the
`-blockmaxweight` / `-blockmaxsize` options, clamp both to their sanity
ranges and decide whether byte-size accounting is needed.  Returns
`(nBlockMaxWeight, nBlockMaxSize, fNeedSizeAccounting)`. -/
def BlockAssemblerInit (argWeight argSize : Option Nat) : Nat × Nat × Bool :=
  let base : Nat × Nat × Bool :=
    match argWeight with
    | some aw => (aw, MAX_BLOCK_SERIALIZED_SIZE, true)
    | none => (DEFAULT_BLOCK_MAX_WEIGHT, DEFAULT_BLOCK_MAX_SIZE, false)
  let resolved : Nat × Nat :=
    match argSize with
    | some sz => (if base.2.2 then base.1 else sz * WITNESS_SCALE_FACTOR, sz)
    | none => (base.1, base.2.1)
  let w := max 4000 (min (MAX_BLOCK_WEIGHT - 4000) resolved.1)
  let sz := max 1000 (min (MAX_BLOCK_SERIALIZED_SIZE - 1000) resolved.2)
  (w, sz, decide (sz < MAX_BLOCK_SERIALIZED_SIZE - 1000))

/-- `resetBlock` plus the state set up at the top of `CreateNewBlock`
(lines 108-171): coinbase reservations, cleared counters, the dummy
coinbase pushed on all three template vectors. -/
def initialBState (cfg : Nat × Nat × Bool) (fIncludeWitness : Bool) (nHeight : Nat) : BState :=
  { nBlockMaxWeight := cfg.1, nBlockMaxSize := cfg.2.1,
    fNeedSizeAccounting := cfg.2.2, fIncludeWitness := fIncludeWitness,
    nHeight := nHeight, nBlockSize := 1000, nBlockWeight := 4000,
    nBlockSigOpsCost := 400, nFees := 0, nBlockTx := 0, inBlock := [],
    lastFewTxs := 0, blockFinished := false, vtx := [none],
    vTxFees := [-1], vTxSigOpsCost := [-1] }

/-- `TestPackage` (lines 238-246): quick feasibility check for a package,
using vsize-based size as a conservative weight proxy.  The state result
reflects that the member function performs no assignment. -/
def TestPackage (s : BState) (packageSize : Nat) (packageSigOpsCost : Int) : Bool × BState :=
  if s.nBlockWeight + WITNESS_SCALE_FACTOR * packageSize ≥ s.nBlockMaxWeight then (false, s)
  else if (s.nBlockSigOpsCost : Int) + packageSigOpsCost ≥ (MAX_BLOCK_SIGOPS_COST : Int) then (false, s)
  else (true, s)

/-- Inner loop of `TestPackageTransactions`, accumulating the prospective
block size in the local `nPotentialBlockSize`. -/
def TPTgo (s : BState) (pool : List MemEntry) : Nat → List Nat → Bool
  | _, [] => true
  | nPotentialBlockSize, i :: rest =>
    let e := ent pool i
    if !e.isFinal then false
    else if !s.fIncludeWitness && e.hasWitness then false
    else if s.fNeedSizeAccounting then
      let nTxSize := e.serSize
      if nPotentialBlockSize + nTxSize ≥ s.nBlockMaxSize then false
      else TPTgo s pool (nPotentialBlockSize + nTxSize) rest
    else TPTgo s pool nPotentialBlockSize rest

/-- `TestPackageTransactions` (lines 253-270): per-transaction finality,
premature-witness and cumulative serialized-size checks over a whole
package.  The state result reflects that the member function performs no
assignment on the block in progress. -/
def TestPackageTransactions (s : BState) (pool : List MemEntry) (package : List Nat) : Bool × BState :=
  (TPTgo s pool s.nBlockSize package, s)

/-- `TestForBlock` (lines 272-322): per-transaction fit check used by the
priority phase; mutates only `lastFewTxs` and `blockFinished`. -/
def TestForBlock (s : BState) (pool : List MemEntry) (i : Nat) : Bool × BState :=
  let e := ent pool i
  if s.nBlockWeight + e.txWeight ≥ s.nBlockMaxWeight then
    if s.nBlockWeight > s.nBlockMaxWeight - 400 ∨ s.lastFewTxs > 50 then
      (false, { s with blockFinished := true })
    else if s.nBlockWeight > s.nBlockMaxWeight - 4000 then
      (false, { s with lastFewTxs := s.lastFewTxs + 1 })
    else (false, s)
  else if s.fNeedSizeAccounting ∧ s.nBlockSize + e.serSize ≥ s.nBlockMaxSize then
    if s.nBlockSize > s.nBlockMaxSize - 100 ∨ s.lastFewTxs > 50 then
      (false, { s with blockFinished := true })
    else if s.nBlockSize > s.nBlockMaxSize - 1000 then
      (false, { s with lastFewTxs := s.lastFewTxs + 1 })
    else (false, s)
  else if s.nBlockSigOpsCost + e.sigOpCost ≥ MAX_BLOCK_SIGOPS_COST then
    if s.nBlockSigOpsCost > MAX_BLOCK_SIGOPS_COST - 8 then
      (false, { s with blockFinished := true })
    else (false, s)
  else if !e.isFinal then (false, s)
  else (true, s)

/-- `AddToBlock` (lines 324-348): append the transaction, its fee and its
sigop cost to the template vectors and update the running totals.  The
`-printpriority` logging has no effect on the state and is omitted. -/
def AddToBlock (s : BState) (pool : List MemEntry) (i : Nat) : BState :=
  let e := ent pool i
  { s with
    vtx := s.vtx ++ [some i],
    vTxFees := s.vTxFees ++ [e.fee],
    vTxSigOpsCost := s.vTxSigOpsCost ++ [(e.sigOpCost : Int)],
    nBlockSize := if s.fNeedSizeAccounting then s.nBlockSize + e.serSize else s.nBlockSize,
    nBlockWeight := s.nBlockWeight + e.txWeight,
    nBlockTx := s.nBlockTx + 1,
    nBlockSigOpsCost := s.nBlockSigOpsCost + e.sigOpCost,
    nFees := s.nFees + e.fee,
    inBlock := i :: s.inBlock }

/-- `isStillDependent` (lines 214-223): true iff some mempool parent is
not yet in the block. -/
def isStillDependent (s : BState) (pool : List MemEntry) (i : Nat) : Bool :=
  (ent pool i).parents.any (fun p => decide (p ∉ s.inBlock))

/-- `onlyUnconfirmed` (lines 225-236): restrict a test set to entries not
already in the block. -/
def onlyUnconfirmed (s : BState) (testSet : List Nat) : List Nat :=
  testSet.filter (fun a => decide (a ∉ s.inBlock))

/-- Modelled from the spec: `CTxMemPoolModifiedEntry` (miner.h is not in
src): a mutable shadow of a mempool entry whose ancestor aggregates are
decremented as ancestors get committed to the block. -/
structure CTxMemPoolModifiedEntry where
  iterId : Nat
  nSizeWithAncestors : Nat
  nModFeesWithAncestors : Int
  nSigOpCostWithAncestors : Int
  deriving Repr, DecidableEq

/-- Construction of a modified entry from the base mempool entry
(miner.h constructor, modelled from the spec: fields start from the base
entry's ancestor aggregates). -/
def mkModEntry (pool : List MemEntry) (i : Nat) : CTxMemPoolModifiedEntry :=
  { iterId := i,
    nSizeWithAncestors := (ent pool i).sizeWithAncestors,
    nModFeesWithAncestors := (ent pool i).modFeesWithAncestors,
    nSigOpCostWithAncestors := (ent pool i).sigOpCostWithAncestors }

/-- Modelled from the spec: miner.h's `update_for_parent_inclusion`
functor, decrementing a modified entry by the included ancestor's own
size, modified fee and sigop cost (the `uint64_t` size subtraction wraps). -/
def update_for_parent_inclusion (pool : List MemEntry) (a : Nat)
    (me : CTxMemPoolModifiedEntry) : CTxMemPoolModifiedEntry :=
  { me with
    nSizeWithAncestors := usub64 me.nSizeWithAncestors (ent pool a).txSize,
    nModFeesWithAncestors := me.nModFeesWithAncestors - (ent pool a).modifiedFee,
    nSigOpCostWithAncestors := me.nSigOpCostWithAncestors - ((ent pool a).sigOpCost : Int) }

/-- Lookup in `mapModifiedTx` by source entry id. -/
def mapFind (m : List CTxMemPoolModifiedEntry) (i : Nat) : Option CTxMemPoolModifiedEntry :=
  m.find? (fun me => me.iterId == i)

/-- Erasure from `mapModifiedTx` by source entry id. -/
def mapErase (m : List CTxMemPoolModifiedEntry) (i : Nat) : List CTxMemPoolModifiedEntry :=
  m.filter (fun me => decide (me.iterId ≠ i))

/-- In-place modification of the entry keyed by `i` in `mapModifiedTx`. -/
def mapModify (m : List CTxMemPoolModifiedEntry) (i : Nat)
    (f : CTxMemPoolModifiedEntry → CTxMemPoolModifiedEntry) : List CTxMemPoolModifiedEntry :=
  m.map (fun me => if me.iterId = i then f me else me)

/-- Modelled from the spec: `CalculateDescendants` of the external mempool
(txmempool, not in src) — the set containing the entry itself and every
in-pool entry having it among its ancestors. -/
def CalculateDescendants (pool : List MemEntry) (a : Nat) : List Nat :=
  a :: (List.range pool.length).filter (fun j => decide (a ∈ (ent pool j).ancestors))

/-- One step of `UpdatePackagesForAdded` (lines 357-370): for one added
entry `it` and one descendant `desc`, skip descendants that were just
added, insert a freshly-decremented modified entry if absent, or apply
`update_for_parent_inclusion` in place. -/
def updateOne (pool : List MemEntry) (alreadyAdded : List Nat) (it : Nat)
    (m : List CTxMemPoolModifiedEntry) (desc : Nat) : List CTxMemPoolModifiedEntry :=
  if desc ∈ alreadyAdded then m
  else
    match mapFind m desc with
    | none => update_for_parent_inclusion pool it (mkModEntry pool desc) :: m
    | some _ => mapModify m desc (update_for_parent_inclusion pool it)

/-- `UpdatePackagesForAdded` (lines 350-372): walk the descendants of every
just-added entry and maintain the modified-entry shadow map. -/
def UpdatePackagesForAdded (pool : List MemEntry) (alreadyAdded : List Nat)
    (m : List CTxMemPoolModifiedEntry) : List CTxMemPoolModifiedEntry :=
  alreadyAdded.foldl
    (fun m1 it => (CalculateDescendants pool it).foldl (updateOne pool alreadyAdded it) m1) m

/-- `SkipMapTxEntry` (lines 383-389): skip mempool-cursor entries that are
already in the block, already shadowed in `mapModifiedTx`, or already
failed. -/
def SkipMapTxEntry (s : BState) (m : List CTxMemPoolModifiedEntry)
    (failedTx : List Nat) (i : Nat) : Bool :=
  (mapFind m i).isSome || decide (i ∈ s.inBlock) || decide (i ∈ failedTx)

/-- Modelled from the spec: miner.h's `CompareModifiedEntry`, ordering
modified entries by modified ancestor feerate with ties broken by entry
identity; `CompareModifiedEntry a b` means `a` ranks strictly better. -/
def CompareModifiedEntry (a b : CTxMemPoolModifiedEntry) : Bool :=
  let fa := a.nModFeesWithAncestors * (b.nSizeWithAncestors : Int)
  let fb := b.nModFeesWithAncestors * (a.nSizeWithAncestors : Int)
  if fa = fb then decide (a.iterId < b.iterId) else decide (fa > fb)

/-- Best entry of `mapModifiedTx` under `CompareModifiedEntry`
(the `begin()` of its ancestor-score index). -/
def mapBest (m : List CTxMemPoolModifiedEntry) : Option CTxMemPoolModifiedEntry :=
  m.foldl
    (fun acc me =>
      match acc with
      | none => some me
      | some b => if CompareModifiedEntry me b then some me else some b)
    none

/-- Modelled from the spec: miner.h's `CompareTxIterByAncestorCount` —
order entries by ancestor count (ties broken by entry identity), the
comparison used by `SortForBlock`. -/
def AncestorCountLE (pool : List MemEntry) (a b : Nat) : Prop :=
  (ent pool a).countWithAncestors < (ent pool b).countWithAncestors ∨
  ((ent pool a).countWithAncestors = (ent pool b).countWithAncestors ∧ a ≤ b)

instance (pool : List MemEntry) (a b : Nat) : Decidable (AncestorCountLE pool a b) := by
  unfold AncestorCountLE; infer_instance

/-- `SortForBlock` (lines 391-400): sort a committed package by ancestor
count, a valid topological order by spec Invariant A. -/
def SortForBlock (pool : List MemEntry) (package : List Nat) : List Nat :=
  package.insertionSort (AncestorCountLE pool)

/-- Modelled from the spec: the ancestor-feerate comparator of the
mempool's `ancestor_score` index (txmempool, not in src);
`AncestorScoreBefore pool i j` means `i` is iterated before `j`. -/
def AncestorScoreBefore (pool : List MemEntry) (i j : Nat) : Prop :=
  let fi := (ent pool i).modFeesWithAncestors * ((ent pool j).sizeWithAncestors : Int)
  let fj := (ent pool j).modFeesWithAncestors * ((ent pool i).sizeWithAncestors : Int)
  fi > fj ∨ (fi = fj ∧ i ≤ j)

instance (pool : List MemEntry) (i j : Nat) : Decidable (AncestorScoreBefore pool i j) := by
  unfold AncestorScoreBefore; infer_instance

/-- Iteration order of the mempool's ancestor-score index over the whole
pool. -/
def ancestorScoreOrder (pool : List MemEntry) : List Nat :=
  (List.range pool.length).insertionSort (AncestorScoreBefore pool)

/-- Result of evaluating one candidate package inside `addPackageTxs`:
either the selection loop terminates now (fee-floor reached) or it
continues with updated state, shadow map and failed set. -/
inductive PkgStep where
  | stop (s : BState)
  | next (s : BState) (m : List CTxMemPoolModifiedEntry) (failedTx : List Nat)

/-- Body of one `addPackageTxs` iteration after the candidate `iter` has
been chosen (lines 461-519): read the package aggregates (from the
modified entry when `mode` is set), check the fee floor, run `TestPackage`
and `TestPackageTransactions` with the failure bookkeeping, and on success
commit the sorted package and refresh the shadow map. -/
def considerPackage (pool : List MemEntry) (env : Env) (s : BState)
    (m : List CTxMemPoolModifiedEntry) (failedTx : List Nat)
    (iter : Nat) (mode : Option CTxMemPoolModifiedEntry) : PkgStep :=
  let e := ent pool iter
  let packageSize : Nat :=
    match mode with
    | some me => me.nSizeWithAncestors
    | none => e.sizeWithAncestors
  let packageFees : Int :=
    match mode with
    | some me => me.nModFeesWithAncestors
    | none => e.modFeesWithAncestors
  let packageSigOpsCost : Int :=
    match mode with
    | some me => me.nSigOpCostWithAncestors
    | none => e.sigOpCostWithAncestors
  if packageFees < env.minRelayFee packageSize then PkgStep.stop s
  else
    let failM : List CTxMemPoolModifiedEntry := if mode.isSome then mapErase m iter else m
    let failF : List Nat := if mode.isSome then iter :: failedTx else failedTx
    if !(TestPackage s packageSize packageSigOpsCost).1 then PkgStep.next s failM failF
    else
      let ancestors := onlyUnconfirmed s e.ancestors ++ [iter]
      if !(TestPackageTransactions s pool ancestors).1 then PkgStep.next s failM failF
      else
        let sortedEntries := SortForBlock pool ancestors
        let s2 := sortedEntries.foldl (fun st i => AddToBlock st pool i) s
        let m2 := sortedEntries.foldl mapErase m
        let m3 := UpdatePackagesForAdded pool ancestors m2
        PkgStep.next s2 m3 failedTx

/-- The `addPackageTxs` selection loop (lines 424-519) with explicit fuel:
walk the ancestor-score order `mi`, skipping stale cursor entries, compare
the cursor candidate against the best modified entry, and evaluate the
chosen package. -/
def addPackageTxsLoop (pool : List MemEntry) (env : Env) :
    Nat → BState → List CTxMemPoolModifiedEntry → List Nat → List Nat → BState
  | 0, s, _, _, _ => s
  | fuel + 1, s, m, failedTx, mi =>
    if mi.isEmpty && m.isEmpty then s
    else
      match mi with
      | h :: t =>
        if SkipMapTxEntry s m failedTx h then
          addPackageTxsLoop pool env fuel s m failedTx t
        else
          let step : PkgStep × List Nat :=
            match mapBest m with
            | some modit =>
              if CompareModifiedEntry modit (mkModEntry pool h) then
                (considerPackage pool env s m failedTx modit.iterId (some modit), h :: t)
              else
                (considerPackage pool env s m failedTx h none, t)
            | none => (considerPackage pool env s m failedTx h none, t)
          match step with
          | (PkgStep.stop s1, _) => s1
          | (PkgStep.next s1 m1 f1, mi1) => addPackageTxsLoop pool env fuel s1 m1 f1 mi1
      | [] =>
        match mapBest m with
        | some modit =>
          match considerPackage pool env s m failedTx modit.iterId (some modit) with
          | PkgStep.stop s1 => s1
          | PkgStep.next s1 m1 f1 => addPackageTxsLoop pool env fuel s1 m1 f1 []
        | none => s

/-- Fuel that dominates the number of `addPackageTxs` loop iterations. -/
def packageFuel (pool : List MemEntry) : Nat :=
  (pool.length + 2) * (pool.length + 2) * 4

/-- `addPackageTxs` (lines 412-520): seed the shadow map from the entries
committed by the priority phase, then run the selection loop over the
ancestor-score order. -/
def addPackageTxs (pool : List MemEntry) (env : Env) (s : BState) : BState :=
  let m0 := UpdatePackagesForAdded pool s.inBlock []
  addPackageTxsLoop pool env (packageFuel pool) s m0 [] (ancestorScoreOrder pool)

/-- Modelled from the spec: the external `GetMemPoolChildren` — the in-pool
entries having `i` among their parents. -/
def MemPoolChildren (pool : List MemEntry) (i : Nat) : List Nat :=
  (List.range pool.length).filter (fun j => decide (i ∈ (ent pool j).parents))

/-- Modelled from the spec: the heap comparator `TxCoinAgePriorityCompare`
(policy, not in src) — a `(priority, entry)` pair ranks better when its
priority is higher, ties broken by entry identity. -/
def PriorityBetter (x y : Int × Nat) : Bool :=
  if x.1 = y.1 then decide (x.2 < y.2) else decide (x.1 > y.1)

/-- Extraction of the best element of the priority heap
(`vecPriority.front()` after `make_heap`/`pop_heap`). -/
def popBest (l : List (Int × Nat)) : Option ((Int × Nat) × List (Int × Nat)) :=
  match l.foldl
      (fun acc x =>
        match acc with
        | none => some x
        | some b => if PriorityBetter x b then some x else some b)
      none with
  | none => none
  | some b => some (b, l.erase b)

/-- Lookup of a parked priority in `waitPriMap`. -/
def waitFind (w : List (Nat × Int)) (c : Nat) : Option Int :=
  (w.find? (fun x => x.1 == c)).map (fun x => x.2)

/-- Erasure from `waitPriMap`. -/
def waitErase (w : List (Nat × Int)) (c : Nat) : List (Nat × Int) :=
  w.filter (fun x => decide (x.1 ≠ c))

/-- After a successful priority add (lines 592-602): move every mempool
child of the added entry that is parked in `waitPriMap` back into the
priority heap with its parked priority. -/
def promoteChildren (pool : List MemEntry) (iter : Nat)
    (vw : List (Int × Nat) × List (Nat × Int)) : List (Int × Nat) × List (Nat × Int) :=
  (MemPoolChildren pool iter).foldl
    (fun vw1 c =>
      match waitFind vw1.2 c with
      | some pr => ((pr, c) :: vw1.1, waitErase vw1.2 c)
      | none => vw1)
    vw

/-- The `addPriorityTxs` loop (lines 555-604) with explicit fuel: pop the
highest-priority entry, apply the witness/time/dependency filters, test
the fit, and on an add either stop (priority budget met or free threshold
crossed) or promote parked children. -/
def addPriorityTxsLoop (pool : List MemEntry) (env : Env) (fProofOfStake : Bool)
    (blockTime : Nat) (nBlockPrioritySize : Nat) :
    Nat → BState → List (Int × Nat) → List (Nat × Int) → BState
  | 0, s, _, _ => s
  | fuel + 1, s, vecPriority, waitPriMap =>
    if vecPriority.isEmpty || s.blockFinished then s
    else
      match popBest vecPriority with
      | none => s
      | some ((actualPriority, iter), vec1) =>
        let nAdjTime := env.adjTime
        if iter ∈ s.inBlock then
          addPriorityTxsLoop pool env fProofOfStake blockTime nBlockPrioritySize fuel s vec1 waitPriMap
        else if !s.fIncludeWitness && (ent pool iter).hasWitness then
          addPriorityTxsLoop pool env fProofOfStake blockTime nBlockPrioritySize fuel s vec1 waitPriMap
        else if (ent pool iter).txTime > nAdjTime ∨ (fProofOfStake ∧ (ent pool iter).txTime > blockTime) then
          addPriorityTxsLoop pool env fProofOfStake blockTime nBlockPrioritySize fuel s vec1 waitPriMap
        else if isStillDependent s pool iter then
          addPriorityTxsLoop pool env fProofOfStake blockTime nBlockPrioritySize fuel s vec1
            ((iter, actualPriority) :: waitPriMap)
        else
          match TestForBlock s pool iter with
          | (true, s1) =>
            let s2 := AddToBlock s1 pool iter
            if s2.nBlockSize ≥ nBlockPrioritySize ∨ !(env.allowFree actualPriority) then s2
            else
              let vw := promoteChildren pool iter (vec1, waitPriMap)
              addPriorityTxsLoop pool env fProofOfStake blockTime nBlockPrioritySize fuel s2 vw.1 vw.2
          | (false, s1) =>
            addPriorityTxsLoop pool env fProofOfStake blockTime nBlockPrioritySize fuel s1 vec1 waitPriMap

/-- Fuel that dominates the number of `addPriorityTxs` loop iterations. -/
def priorityFuel (pool : List MemEntry) : Nat :=
  pool.length * pool.length + pool.length + 1

/-- `addPriorityTxs` (lines 522-606): resolve the priority budget, force
byte-size accounting for the duration of the phase, seed the priority heap
from the whole pool and run the loop, then restore the accounting flag. -/
def addPriorityTxs (pool : List MemEntry) (env : Env) (fProofOfStake : Bool)
    (blockTime : Nat) (s : BState) : BState :=
  let nBlockPrioritySize := min s.nBlockMaxSize env.blockPrioritySize
  if nBlockPrioritySize = 0 then s
  else
    let fSizeAccounting := s.fNeedSizeAccounting
    let s1 := { s with fNeedSizeAccounting := true }
    let vecPriority :=
      (List.range pool.length).map (fun i => ((ent pool i).priority, i))
    let s2 := addPriorityTxsLoop pool env fProofOfStake blockTime nBlockPrioritySize
      (priorityFuel pool) s1 vecPriority []
    { s2 with fNeedSizeAccounting := fSizeAccounting }

/-- GetMaxTransactionTime of the block under construction (modelled from
the spec's `block.maxTxTime`; primitives/block.h is not in src): the
maximum transaction timestamp over the coinbase and the committed ids,
starting from 0. -/
def maxTxTime (pool : List MemEntry) (coinbase : CoinbaseTx) (ids : List Nat) : Int :=
  (((coinbase.nTime : Int) :: ids.map (fun i => ((ent pool i).txTime : Int)))).foldl max 0

/-- `CreateNewBlock` (lines 126-212).  Inputs mirror the C++ signature:
`hasStakeReward` models whether the `pStakeReward` out-pointer is non-null,
`argWeight`/`argSize` the `-blockmaxweight`/`-blockmaxsize` options.
Returns the template together with the value written through
`pStakeReward` (PoS only), or `none` on the two NULL returns. -/
def CreateNewBlock (pool : List MemEntry) (env : Env) (scriptPubKeyIn : List Nat)
    (fProofOfStake : Bool) (hasStakeReward : Bool) (fMineWitnessTx : Bool)
    (argWeight argSize : Option Nat) : Option (CBlockTemplate × Option Int) :=
  let cfg := BlockAssemblerInit argWeight argSize
  if fProofOfStake && !hasStakeReward then none
  else if !env.allocOk then none
  else
    let nHeight := env.tipHeight + 1
    let fIncludeWitness := env.witnessEnabled && fMineWitnessTx
    let s0 := initialBState cfg fIncludeWitness nHeight
    let headerTime0 : Int := u32I (env.adjTime : Int)
    let s1 := addPriorityTxs pool env fProofOfStake env.dummyTxTime s0
    let s2 := addPackageTxs pool env s1
    let coinbase : CoinbaseTx :=
      if fProofOfStake then
        { nTime := u32N env.adjTime, scriptPubKey := [], value := 0,
          scriptSigHeight := nHeight }
      else
        { nTime := u32N env.adjTime, scriptPubKey := scriptPubKeyIn,
          value := s2.nFees + env.blockSubsidy nHeight, scriptSigHeight := nHeight }
    let stakeReward : Option Int :=
      if fProofOfStake then some (s2.nFees + env.posReward nHeight) else none
    let vTxFees := s2.vTxFees.set 0 (- s2.nFees)
    let vTxSig := s2.vTxSigOpsCost.set 0 ((WITNESS_SCALE_FACTOR * env.coinbaseLegacySigOps : Nat) : Int)
    let headerTime : Int :=
      if fProofOfStake then
        let t1 := u32I (max (env.medianTimePast + BLOCK_LIMITER_TIME + 1)
          (maxTxTime pool coinbase (stateIds s2)))
        u32I (max t1 (env.pastDrift env.tipTime))
      else
        let header0 : BlockHeader :=
          { nVersion := env.blockVersion, hashPrevBlock := env.hashPrevBlock,
            nTime := headerTime0, nBits := 0, nNonce := 0 }
        (UpdateTime header0 env.medianTimePast (env.adjTime : Int)).2.nTime
    some
      ({ coinbase := coinbase, vtx := s2.vtx, vTxFees := vTxFees,
         vTxSigOpsCost := vTxSig,
         header :=
           { nVersion := env.blockVersion, hashPrevBlock := env.hashPrevBlock,
             nTime := headerTime, nBits := env.nextWorkRequired fProofOfStake,
             nNonce := 0 },
         vchCoinbaseCommitment := env.commitment }, stakeReward)

/-- Minimal transaction view used by `SignBlock` (modelled from the spec;
primitives/transaction.h is not in src): the timestamp, whether
`vout[0].IsEmpty()` holds, and whether the transaction is a coinstake. -/
structure STx where
  nTime : Nat
  vout0Empty : Bool
  isCoinStake : Bool
  deriving Repr, DecidableEq

instance : Inhabited STx := ⟨{ nTime := 0, vout0Empty := false, isCoinStake := false }⟩

/-- Block view used by `SignBlock`: transaction vector, header time, bits
and the signature flag. -/
structure SBlock where
  vtx : List STx
  nTime : Int
  nBits : Nat
  signedBlock : Bool
  deriving Repr, DecidableEq

/-- Modelled from the spec: `CBlock::IsProofOfStake` (primitives/block.h,
not in src) — more than one transaction and the second one is a coinstake. -/
def SBlock.IsProofOfStake (b : SBlock) : Bool :=
  decide (1 < b.vtx.length) && (b.vtx.getD 1 default).isCoinStake

/-- Modelled from the spec: `CBlock::GetMaxTransactionTime`
(primitives/block.h, not in src) — maximum transaction timestamp of the
block, starting from 0. -/
def SBlock.GetMaxTransactionTime (b : SBlock) : Int :=
  (b.vtx.map (fun t => (t.nTime : Int))).foldl max 0

/-- External collaborators of `SignBlock`: the adjusted time, the best
header's median time past and block time, `PastDrift`, the wallet's
`CreateCoinStake` (returning the constructed coinstake on success) and the
key signature outcome. -/
structure SEnv where
  adjTime : Nat
  bestMtp : Int
  bestTime : Int
  pastDrift : Int → Int
  createCoinStake : Option STx
  signOk : Bool

/-- Insertion of the coinstake at index 1
(`pblock->vtx.insert(pblock->vtx.begin() + 1, txNew)`). -/
def insertAtOne (l : List STx) (x : STx) : List STx :=
  l.take 1 ++ x :: l.drop 1

/-- `SignBlock` (lines 772-825).  `lastSearchTime` models the static
`nLastCoinStakeSearchTime`.  Returns the signed block on success.  Note
that the future-timestamp filter of lines 808-809 runs on the local copy
`vtx` of the transaction vector, which is never written back to the block
(only read to completion); the embedding keeps that local computation as
`vtxFiltered`, which is dead. -/
def SignBlock (env : SEnv) (pblock : SBlock) (lastSearchTime : Int) : Option SBlock :=
  let vtx := pblock.vtx
  match vtx with
  | [] => none
  | t0 :: _ =>
    if !t0.vout0Empty then none
    else if pblock.IsProofOfStake then some pblock
    else
      let coinStakeTime0 : Nat := env.adjTime
      let nSearchTime : Int := (coinStakeTime0 : Int)
      if nSearchTime > lastSearchTime then
        match env.createCoinStake with
        | some txCoinStake =>
          if (txCoinStake.nTime : Int) ≥
              max (env.bestMtp + BLOCK_LIMITER_TIME + 1) (env.pastDrift env.bestTime) then
            let b1 : SBlock :=
              { pblock with
                vtx := pblock.vtx.set 0 { t0 with nTime := txCoinStake.nTime },
                nTime := (txCoinStake.nTime : Int) }
            let b2 : SBlock :=
              { b1 with nTime := u32I (max (env.bestMtp + BLOCK_LIMITER_TIME + 1) b1.GetMaxTransactionTime) }
            let b3 : SBlock := { b2 with nTime := u32I (max b2.nTime (env.pastDrift env.bestTime)) }
            let _vtxFiltered := vtx.filter (fun it => decide (¬ ((it.nTime : Int) > b3.nTime)))
            let b4 : SBlock := { b3 with vtx := insertAtOne b3.vtx txCoinStake }
            if env.signOk then some { b4 with signedBlock := true } else none
          else none
        | none => none
      else none

instance : Inhabited CoinbaseTx :=
  ⟨{ nTime := 0, scriptPubKey := [], value := 0, scriptSigHeight := 0 }⟩

instance : Inhabited BlockHeader :=
  ⟨{ nVersion := 0, hashPrevBlock := 0, nTime := 0, nBits := 0, nNonce := 0 }⟩

instance : Inhabited CBlockTemplate :=
  ⟨{ coinbase := default, vtx := [], vTxFees := [], vTxSigOpsCost := [],
     header := default, vchCoinbaseCommitment := [] }⟩

/-- Demo chain context used by the witnesses. -/
def demoEnv : Env :=
  { adjTime := 100000, medianTimePast := 50000, tipTime := 99000, tipHeight := 9,
    hashPrevBlock := 77, blockVersion := 4,
    pastDrift := fun t => t - 7200, blockSubsidy := fun _ => 5000000,
    posReward := fun _ => 300000, nextWorkRequired := fun _ => 500000000,
    minRelayFee := fun sz => (sz : Int), allowFree := fun p => decide (p > 0),
    blockPrioritySize := 0, dummyTxTime := 0, witnessEnabled := true,
    allocOk := true, coinbaseLegacySigOps := 1, commitment := [] }

/-- Demo chain context with a non-zero priority budget. -/
def demoEnvPrio : Env := { demoEnv with blockPrioritySize := 10000 }

/-- Demo mempool entry 0: an independent transaction. -/
def demoE0 : MemEntry :=
  { txTime := 90000, hasWitness := false, isFinal := true, txSize := 250,
    serSize := 250, txWeight := 1000, fee := 1000, modifiedFee := 1000,
    sigOpCost := 4, sizeWithAncestors := 250, modFeesWithAncestors := 1000,
    sigOpCostWithAncestors := 4, countWithAncestors := 1, parents := [],
    ancestors := [], priority := 10 }

/-- Demo mempool entry 1: a child of entry 0. -/
def demoE1 : MemEntry :=
  { txTime := 90050, hasWitness := false, isFinal := true, txSize := 250,
    serSize := 250, txWeight := 1000, fee := 1000, modifiedFee := 1000,
    sigOpCost := 4, sizeWithAncestors := 500, modFeesWithAncestors := 2000,
    sigOpCostWithAncestors := 8, countWithAncestors := 2, parents := [0],
    ancestors := [0], priority := 5 }

/-- Demo mempool entry 2: a grandchild (child of 1, hence descendant of 0). -/
def demoE2 : MemEntry :=
  { txTime := 90100, hasWitness := false, isFinal := true, txSize := 300,
    serSize := 300, txWeight := 1200, fee := 900, modifiedFee := 900,
    sigOpCost := 4, sizeWithAncestors := 800, modFeesWithAncestors := 2900,
    sigOpCostWithAncestors := 12, countWithAncestors := 3, parents := [1],
    ancestors := [0, 1], priority := 1 }

/-- Demo mempool: a two-transaction parent/child chain. -/
def demoPool : List MemEntry := [demoE0, demoE1]

/-- Demo mempool: a three-transaction chain. -/
def demoPool3 : List MemEntry := [demoE0, demoE1, demoE2]

/-- Demo proof-of-work run of `CreateNewBlock` on `demoPool`. -/
def demoRunPoW : Option (CBlockTemplate × Option Int) :=
  CreateNewBlock demoPool demoEnv [1, 2, 3] false false true none none

/-- Template produced by the demo proof-of-work run. -/
def demoTPoW : CBlockTemplate := (demoRunPoW.map Prod.fst).getD default

/-- Demo proof-of-stake run of `CreateNewBlock` on `demoPool`. -/
def demoRunPoS : Option (CBlockTemplate × Option Int) :=
  CreateNewBlock demoPool demoEnv [] true true true none none

/-- Template produced by the demo proof-of-stake run. -/
def demoTPoS : CBlockTemplate := (demoRunPoS.map Prod.fst).getD default

/-- Stake reward produced by the demo proof-of-stake run. -/
def demoRPoS : Option Int := (demoRunPoS.map Prod.snd).getD none

/-- Demo proof-of-work run with the priority phase enabled. -/
def demoRunPrio : Option (CBlockTemplate × Option Int) :=
  CreateNewBlock demoPool demoEnvPrio [1, 2, 3] false false true none none

/-- Template produced by the priority-enabled demo run. -/
def demoTPrio : CBlockTemplate := (demoRunPrio.map Prod.fst).getD default

/-- A mempool entry carrying a timestamp in the future of the demo
adjusted time (but accepted by the mempool, which is out of scope). -/
def futureE : MemEntry :=
  { txTime := 200000, hasWitness := false, isFinal := true, txSize := 250,
    serSize := 250, txWeight := 1000, fee := 1000, modifiedFee := 1000,
    sigOpCost := 4, sizeWithAncestors := 250, modFeesWithAncestors := 1000,
    sigOpCostWithAncestors := 4, countWithAncestors := 1, parents := [],
    ancestors := [], priority := 0 }

/-- Mempool holding only the future-dated transaction. -/
def futurePool : List MemEntry := [futureE]

/-- Proof-of-work run of `CreateNewBlock` over `futurePool`. -/
def futureRun : Option (CBlockTemplate × Option Int) :=
  CreateNewBlock futurePool demoEnv [1] false false true none none

/-- Demo `SignBlock` environment: the kernel search succeeds with a
coinstake timestamped inside the allowed window. -/
def demoSEnv : SEnv :=
  { adjTime := 100000, bestMtp := 50000, bestTime := 99000,
    pastDrift := fun t => t - 7200,
    createCoinStake := some { nTime := 99990, vout0Empty := false, isCoinStake := true },
    signOk := true }

/-- Demo proof-of-stake template block handed to `SignBlock`: an empty
coinbase and one mempool transaction. -/
def demoSBlock : SBlock :=
  { vtx := [{ nTime := 100000, vout0Empty := true, isCoinStake := false },
            { nTime := 99500, vout0Empty := false, isCoinStake := false }],
    nTime := 100000, nBits := 500000000, signedBlock := false }

/-- The not-yet-committed part of an entry's ancestor set, together with
the entry itself: the package that would be committed for it. -/
def uncSelf (pool : List MemEntry) (B : List Nat) (e : Nat) : List Nat :=
  (ent pool e).ancestors.filter (fun a => decide (a ∉ B)) ++ [e]

/-- Master invariant of the block in progress: the template vectors are
the dummy coinbase slot followed by the committed ids with their fees and
sigop costs, the counters are the coinbase reservations plus the sums over
the committed ids, the caps hold, and the committed ids are
duplicate-free, ancestor-closed, topologically ordered and final. -/
structure BInv (pool : List MemEntry) (s : BState) : Prop where
  vtx_eq : s.vtx = none :: (stateIds s).map some
  fees_eq : s.vTxFees = (-1) :: (stateIds s).map (fun i => (ent pool i).fee)
  sig_eq : s.vTxSigOpsCost = (-1) :: (stateIds s).map (fun i => ((ent pool i).sigOpCost : Int))
  in_eq : s.inBlock = (stateIds s).reverse
  w_eq : s.nBlockWeight = 4000 + sumWeight pool (stateIds s)
  sz_eq : s.fNeedSizeAccounting = true → s.nBlockSize = 1000 + sumSerSize pool (stateIds s)
  so_eq : s.nBlockSigOpsCost = 400 + sumSigOpsN pool (stateIds s)
  fee_eq : s.nFees = sumFees pool (stateIds s)
  tx_eq : s.nBlockTx = (stateIds s).length
  w_le : s.nBlockWeight ≤ s.nBlockMaxWeight
  sz_le : s.nBlockSize ≤ s.nBlockMaxSize
  so_le : s.nBlockSigOpsCost ≤ MAX_BLOCK_SIGOPS_COST
  nd : (stateIds s).Nodup
  closed : ∀ i ∈ stateIds s, ∀ a ∈ (ent pool i).ancestors, a ∈ stateIds s
  topo : ∀ p, p < (stateIds s).length →
    ∀ a ∈ (ent pool ((stateIds s).getD p 0)).ancestors, a ∈ (stateIds s).take p
  fin : ∀ i ∈ stateIds s, (ent pool i).isFinal = true

/-- Key list of the modified-entry shadow map. -/
def mapKeys (m : List CTxMemPoolModifiedEntry) : List Nat :=
  m.map (fun me => me.iterId)

/-- Invariant of the modified-entry shadow map relative to the committed
set `B`: keys are duplicate-free and absent from `B`, and the remaining
aggregates dominate the sums over the entry's uncommitted ancestors plus
itself (equality holds in the clean runs; the inequality is what the cap
arguments need and survives the `failedTx` re-insertion corner). -/
def MInvP (pool : List MemEntry) (B : List Nat) (m : List CTxMemPoolModifiedEntry) : Prop :=
  (mapKeys m).Nodup ∧
  ∀ me ∈ m,
    me.iterId ∉ B ∧
    me.nSizeWithAncestors < U64 ∧
    sumTxSize pool (uncSelf pool B me.iterId) ≤ me.nSizeWithAncestors ∧
    sumSigOpsI pool (uncSelf pool B me.iterId) ≤ me.nSigOpCostWithAncestors

/-! Basic toolkit lemmas about the sums, the machine-word helpers and
lists, used throughout the development. -/

theorem ent_out {pool : List MemEntry} {i : Nat} (h : pool.length ≤ i) :
    ent pool i = MemEntry.null :=
  List.getD_eq_default _ _ h

theorem usub64_eq_sub {a b : Nat} (hba : b ≤ a) (ha : a < U64) :
    usub64 a b = a - b := by
  have hU : U64 = 18446744073709551616 := rfl
  unfold usub64
  rw [hU] at ha ⊢
  have hb : b % 18446744073709551616 = b := Nat.mod_eq_of_lt (lt_of_le_of_lt hba ha)
  rw [hb]
  omega

theorem u32I_eq_self {x : Int} (h0 : 0 ≤ x) (h1 : x < (U32 : Int)) : u32I x = x := by
  unfold u32I
  exact Int.emod_eq_of_lt h0 h1

theorem sumTxSize_append (pool : List MemEntry) (l1 l2 : List Nat) :
    sumTxSize pool (l1 ++ l2) = sumTxSize pool l1 + sumTxSize pool l2 := by
  simp [sumTxSize]

theorem sumSerSize_append (pool : List MemEntry) (l1 l2 : List Nat) :
    sumSerSize pool (l1 ++ l2) = sumSerSize pool l1 + sumSerSize pool l2 := by
  simp [sumSerSize]

theorem sumWeight_append (pool : List MemEntry) (l1 l2 : List Nat) :
    sumWeight pool (l1 ++ l2) = sumWeight pool l1 + sumWeight pool l2 := by
  simp [sumWeight]

theorem sumSigOpsN_append (pool : List MemEntry) (l1 l2 : List Nat) :
    sumSigOpsN pool (l1 ++ l2) = sumSigOpsN pool l1 + sumSigOpsN pool l2 := by
  simp [sumSigOpsN]

theorem sumSigOpsI_append (pool : List MemEntry) (l1 l2 : List Nat) :
    sumSigOpsI pool (l1 ++ l2) = sumSigOpsI pool l1 + sumSigOpsI pool l2 := by
  simp [sumSigOpsI]

theorem sumFees_append (pool : List MemEntry) (l1 l2 : List Nat) :
    sumFees pool (l1 ++ l2) = sumFees pool l1 + sumFees pool l2 := by
  simp [sumFees]

theorem sumModFees_append (pool : List MemEntry) (l1 l2 : List Nat) :
    sumModFees pool (l1 ++ l2) = sumModFees pool l1 + sumModFees pool l2 := by
  simp [sumModFees]

theorem sumSigOpsI_eq_cast (pool : List MemEntry) (l : List Nat) :
    sumSigOpsI pool l = ((sumSigOpsN pool l : Nat) : Int) := by
  induction l with
  | nil => simp [sumSigOpsI, sumSigOpsN]
  | cons x t ih =>
    simp only [sumSigOpsI, sumSigOpsN, List.map_cons, List.sum_cons] at ih ⊢
    rw [ih]
    push_cast
    ring

theorem sumSigOpsI_nonneg (pool : List MemEntry) (l : List Nat) :
    0 ≤ sumSigOpsI pool l := by
  rw [sumSigOpsI_eq_cast]
  positivity

theorem sumTxSize_perm (pool : List MemEntry) {l1 l2 : List Nat}
    (h : List.Perm l1 l2) : sumTxSize pool l1 = sumTxSize pool l2 :=
  (h.map _).sum_eq

theorem sumSerSize_perm (pool : List MemEntry) {l1 l2 : List Nat}
    (h : List.Perm l1 l2) : sumSerSize pool l1 = sumSerSize pool l2 :=
  (h.map _).sum_eq

theorem sumWeight_perm (pool : List MemEntry) {l1 l2 : List Nat}
    (h : List.Perm l1 l2) : sumWeight pool l1 = sumWeight pool l2 :=
  (h.map _).sum_eq

theorem sumSigOpsN_perm (pool : List MemEntry) {l1 l2 : List Nat}
    (h : List.Perm l1 l2) : sumSigOpsN pool l1 = sumSigOpsN pool l2 :=
  (h.map _).sum_eq

theorem sumSigOpsI_perm (pool : List MemEntry) {l1 l2 : List Nat}
    (h : List.Perm l1 l2) : sumSigOpsI pool l1 = sumSigOpsI pool l2 :=
  (h.map _).sum_eq

theorem sumFees_perm (pool : List MemEntry) {l1 l2 : List Nat}
    (h : List.Perm l1 l2) : sumFees pool l1 = sumFees pool l2 :=
  (h.map _).sum_eq

theorem sumTxSize_sublist (pool : List MemEntry) {l1 l2 : List Nat}
    (h : List.Sublist l1 l2) : sumTxSize pool l1 ≤ sumTxSize pool l2 :=
  List.Sublist.sum_le_sum (h.map _) (by simp)

theorem sumSigOpsI_sublist (pool : List MemEntry) {l1 l2 : List Nat}
    (h : List.Sublist l1 l2) : sumSigOpsI pool l1 ≤ sumSigOpsI pool l2 := by
  apply List.Sublist.sum_le_sum (h.map _)
  intro x hx
  obtain ⟨y, _, rfl⟩ := List.mem_map.mp hx
  positivity

theorem sumTxSize_subperm (pool : List MemEntry) {l1 l2 : List Nat}
    (h : List.Subperm l1 l2) : sumTxSize pool l1 ≤ sumTxSize pool l2 := by
  obtain ⟨l3, hp, hs⟩ := h
  calc sumTxSize pool l1 = sumTxSize pool l3 := (sumTxSize_perm pool hp).symm
  _ ≤ sumTxSize pool l2 := sumTxSize_sublist pool hs

theorem sumSigOpsI_subperm (pool : List MemEntry) {l1 l2 : List Nat}
    (h : List.Subperm l1 l2) : sumSigOpsI pool l1 ≤ sumSigOpsI pool l2 := by
  obtain ⟨l3, hp, hs⟩ := h
  calc sumSigOpsI pool l1 = sumSigOpsI pool l3 := (sumSigOpsI_perm pool hp).symm
  _ ≤ sumSigOpsI pool l2 := sumSigOpsI_sublist pool hs

theorem weight_le_four_size_sum (pool : List MemEntry) (l : List Nat)
    (h : ∀ i ∈ l, (ent pool i).txWeight ≤ WITNESS_SCALE_FACTOR * (ent pool i).txSize) :
    sumWeight pool l ≤ WITNESS_SCALE_FACTOR * sumTxSize pool l := by
  induction l with
  | nil => simp [sumWeight, sumTxSize]
  | cons x t ih =>
    simp only [sumWeight, sumTxSize, List.map_cons, List.sum_cons] at ih ⊢
    have h1 := h x (List.mem_cons_self x t)
    have h2 := ih (fun i hi => h i (List.mem_cons_of_mem x hi))
    simp only [sumWeight, sumTxSize] at h2
    rw [Nat.mul_add]
    omega

theorem getD_eq_get {l : List Nat} {i : Nat} (h : i < l.length) :
    l.getD i 0 = l.get ⟨i, h⟩ := by
  rw [List.getD_eq_getElem l 0 h]
  simp [List.get_eq_getElem]

theorem getD_mem_take {l : List Nat} {i n : Nat} (h : i < n) (hh : i < l.length) :
    l.getD i 0 ∈ l.take n := by
  have h2 : l.get? i = some (l.get ⟨i, hh⟩) := List.get?_eq_get hh
  have h1 : (l.take n).get? i = some (l.get ⟨i, hh⟩) := by
    rw [List.get?_take h, h2]
  rw [getD_eq_get hh]
  exact List.get?_mem h1

theorem perm_of_nodup_mem_iff {l1 l2 : List Nat} (h1 : l1.Nodup) (h2 : l2.Nodup)
    (h : ∀ x, x ∈ l1 ↔ x ∈ l2) : List.Perm l1 l2 := by
  apply List.perm_iff_count.mpr
  intro x
  by_cases hx : x ∈ l1
  · rw [List.count_eq_one_of_mem h1 hx, List.count_eq_one_of_mem h2 ((h x).mp hx)]
  · rw [List.count_eq_zero_of_not_mem hx,
      List.count_eq_zero_of_not_mem (fun hc => hx ((h x).mpr hc))]

/-! Extraction of the well-formedness facts from `wfPool`. -/

theorem wfEntry_null (pool : List MemEntry) (i : Nat) (h : pool.length ≤ i) :
    wfEntry pool i = true := by
  have he : ent pool i = MemEntry.null := ent_out h
  simp [wfEntry, he, MemEntry.null, sumTxSize, sumSigOpsI, sumModFees, U64, U32,
    WITNESS_SCALE_FACTOR]

theorem wfEntry_true {pool : List MemEntry} (hwf : wfPool pool = true) (i : Nat) :
    wfEntry pool i = true := by
  rcases Nat.lt_or_ge i pool.length with h | h
  · exact List.all_eq_true.mp hwf i (List.mem_range.mpr h)
  · exact wfEntry_null pool i h

theorem wf_decomp {pool : List MemEntry} (hwf : wfPool pool = true) (i : Nat) :
    (∀ a ∈ (ent pool i).ancestors, a ≠ i) ∧
    (ent pool i).ancestors.Nodup ∧
    (∀ p ∈ (ent pool i).parents, p ∈ (ent pool i).ancestors) ∧
    (∀ a ∈ (ent pool i).ancestors,
      a ∈ (ent pool i).parents ∨ ∃ p ∈ (ent pool i).parents, a ∈ (ent pool p).ancestors) ∧
    (∀ a ∈ (ent pool i).ancestors, ∀ b ∈ (ent pool a).ancestors, b ∈ (ent pool i).ancestors) ∧
    (∀ a ∈ (ent pool i).ancestors,
      (ent pool a).countWithAncestors < (ent pool i).countWithAncestors) ∧
    (ent pool i).sizeWithAncestors = (ent pool i).txSize + sumTxSize pool (ent pool i).ancestors ∧
    (ent pool i).sigOpCostWithAncestors
      = ((ent pool i).sigOpCost : Int) + sumSigOpsI pool (ent pool i).ancestors ∧
    (ent pool i).modFeesWithAncestors
      = (ent pool i).modifiedFee + sumModFees pool (ent pool i).ancestors ∧
    (ent pool i).txWeight ≤ WITNESS_SCALE_FACTOR * (ent pool i).txSize ∧
    (ent pool i).sizeWithAncestors < U64 ∧
    (ent pool i).txTime < U32 := by
  have h := wfEntry_true hwf i
  simp only [wfEntry, Bool.and_eq_true, List.all_eq_true, List.any_eq_true,
    Bool.or_eq_true, decide_eq_true_eq] at h
  tauto

theorem wf_anc_ne {pool : List MemEntry} (hwf : wfPool pool = true) {i a : Nat}
    (ha : a ∈ (ent pool i).ancestors) : a ≠ i :=
  (wf_decomp hwf i).1 a ha

theorem wf_anc_nodup {pool : List MemEntry} (hwf : wfPool pool = true) (i : Nat) :
    (ent pool i).ancestors.Nodup :=
  (wf_decomp hwf i).2.1

theorem wf_parents_sub {pool : List MemEntry} (hwf : wfPool pool = true) {i p : Nat}
    (hp : p ∈ (ent pool i).parents) : p ∈ (ent pool i).ancestors :=
  (wf_decomp hwf i).2.2.1 p hp

theorem wf_cover {pool : List MemEntry} (hwf : wfPool pool = true) {i a : Nat}
    (ha : a ∈ (ent pool i).ancestors) :
    a ∈ (ent pool i).parents ∨ ∃ p ∈ (ent pool i).parents, a ∈ (ent pool p).ancestors :=
  (wf_decomp hwf i).2.2.2.1 a ha

theorem wf_trans {pool : List MemEntry} (hwf : wfPool pool = true) {i a b : Nat}
    (ha : a ∈ (ent pool i).ancestors) (hb : b ∈ (ent pool a).ancestors) :
    b ∈ (ent pool i).ancestors :=
  (wf_decomp hwf i).2.2.2.2.1 a ha b hb

theorem wf_count {pool : List MemEntry} (hwf : wfPool pool = true) {i a : Nat}
    (ha : a ∈ (ent pool i).ancestors) :
    (ent pool a).countWithAncestors < (ent pool i).countWithAncestors :=
  (wf_decomp hwf i).2.2.2.2.2.1 a ha

theorem wf_size_agg {pool : List MemEntry} (hwf : wfPool pool = true) (i : Nat) :
    (ent pool i).sizeWithAncestors = (ent pool i).txSize + sumTxSize pool (ent pool i).ancestors :=
  (wf_decomp hwf i).2.2.2.2.2.2.1

theorem wf_sig_agg {pool : List MemEntry} (hwf : wfPool pool = true) (i : Nat) :
    (ent pool i).sigOpCostWithAncestors
      = ((ent pool i).sigOpCost : Int) + sumSigOpsI pool (ent pool i).ancestors :=
  (wf_decomp hwf i).2.2.2.2.2.2.2.1

theorem wf_fee_agg {pool : List MemEntry} (hwf : wfPool pool = true) (i : Nat) :
    (ent pool i).modFeesWithAncestors
      = (ent pool i).modifiedFee + sumModFees pool (ent pool i).ancestors :=
  (wf_decomp hwf i).2.2.2.2.2.2.2.2.1

theorem wf_weight {pool : List MemEntry} (hwf : wfPool pool = true) (i : Nat) :
    (ent pool i).txWeight ≤ WITNESS_SCALE_FACTOR * (ent pool i).txSize :=
  (wf_decomp hwf i).2.2.2.2.2.2.2.2.2.1

theorem wf_szlt {pool : List MemEntry} (hwf : wfPool pool = true) (i : Nat) :
    (ent pool i).sizeWithAncestors < U64 :=
  (wf_decomp hwf i).2.2.2.2.2.2.2.2.2.2.1

theorem wf_txtime {pool : List MemEntry} (hwf : wfPool pool = true) (i : Nat) :
    (ent pool i).txTime < U32 :=
  (wf_decomp hwf i).2.2.2.2.2.2.2.2.2.2.2

/-! Library for the modified-entry shadow map. -/

theorem mapFind_some_iterId {m : List CTxMemPoolModifiedEntry} {i : Nat}
    {me : CTxMemPoolModifiedEntry} (h : mapFind m i = some me) : me.iterId = i := by
  have := List.find?_some h
  simpa using this

theorem mapFind_mem {m : List CTxMemPoolModifiedEntry} {i : Nat}
    {me : CTxMemPoolModifiedEntry} (h : mapFind m i = some me) : me ∈ m :=
  List.mem_of_find?_eq_some h

theorem mapFind_none_iff {m : List CTxMemPoolModifiedEntry} {i : Nat} :
    mapFind m i = none ↔ ∀ me ∈ m, me.iterId ≠ i := by
  unfold mapFind
  rw [List.find?_eq_none]
  constructor
  · intro h me hme
    have := h me hme
    simpa using this
  · intro h me hme
    simpa using h me hme

theorem mapFind_cons {x : CTxMemPoolModifiedEntry} {m : List CTxMemPoolModifiedEntry} {i : Nat} :
    mapFind (x :: m) i = if x.iterId = i then some x else mapFind m i := by
  unfold mapFind
  rcases eq_or_ne x.iterId i with h | h
  · rw [List.find?_cons_of_pos _ (by simp [h]), if_pos h]
  · rw [List.find?_cons_of_neg _ (by simp [h]), if_neg h]

theorem mem_mapFind {m : List CTxMemPoolModifiedEntry} {me : CTxMemPoolModifiedEntry}
    (hk : (mapKeys m).Nodup) (hme : me ∈ m) : mapFind m me.iterId = some me := by
  induction m with
  | nil => cases hme
  | cons x t ih =>
    rw [mapFind_cons]
    rcases List.mem_cons.mp hme with rfl | hmem
    · simp
    · have hx : x.iterId ≠ me.iterId := by
        intro he
        have : me.iterId ∈ mapKeys t := List.mem_map.mpr ⟨me, hmem, rfl⟩
        rw [← he] at this
        exact (List.nodup_cons.mp hk).1 this
      rw [if_neg hx]
      exact ih (List.nodup_cons.mp hk).2 hmem

theorem mapErase_mem {m : List CTxMemPoolModifiedEntry} {i : Nat}
    {me : CTxMemPoolModifiedEntry} : me ∈ mapErase m i ↔ me ∈ m ∧ me.iterId ≠ i := by
  unfold mapErase
  simp [List.mem_filter]

theorem mapErase_find_self {m : List CTxMemPoolModifiedEntry} {i : Nat} :
    mapFind (mapErase m i) i = none := by
  rw [mapFind_none_iff]
  intro me hme
  exact (mapErase_mem.mp hme).2

theorem mapErase_find_other {m : List CTxMemPoolModifiedEntry} {i j : Nat} (h : j ≠ i) :
    mapFind (mapErase m i) j = mapFind m j := by
  induction m with
  | nil => rfl
  | cons x t ih =>
    unfold mapErase
    rcases eq_or_ne x.iterId i with hx | hx
    · rw [List.filter_cons_of_neg (by simp [hx])]
      have : mapFind (x :: t) j = mapFind t j := by
        rw [mapFind_cons, if_neg (by rw [hx]; exact fun he => h he.symm)]
      rw [this]
      exact ih
    · rw [List.filter_cons_of_pos (by simp [hx])]
      rw [mapFind_cons, mapFind_cons]
      rcases eq_or_ne x.iterId j with hj | hj
      · simp [hj]
      · rw [if_neg hj, if_neg hj]
        exact ih

theorem mapErase_keys_sublist (m : List CTxMemPoolModifiedEntry) (i : Nat) :
    List.Sublist (mapKeys (mapErase m i)) (mapKeys m) :=
  (List.filter_sublist m).map _

theorem mapErase_keyNodup {m : List CTxMemPoolModifiedEntry} (i : Nat)
    (hk : (mapKeys m).Nodup) : (mapKeys (mapErase m i)).Nodup :=
  hk.sublist (mapErase_keys_sublist m i)

theorem mapModify_keys {m : List CTxMemPoolModifiedEntry} {i : Nat}
    {f : CTxMemPoolModifiedEntry → CTxMemPoolModifiedEntry}
    (hf : ∀ x, (f x).iterId = x.iterId) : mapKeys (mapModify m i f) = mapKeys m := by
  unfold mapKeys mapModify
  rw [List.map_map]
  apply List.map_congr_left
  intro x _
  by_cases hx : x.iterId = i
  · simp [Function.comp, hx, hf]
  · simp [Function.comp, hx]

theorem mapModify_find {m : List CTxMemPoolModifiedEntry} {i j : Nat}
    {f : CTxMemPoolModifiedEntry → CTxMemPoolModifiedEntry}
    (hf : ∀ x, (f x).iterId = x.iterId) :
    mapFind (mapModify m i f) j =
      if j = i then (mapFind m i).map f else mapFind m j := by
  induction m with
  | nil => rcases eq_or_ne j i with h | h <;> simp [mapModify, mapFind, h]
  | cons x t ih =>
    show mapFind ((if x.iterId = i then f x else x) :: mapModify t i f) j = _
    rcases eq_or_ne x.iterId i with hx | hx
    · rw [if_pos hx, mapFind_cons, hf, hx]
      rcases eq_or_ne j i with hj | hj
      · subst hj
        rw [if_pos rfl, if_pos rfl, mapFind_cons, if_pos hx]
        simp
      · rw [if_neg (fun he : i = j => hj he.symm), ih, if_neg hj, if_neg hj,
          mapFind_cons, if_neg (fun he : x.iterId = j => hj (hx ▸ he).symm)]
    · rw [if_neg hx, mapFind_cons]
      rcases eq_or_ne j i with hj | hj
      · subst hj
        rw [if_neg (fun he : x.iterId = j => hx he), ih, if_pos rfl, if_pos rfl,
          mapFind_cons, if_neg hx]
      · rw [ih, if_neg hj, if_neg hj, mapFind_cons]

/-! Characterization of `UpdatePackagesForAdded` through `mapFind`. -/

theorem mem_CalculateDescendants {pool : List MemEntry} {a e : Nat} :
    e ∈ CalculateDescendants pool a ↔
      e = a ∨ (e < pool.length ∧ a ∈ (ent pool e).ancestors) := by
  unfold CalculateDescendants
  simp [List.mem_filter, List.mem_range]

theorem nodup_CalculateDescendants {pool : List MemEntry} (hwf : wfPool pool = true) (a : Nat) :
    (CalculateDescendants pool a).Nodup := by
  unfold CalculateDescendants
  rw [List.nodup_cons]
  constructor
  · intro hmem
    have h2 := List.mem_filter.mp hmem
    have ha : a ∈ (ent pool a).ancestors := by simpa using h2.2
    exact wf_anc_ne hwf ha rfl
  · exact (List.nodup_range _).filter _

theorem upd_iterId (pool : List MemEntry) (it : Nat) (me : CTxMemPoolModifiedEntry) :
    (update_for_parent_inclusion pool it me).iterId = me.iterId := rfl

theorem updateOne_find (pool : List MemEntry) (A : List Nat) (it : Nat)
    (m : List CTxMemPoolModifiedEntry) (desc j : Nat) :
    mapFind (updateOne pool A it m desc) j =
      if desc ∈ A then mapFind m j
      else if j = desc then
        some (update_for_parent_inclusion pool it ((mapFind m desc).getD (mkModEntry pool desc)))
      else mapFind m j := by
  unfold updateOne
  by_cases hA : desc ∈ A
  · rw [if_pos hA, if_pos hA]
  · rw [if_neg hA, if_neg hA]
    cases hfind : mapFind m desc with
    | none =>
      show mapFind (update_for_parent_inclusion pool it (mkModEntry pool desc) :: m) j = _
      rw [mapFind_cons]
      rcases eq_or_ne j desc with hj | hj
      · subst hj
        rw [if_pos rfl,
          if_pos (show (update_for_parent_inclusion pool it (mkModEntry pool j)).iterId = j from rfl)]
        rfl
      · rw [if_neg hj, if_neg (fun he => hj he.symm)]
    | some me =>
      show mapFind (mapModify m desc (update_for_parent_inclusion pool it)) j = _
      rw [@mapModify_find m desc j (update_for_parent_inclusion pool it) (fun x => rfl), hfind]
      rcases eq_or_ne j desc with hj | hj
      · subst hj
        rw [if_pos rfl, if_pos rfl]
        rfl
      · rw [if_neg hj, if_neg hj]

theorem innerFold_find (pool : List MemEntry) (A : List Nat) (it : Nat) :
    ∀ (D : List Nat) (m : List CTxMemPoolModifiedEntry) (j : Nat), D.Nodup →
    mapFind (D.foldl (updateOne pool A it) m) j =
      if j ∈ D ∧ j ∉ A then
        some (update_for_parent_inclusion pool it ((mapFind m j).getD (mkModEntry pool j)))
      else mapFind m j := by
  intro D
  induction D with
  | nil => intro m j _; simp
  | cons d D2 ih =>
    intro m j hD
    have hD2 : D2.Nodup := (List.nodup_cons.mp hD).2
    have hdD2 : d ∉ D2 := (List.nodup_cons.mp hD).1
    show mapFind (D2.foldl (updateOne pool A it) (updateOne pool A it m d)) j = _
    rw [ih (updateOne pool A it m d) j hD2]
    rcases eq_or_ne j d with hjd | hjd
    · subst hjd
      have hnotD2 : j ∉ D2 := hdD2
      rw [if_neg (fun hc => hnotD2 hc.1)]
      rw [updateOne_find]
      by_cases hA : j ∈ A
      · rw [if_pos hA, if_neg (fun hc => hc.2 hA)]
      · rw [if_neg hA, if_pos rfl, if_pos ⟨List.mem_cons_self j D2, hA⟩]
    · have hfind : mapFind (updateOne pool A it m d) j = mapFind m j := by
        rw [updateOne_find]
        by_cases hA : d ∈ A
        · rw [if_pos hA]
        · rw [if_neg hA, if_neg hjd]
      rw [hfind]
      by_cases hc : j ∈ D2 ∧ j ∉ A
      · rw [if_pos hc, if_pos ⟨List.mem_cons_of_mem d hc.1, hc.2⟩]
      · rw [if_neg hc, if_neg (fun hc2 => hc ⟨by
          rcases List.mem_cons.mp hc2.1 with h | h
          · exact absurd h hjd
          · exact h, hc2.2⟩)]

theorem outerFold_find (pool : List MemEntry) (hwf : wfPool pool = true) (A0 : List Nat) :
    ∀ (Arem : List Nat) (m : List CTxMemPoolModifiedEntry) (j : Nat),
    mapFind (Arem.foldl
        (fun m1 it => (CalculateDescendants pool it).foldl (updateOne pool A0 it) m1) m) j =
      if j ∈ A0 then mapFind m j
      else (Arem.filter (fun a => decide (j ∈ CalculateDescendants pool a))).foldl
        (fun o a => some (update_for_parent_inclusion pool a (o.getD (mkModEntry pool j))))
        (mapFind m j) := by
  intro Arem
  induction Arem with
  | nil =>
    intro m j
    by_cases h : j ∈ A0 <;> simp [h]
  | cons a rest ih =>
    intro m j
    show mapFind (rest.foldl _ ((CalculateDescendants pool a).foldl (updateOne pool A0 a) m)) j = _
    rw [ih]
    have hm2 := innerFold_find pool A0 a (CalculateDescendants pool a) m j
      (nodup_CalculateDescendants hwf a)
    by_cases hA : j ∈ A0
    · rw [if_pos hA, if_pos hA, hm2, if_neg (fun hc => hc.2 hA)]
    · rw [if_neg hA, if_neg hA, hm2]
      by_cases hD : j ∈ CalculateDescendants pool a
      · rw [if_pos ⟨hD, hA⟩, List.filter_cons_of_pos (by simpa using hD), List.foldl_cons]
      · rw [if_neg (fun hc => hD hc.1), List.filter_cons_of_neg (by simpa using hD)]

theorem UPFA_find (pool : List MemEntry) (hwf : wfPool pool = true) (A : List Nat)
    (m : List CTxMemPoolModifiedEntry) (j : Nat) :
    mapFind (UpdatePackagesForAdded pool A m) j =
      if j ∈ A then mapFind m j
      else (A.filter (fun a => decide (j ∈ CalculateDescendants pool a))).foldl
        (fun o a => some (update_for_parent_inclusion pool a (o.getD (mkModEntry pool j))))
        (mapFind m j) :=
  outerFold_find pool hwf A A m j

/-! Evaluation of the accumulated decrement folds and bookkeeping of the
shadow-map keys. -/

theorem sumTxSize_cons (pool : List MemEntry) (a : Nat) (t : List Nat) :
    sumTxSize pool (a :: t) = (ent pool a).txSize + sumTxSize pool t := by
  simp [sumTxSize]

theorem sumModFees_cons (pool : List MemEntry) (a : Nat) (t : List Nat) :
    sumModFees pool (a :: t) = (ent pool a).modifiedFee + sumModFees pool t := by
  simp [sumModFees]

theorem sumSigOpsI_cons (pool : List MemEntry) (a : Nat) (t : List Nat) :
    sumSigOpsI pool (a :: t) = ((ent pool a).sigOpCost : Int) + sumSigOpsI pool t := by
  simp [sumSigOpsI]

theorem foldl_step_some (pool : List MemEntry) (j : Nat) (H : List Nat)
    (me0 : CTxMemPoolModifiedEntry) :
    H.foldl (fun o a => some (update_for_parent_inclusion pool a (o.getD (mkModEntry pool j))))
        (some me0)
      = some (H.foldl (fun me a => update_for_parent_inclusion pool a me) me0) := by
  induction H generalizing me0 with
  | nil => rfl
  | cons a t ih => exact ih (update_for_parent_inclusion pool a me0)

theorem foldl_step_none_cons (pool : List MemEntry) (j : Nat) (a : Nat) (t : List Nat) :
    (a :: t).foldl
        (fun o a2 => some (update_for_parent_inclusion pool a2 (o.getD (mkModEntry pool j))))
        none
      = some ((a :: t).foldl (fun me a2 => update_for_parent_inclusion pool a2 me)
          (mkModEntry pool j)) := by
  show t.foldl _ (some (update_for_parent_inclusion pool a (mkModEntry pool j))) = _
  rw [foldl_step_some]
  rfl

theorem upd_fold_eq (pool : List MemEntry) (H : List Nat) (me0 : CTxMemPoolModifiedEntry)
    (hsz : sumTxSize pool H ≤ me0.nSizeWithAncestors) (hlt : me0.nSizeWithAncestors < U64) :
    H.foldl (fun me a => update_for_parent_inclusion pool a me) me0 =
      { iterId := me0.iterId,
        nSizeWithAncestors := me0.nSizeWithAncestors - sumTxSize pool H,
        nModFeesWithAncestors := me0.nModFeesWithAncestors - sumModFees pool H,
        nSigOpCostWithAncestors := me0.nSigOpCostWithAncestors - sumSigOpsI pool H } := by
  induction H generalizing me0 with
  | nil =>
    simp only [List.foldl_nil, sumTxSize, sumModFees, sumSigOpsI, List.map_nil, List.sum_nil,
      Nat.sub_zero, Int.sub_zero]
  | cons a t ih =>
    rw [sumTxSize_cons] at hsz
    have hsza : (ent pool a).txSize ≤ me0.nSizeWithAncestors := by omega
    have h1 : update_for_parent_inclusion pool a me0 =
        { iterId := me0.iterId,
          nSizeWithAncestors := me0.nSizeWithAncestors - (ent pool a).txSize,
          nModFeesWithAncestors := me0.nModFeesWithAncestors - (ent pool a).modifiedFee,
          nSigOpCostWithAncestors := me0.nSigOpCostWithAncestors - ((ent pool a).sigOpCost : Int) } := by
      unfold update_for_parent_inclusion
      rw [usub64_eq_sub hsza hlt]
    show t.foldl _ (update_for_parent_inclusion pool a me0) = _
    rw [h1, ih]
    · simp only [sumTxSize_cons, sumModFees_cons, sumSigOpsI_cons]
      congr 1
      · omega
      · ring
      · ring
    · show sumTxSize pool t ≤ me0.nSizeWithAncestors - (ent pool a).txSize
      omega
    · show me0.nSizeWithAncestors - (ent pool a).txSize < U64
      omega

theorem mapFind_isSome_iff {m : List CTxMemPoolModifiedEntry} {j : Nat} :
    (mapFind m j).isSome ↔ j ∈ mapKeys m := by
  unfold mapFind mapKeys
  rw [List.find?_isSome]
  constructor
  · rintro ⟨me, hme, hbeq⟩
    exact List.mem_map.mpr ⟨me, hme, by simpa using hbeq⟩
  · intro h
    obtain ⟨me, hme, rfl⟩ := List.mem_map.mp h
    exact ⟨me, hme, by simp⟩

theorem updateOne_keyNodup {pool : List MemEntry} {A : List Nat} {it : Nat}
    {m : List CTxMemPoolModifiedEntry} {desc : Nat} (hk : (mapKeys m).Nodup) :
    (mapKeys (updateOne pool A it m desc)).Nodup := by
  unfold updateOne
  by_cases hA : desc ∈ A
  · rw [if_pos hA]; exact hk
  · rw [if_neg hA]
    cases hfind : mapFind m desc with
    | none =>
      show (mapKeys (update_for_parent_inclusion pool it (mkModEntry pool desc) :: m)).Nodup
      rw [show mapKeys (update_for_parent_inclusion pool it (mkModEntry pool desc) :: m)
          = desc :: mapKeys m from rfl]
      rw [List.nodup_cons]
      refine ⟨fun hmem => ?_, hk⟩
      have := mapFind_isSome_iff.mpr hmem
      rw [hfind] at this
      cases this
    | some me =>
      show (mapKeys (mapModify m desc (update_for_parent_inclusion pool it))).Nodup
      rw [@mapModify_keys m desc (update_for_parent_inclusion pool it) (fun x => rfl)]
      exact hk

theorem innerFold_keyNodup {pool : List MemEntry} {A : List Nat} {it : Nat} :
    ∀ (D : List Nat) (m : List CTxMemPoolModifiedEntry), (mapKeys m).Nodup →
    (mapKeys (D.foldl (updateOne pool A it) m)).Nodup := by
  intro D
  induction D with
  | nil => intro m hk; exact hk
  | cons d t ih => intro m hk; exact ih _ (updateOne_keyNodup hk)

theorem outerFold_keyNodup {pool : List MemEntry} {A0 : List Nat} :
    ∀ (Arem : List Nat) (m : List CTxMemPoolModifiedEntry), (mapKeys m).Nodup →
    (mapKeys (Arem.foldl
      (fun m1 it => (CalculateDescendants pool it).foldl (updateOne pool A0 it) m1) m)).Nodup := by
  intro Arem
  induction Arem with
  | nil => intro m hk; exact hk
  | cons a t ih => intro m hk; exact ih _ (innerFold_keyNodup _ _ hk)

theorem UPFA_keyNodup {pool : List MemEntry} {A : List Nat}
    {m : List CTxMemPoolModifiedEntry} (hk : (mapKeys m).Nodup) :
    (mapKeys (UpdatePackagesForAdded pool A m)).Nodup :=
  outerFold_keyNodup A m hk

theorem hits_eq (pool : List MemEntry) {A : List Nat} {j : Nat} (hjA : j ∉ A) :
    A.filter (fun a => decide (j ∈ CalculateDescendants pool a))
      = A.filter (fun a => decide (a ∈ (ent pool j).ancestors)) := by
  apply List.filter_congr
  intro a ha
  simp only [decide_eq_decide]
  rw [mem_CalculateDescendants]
  constructor
  · rintro (rfl | ⟨_, h⟩)
    · exact absurd ha hjA
    · exact h
  · intro h
    rcases Nat.lt_or_ge j pool.length with hlt | hge
    · exact Or.inr ⟨hlt, h⟩
    · rw [ent_out hge] at h
      cases h

theorem sum_two_disjoint_le (pool : List MemEntry) {l1 l2 L : List Nat}
    (h1 : l1.Nodup) (h2 : l2.Nodup) (hd : ∀ x ∈ l1, x ∉ l2)
    (hs1 : ∀ x ∈ l1, x ∈ L) (hs2 : ∀ x ∈ l2, x ∈ L) :
    sumTxSize pool l1 + sumTxSize pool l2 ≤ sumTxSize pool L ∧
    sumSigOpsI pool l1 + sumSigOpsI pool l2 ≤ sumSigOpsI pool L := by
  have hn : (l1 ++ l2).Nodup := by
    rw [List.nodup_append]
    exact ⟨h1, h2, hd⟩
  have hsub : l1 ++ l2 ⊆ L := by
    intro x hx
    rcases List.mem_append.mp hx with h | h
    · exact hs1 x h
    · exact hs2 x h
  have hsp : List.Subperm (l1 ++ l2) L := hn.subperm hsub
  constructor
  · have := sumTxSize_subperm pool hsp
    rwa [sumTxSize_append] at this
  · have := sumSigOpsI_subperm pool hsp
    rwa [sumSigOpsI_append] at this

theorem mem_filter_decide {l : List Nat} {q : Nat → Prop} [DecidablePred q] {x : Nat}
    (h : x ∈ l.filter (fun y => decide (q y))) : x ∈ l ∧ q x := by
  have h2 := List.mem_filter.mp h
  exact ⟨h2.1, of_decide_eq_true h2.2⟩

theorem mem_filter_decide_of {l : List Nat} {q : Nat → Prop} [DecidablePred q] {x : Nat}
    (hx : x ∈ l) (hq : q x) : x ∈ l.filter (fun y => decide (q y)) :=
  List.mem_filter.mpr ⟨hx, decide_eq_true hq⟩

theorem sumTxSize_uncSelf (pool : List MemEntry) (B : List Nat) (j : Nat) :
    sumTxSize pool (uncSelf pool B j) =
      sumTxSize pool ((ent pool j).ancestors.filter (fun a => decide (a ∉ B)))
        + (ent pool j).txSize := by
  unfold uncSelf
  rw [sumTxSize_append]
  simp [sumTxSize]

theorem sumSigOpsI_uncSelf (pool : List MemEntry) (B : List Nat) (j : Nat) :
    sumSigOpsI pool (uncSelf pool B j) =
      sumSigOpsI pool ((ent pool j).ancestors.filter (fun a => decide (a ∉ B)))
        + ((ent pool j).sigOpCost : Int) := by
  unfold uncSelf
  rw [sumSigOpsI_append]
  simp [sumSigOpsI]

theorem UPFA_MInvP (pool : List MemEntry) (hwf : wfPool pool = true)
    {B A : List Nat} {m : List CTxMemPoolModifiedEntry}
    (hM : MInvP pool B m)
    (hAB : ∀ a ∈ A, a ∉ B)
    (hA : A.Nodup)
    (hBclosed : ∀ j, j ∈ B → ∀ a ∈ (ent pool j).ancestors, a ∈ B)
    (hmA : ∀ me ∈ m, me.iterId ∉ A) :
    MInvP pool (B ++ A) (UpdatePackagesForAdded pool A m) := by
  obtain ⟨hkeys, hent⟩ := hM
  refine ⟨UPFA_keyNodup hkeys, ?_⟩
  intro me hme
  have hkr : (mapKeys (UpdatePackagesForAdded pool A m)).Nodup := UPFA_keyNodup hkeys
  have hfound : mapFind (UpdatePackagesForAdded pool A m) me.iterId = some me :=
    mem_mapFind hkr hme
  rw [UPFA_find pool hwf A m me.iterId] at hfound
  by_cases hjA : me.iterId ∈ A
  · rw [if_pos hjA] at hfound
    exact absurd hjA (hmA me (mapFind_mem hfound))
  · rw [if_neg hjA, hits_eq pool hjA] at hfound
    have hHanc : ∀ a ∈ (A.filter (fun a => decide (a ∈ (ent pool me.iterId).ancestors))),
        a ∈ (ent pool me.iterId).ancestors :=
      fun a ha => (mem_filter_decide ha).2
    have hHA : ∀ a ∈ (A.filter (fun a => decide (a ∈ (ent pool me.iterId).ancestors))),
        a ∈ A := fun a ha => (mem_filter_decide ha).1
    have hHnd : (A.filter (fun a => decide (a ∈ (ent pool me.iterId).ancestors))).Nodup :=
      hA.filter _
    cases hfind : mapFind m me.iterId with
    | none =>
      rw [hfind] at hfound
      cases hHc : A.filter (fun a => decide (a ∈ (ent pool me.iterId).ancestors)) with
      | nil =>
        rw [hHc] at hfound
        cases hfound
      | cons a t =>
        rw [hHc, foldl_step_none_cons] at hfound
        have hamem : a ∈ (ent pool me.iterId).ancestors := hHanc a (by rw [hHc]; exact List.mem_cons_self a t)
        have hjB : me.iterId ∉ B := by
          intro hj
          have haB : a ∈ B := hBclosed me.iterId hj a hamem
          exact hAB a (hHA a (by rw [hHc]; exact List.mem_cons_self a t)) haB
        have hHsub : ∀ x ∈ (a :: t), x ∈ (ent pool me.iterId).ancestors := by
          intro x hx; exact hHanc x (by rw [hHc]; exact hx)
        have hHnd2 : (a :: t).Nodup := by rw [← hHc]; exact hHnd
        have hSle : sumTxSize pool (a :: t) ≤ sumTxSize pool (ent pool me.iterId).ancestors :=
          sumTxSize_subperm pool (hHnd2.subperm hHsub)
        have hGle : sumSigOpsI pool (a :: t) ≤ sumSigOpsI pool (ent pool me.iterId).ancestors :=
          sumSigOpsI_subperm pool (hHnd2.subperm hHsub)
        have hszagg := wf_size_agg hwf me.iterId
        have hsgagg := wf_sig_agg hwf me.iterId
        have hszlt := wf_szlt hwf me.iterId
        have hb : sumTxSize pool (a :: t) ≤ (mkModEntry pool me.iterId).nSizeWithAncestors := by
          show sumTxSize pool (a :: t) ≤ (ent pool me.iterId).sizeWithAncestors
          omega
        have hlt : (mkModEntry pool me.iterId).nSizeWithAncestors < U64 := hszlt
        rw [upd_fold_eq pool (a :: t) (mkModEntry pool me.iterId) hb hlt] at hfound
        have hmeq := (Option.some_inj.mp hfound).symm
        have hdisj := @sum_two_disjoint_le pool
          ((ent pool me.iterId).ancestors.filter (fun x => decide (x ∉ B ++ A)))
          (a :: t) ((ent pool me.iterId).ancestors)
          ((wf_anc_nodup hwf me.iterId).filter _) hHnd2
          (by
            intro x hx hx2
            have hxA : x ∈ A := hHA x (by rw [hHc]; exact hx2)
            exact (mem_filter_decide hx).2 (List.mem_append.mpr (Or.inr hxA)))
          (fun x hx => (mem_filter_decide hx).1) hHsub
        rw [hmeq]
        refine ⟨?_, ?_, ?_, ?_⟩
        · show me.iterId ∉ B ++ A
          intro hc
          rcases List.mem_append.mp hc with h | h
          · exact hjB h
          · exact hjA h
        · show (ent pool me.iterId).sizeWithAncestors - sumTxSize pool (a :: t) < U64
          omega
        · show sumTxSize pool (uncSelf pool (B ++ A) me.iterId)
            ≤ (ent pool me.iterId).sizeWithAncestors - sumTxSize pool (a :: t)
          rw [sumTxSize_uncSelf]
          have h1 := hdisj.1
          omega
        · show sumSigOpsI pool (uncSelf pool (B ++ A) me.iterId)
            ≤ (ent pool me.iterId).sigOpCostWithAncestors - sumSigOpsI pool (a :: t)
          rw [sumSigOpsI_uncSelf]
          have h2 := hdisj.2
          rw [hsgagg]
          linarith
    | some me0 =>
      rw [hfind, foldl_step_some] at hfound
      have hme0 := hent me0 (mapFind_mem hfind)
      have hid0 : me0.iterId = me.iterId := mapFind_some_iterId hfind
      rw [hid0] at hme0
      obtain ⟨hnB, hlt0, hszb, hsgb⟩ := hme0
      have hHsub : ∀ x ∈ (A.filter (fun a => decide (a ∈ (ent pool me.iterId).ancestors))),
          x ∈ (ent pool me.iterId).ancestors.filter (fun x => decide (x ∉ B)) := by
        intro x hx
        exact mem_filter_decide_of (hHanc x hx) (fun hc => hAB x (hHA x hx) hc)
      have hSle : sumTxSize pool (A.filter (fun a => decide (a ∈ (ent pool me.iterId).ancestors)))
          ≤ sumTxSize pool ((ent pool me.iterId).ancestors.filter (fun x => decide (x ∉ B))) :=
        sumTxSize_subperm pool (hHnd.subperm hHsub)
      have hb : sumTxSize pool (A.filter (fun a => decide (a ∈ (ent pool me.iterId).ancestors)))
          ≤ me0.nSizeWithAncestors := by
        rw [sumTxSize_uncSelf] at hszb
        omega
      rw [upd_fold_eq pool _ me0 hb hlt0] at hfound
      have hmeq := (Option.some_inj.mp hfound).symm
      rw [hid0] at hmeq
      have hdisj := @sum_two_disjoint_le pool
        ((ent pool me.iterId).ancestors.filter (fun x => decide (x ∉ B ++ A)))
        (A.filter (fun a => decide (a ∈ (ent pool me.iterId).ancestors)))
        ((ent pool me.iterId).ancestors.filter (fun x => decide (x ∉ B)))
        ((wf_anc_nodup hwf me.iterId).filter _) hHnd
        (by
          intro x hx hx2
          have hxA : x ∈ A := hHA x hx2
          exact (mem_filter_decide hx).2 (List.mem_append.mpr (Or.inr hxA)))
        (by
          intro x hx
          have h3 := mem_filter_decide hx
          exact mem_filter_decide_of h3.1
            (fun hc => h3.2 (List.mem_append.mpr (Or.inl hc))))
        hHsub
      rw [hmeq]
      refine ⟨?_, ?_, ?_, ?_⟩
      · show me.iterId ∉ B ++ A
        intro hc
        rcases List.mem_append.mp hc with h | h
        · exact hnB h
        · exact hjA h
      · show me0.nSizeWithAncestors
            - sumTxSize pool (A.filter (fun a => decide (a ∈ (ent pool me.iterId).ancestors))) < U64
        omega
      · show sumTxSize pool (uncSelf pool (B ++ A) me.iterId)
          ≤ me0.nSizeWithAncestors
            - sumTxSize pool (A.filter (fun a => decide (a ∈ (ent pool me.iterId).ancestors)))
        rw [sumTxSize_uncSelf]
        rw [sumTxSize_uncSelf] at hszb
        have h1 := hdisj.1
        omega
      · show sumSigOpsI pool (uncSelf pool (B ++ A) me.iterId)
          ≤ me0.nSigOpCostWithAncestors
            - sumSigOpsI pool (A.filter (fun a => decide (a ∈ (ent pool me.iterId).ancestors)))
        rw [sumSigOpsI_uncSelf]
        rw [sumSigOpsI_uncSelf] at hsgb
        have h2 := hdisj.2
        linarith

/-! Properties of `SortForBlock` and of committing a package with
`AddToBlock`. -/

theorem SortForBlock_perm (pool : List MemEntry) (pkg : List Nat) :
    List.Perm (SortForBlock pool pkg) pkg :=
  List.perm_insertionSort _ _

theorem SortForBlock_sorted (pool : List MemEntry) (pkg : List Nat) :
    List.Sorted (AncestorCountLE pool) (SortForBlock pool pkg) := by
  haveI h1 : IsTotal Nat (AncestorCountLE pool) := by
    constructor
    intro a b
    unfold AncestorCountLE
    omega
  haveI h2 : IsTrans Nat (AncestorCountLE pool) := by
    constructor
    intro a b c
    unfold AncestorCountLE
    omega
  exact List.sorted_insertionSort _ _

theorem SortForBlock_anc_take (pool : List MemEntry) (hwf : wfPool pool = true)
    {pkg : List Nat} (hnd : pkg.Nodup) {p : Nat}
    (hp : p < (SortForBlock pool pkg).length) {a : Nat}
    (ha : a ∈ (ent pool ((SortForBlock pool pkg).getD p 0)).ancestors)
    (hain : a ∈ pkg) :
    a ∈ (SortForBlock pool pkg).take p := by
  have hperm := SortForBlock_perm pool pkg
  have hlnd : (SortForBlock pool pkg).Nodup := hperm.nodup_iff.mpr hnd
  have hal : a ∈ SortForBlock pool pkg := hperm.mem_iff.mpr hain
  obtain ⟨⟨q, hq⟩, hqa⟩ := List.mem_iff_get.mp hal
  rw [getD_eq_get hp] at ha
  have hcount := wf_count hwf ha
  rw [← hqa] at hcount
  have hsorted : (SortForBlock pool pkg).Pairwise (AncestorCountLE pool) :=
    SortForBlock_sorted pool pkg
  have hqp : q < p := by
    rcases lt_trichotomy q p with h | h | h
    · exact h
    · exfalso
      subst h
      have : (SortForBlock pool pkg).get ⟨q, hq⟩ = (SortForBlock pool pkg).get ⟨q, hp⟩ := rfl
      rw [this] at hcount
      omega
    · exfalso
      have hr := List.pairwise_iff_get.mp hsorted ⟨p, hp⟩ ⟨q, hq⟩ h
      unfold AncestorCountLE at hr
      omega
  have hmem := getD_mem_take hqp hq
  rw [getD_eq_get hq, hqa] at hmem
  exact hmem

theorem foldl_ATB_vtx (pool : List MemEntry) :
    ∀ (pkg : List Nat) (s : BState),
    (pkg.foldl (fun st i => AddToBlock st pool i) s).vtx = s.vtx ++ pkg.map some := by
  intro pkg
  induction pkg with
  | nil => intro s; simp
  | cons a t ih =>
    intro s
    rw [List.foldl_cons, ih]
    simp [AddToBlock]

theorem foldl_ATB_fees (pool : List MemEntry) :
    ∀ (pkg : List Nat) (s : BState),
    (pkg.foldl (fun st i => AddToBlock st pool i) s).vTxFees
      = s.vTxFees ++ pkg.map (fun i => (ent pool i).fee) := by
  intro pkg
  induction pkg with
  | nil => intro s; simp
  | cons a t ih =>
    intro s
    rw [List.foldl_cons, ih]
    simp [AddToBlock]

theorem foldl_ATB_sigv (pool : List MemEntry) :
    ∀ (pkg : List Nat) (s : BState),
    (pkg.foldl (fun st i => AddToBlock st pool i) s).vTxSigOpsCost
      = s.vTxSigOpsCost ++ pkg.map (fun i => ((ent pool i).sigOpCost : Int)) := by
  intro pkg
  induction pkg with
  | nil => intro s; simp
  | cons a t ih =>
    intro s
    rw [List.foldl_cons, ih]
    simp [AddToBlock]

theorem foldl_ATB_inBlock (pool : List MemEntry) :
    ∀ (pkg : List Nat) (s : BState),
    (pkg.foldl (fun st i => AddToBlock st pool i) s).inBlock
      = pkg.reverse ++ s.inBlock := by
  intro pkg
  induction pkg with
  | nil => intro s; simp
  | cons a t ih =>
    intro s
    rw [List.foldl_cons, ih]
    simp [AddToBlock]

theorem foldl_ATB_weight (pool : List MemEntry) :
    ∀ (pkg : List Nat) (s : BState),
    (pkg.foldl (fun st i => AddToBlock st pool i) s).nBlockWeight
      = s.nBlockWeight + sumWeight pool pkg := by
  intro pkg
  induction pkg with
  | nil => intro s; simp [sumWeight]
  | cons a t ih =>
    intro s
    rw [List.foldl_cons, ih]
    simp only [AddToBlock]
    simp [sumWeight]
    omega

theorem foldl_ATB_flag (pool : List MemEntry) :
    ∀ (pkg : List Nat) (s : BState),
    (pkg.foldl (fun st i => AddToBlock st pool i) s).fNeedSizeAccounting
      = s.fNeedSizeAccounting := by
  intro pkg
  induction pkg with
  | nil => intro s; rfl
  | cons a t ih =>
    intro s
    rw [List.foldl_cons, ih]
    rfl

theorem foldl_ATB_cfg (pool : List MemEntry) :
    ∀ (pkg : List Nat) (s : BState),
    (pkg.foldl (fun st i => AddToBlock st pool i) s).nBlockMaxWeight = s.nBlockMaxWeight ∧
    (pkg.foldl (fun st i => AddToBlock st pool i) s).nBlockMaxSize = s.nBlockMaxSize ∧
    (pkg.foldl (fun st i => AddToBlock st pool i) s).fIncludeWitness = s.fIncludeWitness ∧
    (pkg.foldl (fun st i => AddToBlock st pool i) s).nHeight = s.nHeight ∧
    (pkg.foldl (fun st i => AddToBlock st pool i) s).lastFewTxs = s.lastFewTxs ∧
    (pkg.foldl (fun st i => AddToBlock st pool i) s).blockFinished = s.blockFinished := by
  intro pkg
  induction pkg with
  | nil => intro s; exact ⟨rfl, rfl, rfl, rfl, rfl, rfl⟩
  | cons a t ih =>
    intro s
    rw [List.foldl_cons]
    exact ih (AddToBlock s pool a)

theorem foldl_ATB_size (pool : List MemEntry) :
    ∀ (pkg : List Nat) (s : BState),
    (pkg.foldl (fun st i => AddToBlock st pool i) s).nBlockSize
      = if s.fNeedSizeAccounting then s.nBlockSize + sumSerSize pool pkg else s.nBlockSize := by
  intro pkg
  induction pkg with
  | nil =>
    intro s
    cases hf : s.fNeedSizeAccounting <;> simp [sumSerSize]
  | cons a t ih =>
    intro s
    rw [List.foldl_cons, ih]
    cases hf : s.fNeedSizeAccounting with
    | true =>
      have hflag : (AddToBlock s pool a).fNeedSizeAccounting = true := by
        simp [AddToBlock, hf]
      rw [hflag]
      simp only [AddToBlock, hf, if_true, if_pos]
      simp [sumSerSize]
      omega
    | false =>
      have hflag : (AddToBlock s pool a).fNeedSizeAccounting = false := by
        simp [AddToBlock, hf]
      rw [hflag]
      simp [AddToBlock, hf]

theorem foldl_ATB_sigops (pool : List MemEntry) :
    ∀ (pkg : List Nat) (s : BState),
    (pkg.foldl (fun st i => AddToBlock st pool i) s).nBlockSigOpsCost
      = s.nBlockSigOpsCost + sumSigOpsN pool pkg := by
  intro pkg
  induction pkg with
  | nil => intro s; simp [sumSigOpsN]
  | cons a t ih =>
    intro s
    rw [List.foldl_cons, ih]
    simp only [AddToBlock]
    simp [sumSigOpsN]
    omega

theorem foldl_ATB_nFees (pool : List MemEntry) :
    ∀ (pkg : List Nat) (s : BState),
    (pkg.foldl (fun st i => AddToBlock st pool i) s).nFees
      = s.nFees + sumFees pool pkg := by
  intro pkg
  induction pkg with
  | nil => intro s; simp [sumFees]
  | cons a t ih =>
    intro s
    rw [List.foldl_cons, ih]
    simp only [AddToBlock]
    simp [sumFees]
    ring

theorem foldl_ATB_nBlockTx (pool : List MemEntry) :
    ∀ (pkg : List Nat) (s : BState),
    (pkg.foldl (fun st i => AddToBlock st pool i) s).nBlockTx
      = s.nBlockTx + pkg.length := by
  intro pkg
  induction pkg with
  | nil => intro s; simp
  | cons a t ih =>
    intro s
    rw [List.foldl_cons, ih]
    simp only [AddToBlock]
    simp
    omega

theorem stateIds_of_vtx_eq {s : BState} {L : List Nat} (h : s.vtx = none :: L.map some) :
    stateIds s = L := by
  unfold stateIds idsOfVtx
  rw [h]
  simp [List.filterMap_map]

theorem foldl_ATB_stateIds (pool : List MemEntry) {pkg : List Nat} {s : BState} {L : List Nat}
    (h : s.vtx = none :: L.map some) :
    stateIds (pkg.foldl (fun st i => AddToBlock st pool i) s) = L ++ pkg ∧
    (pkg.foldl (fun st i => AddToBlock st pool i) s).vtx = none :: (L ++ pkg).map some := by
  have hv := foldl_ATB_vtx pool pkg s
  rw [h] at hv
  have hv2 : (pkg.foldl (fun st i => AddToBlock st pool i) s).vtx
      = none :: (L ++ pkg).map some := by
    rw [hv]
    simp
  exact ⟨stateIds_of_vtx_eq hv2, hv2⟩

theorem getD_append_left {l1 l2 : List Nat} {p : Nat} (h : p < l1.length) :
    (l1 ++ l2).getD p 0 = l1.getD p 0 := by
  unfold List.getD
  rw [List.get?_append h]

theorem getD_append_right {l1 l2 : List Nat} {p : Nat} (h : l1.length ≤ p) :
    (l1 ++ l2).getD p 0 = l2.getD (p - l1.length) 0 := by
  unfold List.getD
  rw [List.get?_append_right h]

theorem take_append_left {l1 l2 : List Nat} {p : Nat} (h : p ≤ l1.length) :
    (l1 ++ l2).take p = l1.take p := by
  rw [List.take_append_eq_append_take]
  have : p - l1.length = 0 := by omega
  rw [this]
  simp

theorem take_append_full {l1 l2 : List Nat} {p : Nat} (h : l1.length ≤ p) :
    (l1 ++ l2).take p = l1 ++ l2.take (p - l1.length) := by
  rw [List.take_append_eq_append_take, List.take_of_length_le h]

theorem topo_append {pool : List MemEntry} {L pkgS : List Nat}
    (htopoL : ∀ p, p < L.length → ∀ a ∈ (ent pool (L.getD p 0)).ancestors, a ∈ L.take p)
    (hclose : ∀ p, p < pkgS.length → ∀ a ∈ (ent pool (pkgS.getD p 0)).ancestors,
      a ∈ L ∨ a ∈ pkgS.take p) :
    ∀ p, p < (L ++ pkgS).length → ∀ a ∈ (ent pool ((L ++ pkgS).getD p 0)).ancestors,
      a ∈ (L ++ pkgS).take p := by
  intro p hp a ha
  rcases Nat.lt_or_ge p L.length with h | h
  · rw [getD_append_left h] at ha
    have hmem := htopoL p h a ha
    rw [take_append_left (Nat.le_of_lt h)]
    exact hmem
  · rw [getD_append_right h] at ha
    have hp2 : p - L.length < pkgS.length := by
      rw [List.length_append] at hp
      omega
    rw [take_append_full h]
    rcases hclose (p - L.length) hp2 a ha with hL | hT
    · exact List.mem_append.mpr (Or.inl hL)
    · exact List.mem_append.mpr (Or.inr hT)

theorem TestPackage_true {s : BState} {packageSize : Nat} {packageSigOpsCost : Int}
    (h : (TestPackage s packageSize packageSigOpsCost).1 = true) :
    s.nBlockWeight + WITNESS_SCALE_FACTOR * packageSize < s.nBlockMaxWeight ∧
    (s.nBlockSigOpsCost : Int) + packageSigOpsCost < (MAX_BLOCK_SIGOPS_COST : Int) := by
  unfold TestPackage at h
  by_cases h1 : s.nBlockWeight + WITNESS_SCALE_FACTOR * packageSize ≥ s.nBlockMaxWeight
  · rw [if_pos h1] at h
    cases h
  · rw [if_neg h1] at h
    by_cases h2 : (s.nBlockSigOpsCost : Int) + packageSigOpsCost ≥ (MAX_BLOCK_SIGOPS_COST : Int)
    · rw [if_pos h2] at h
      cases h
    · exact ⟨by omega, by omega⟩

theorem TPTgo_final {s : BState} {pool : List MemEntry} :
    ∀ (l : List Nat) (n : Nat), TPTgo s pool n l = true →
      ∀ i ∈ l, (ent pool i).isFinal = true := by
  intro l
  induction l with
  | nil => intro n _ i hi; cases hi
  | cons x t ih =>
    intro n h i hi
    unfold TPTgo at h
    by_cases hf : (ent pool x).isFinal
    · rw [if_neg (by simp [hf])] at h
      by_cases hw : !s.fIncludeWitness && (ent pool x).hasWitness
      · rw [if_pos hw] at h
        cases h
      · rw [if_neg hw] at h
        rcases List.mem_cons.mp hi with rfl | hit
        · exact hf
        · by_cases hacc : s.fNeedSizeAccounting
          · rw [if_pos hacc] at h
            by_cases hsz : n + (ent pool x).serSize ≥ s.nBlockMaxSize
            · rw [if_pos hsz] at h
              cases h
            · rw [if_neg hsz] at h
              exact ih _ h i hit
          · rw [if_neg hacc] at h
            exact ih _ h i hit
    · rw [if_pos (by simp [hf])] at h
      cases h

theorem TPTgo_size_bound {s : BState} {pool : List MemEntry}
    (hflag : s.fNeedSizeAccounting = true) :
    ∀ (l : List Nat) (n : Nat), TPTgo s pool n l = true → n ≤ s.nBlockMaxSize →
      n + sumSerSize pool l ≤ s.nBlockMaxSize := by
  intro l
  induction l with
  | nil =>
    intro n _ h2
    simpa [sumSerSize] using h2
  | cons x t ih =>
    intro n h h2
    unfold TPTgo at h
    by_cases hf : (ent pool x).isFinal
    · rw [if_neg (by simp [hf])] at h
      by_cases hw : !s.fIncludeWitness && (ent pool x).hasWitness
      · rw [if_pos hw] at h
        cases h
      · rw [if_neg hw, if_pos hflag] at h
        by_cases hsz : n + (ent pool x).serSize ≥ s.nBlockMaxSize
        · rw [if_pos hsz] at h
          cases h
        · rw [if_neg hsz] at h
          have hrec := ih _ h (by omega)
          have : sumSerSize pool (x :: t) = (ent pool x).serSize + sumSerSize pool t := by
            simp [sumSerSize]
          omega
    · rw [if_pos (by simp [hf])] at h
      cases h

theorem commit_preserves (pool : List MemEntry) (hwf : wfPool pool = true) {s : BState}
    (hInv : BInv pool s) {iter : Nat} {packageSize : Nat} {packageSigOpsCost : Int}
    (hiter : iter ∉ s.inBlock)
    (hps : sumTxSize pool (uncSelf pool s.inBlock iter) ≤ packageSize)
    (hpg : sumSigOpsI pool (uncSelf pool s.inBlock iter) ≤ packageSigOpsCost)
    (htp : (TestPackage s packageSize packageSigOpsCost).1 = true)
    (htpt : (TestPackageTransactions s pool
      (onlyUnconfirmed s (ent pool iter).ancestors ++ [iter])).1 = true) :
    BInv pool ((SortForBlock pool (onlyUnconfirmed s (ent pool iter).ancestors ++ [iter])).foldl
      (fun st i => AddToBlock st pool i) s) ∧
    stateIds ((SortForBlock pool (onlyUnconfirmed s (ent pool iter).ancestors ++ [iter])).foldl
      (fun st i => AddToBlock st pool i) s)
      = stateIds s ++ SortForBlock pool (onlyUnconfirmed s (ent pool iter).ancestors ++ [iter]) := by
  have hpkg_def : onlyUnconfirmed s (ent pool iter).ancestors ++ [iter]
      = uncSelf pool s.inBlock iter := rfl
  set pkg := onlyUnconfirmed s (ent pool iter).ancestors ++ [iter] with hpkg
  set sorted := SortForBlock pool pkg with hsortdef
  set s2 := sorted.foldl (fun st i => AddToBlock st pool i) s with hs2
  have hperm : List.Perm sorted pkg := SortForBlock_perm pool pkg
  have hfilnd : (onlyUnconfirmed s (ent pool iter).ancestors).Nodup :=
    (wf_anc_nodup hwf iter).filter _
  have hfil_mem : ∀ x ∈ onlyUnconfirmed s (ent pool iter).ancestors,
      x ∈ (ent pool iter).ancestors ∧ x ∉ s.inBlock := by
    intro x hx
    exact mem_filter_decide hx
  have hpkgnd : pkg.Nodup := by
    rw [hpkg, List.nodup_append]
    refine ⟨hfilnd, List.nodup_singleton iter, ?_⟩
    intro x hx
    have hxa := hfil_mem x hx
    have hne := wf_anc_ne hwf hxa.1
    simp [hne]
  have hmem_in : ∀ x, x ∈ s.inBlock ↔ x ∈ stateIds s := by
    intro x
    rw [hInv.in_eq]
    exact List.mem_reverse
  have hpkg_mem : ∀ x ∈ pkg, x ∈ (ent pool iter).ancestors ∨ x = iter := by
    intro x hx
    rcases List.mem_append.mp hx with h | h
    · exact Or.inl (hfil_mem x h).1
    · right
      simpa using h
  have hpkg_notin : ∀ x ∈ pkg, x ∉ stateIds s := by
    intro x hx
    rcases List.mem_append.mp hx with h | h
    · intro hc
      exact (hfil_mem x h).2 ((hmem_in x).mpr hc)
    · intro hc
      have : x = iter := by simpa using h
      subst this
      exact hiter ((hmem_in x).mpr hc)
  have hpkg_closure : ∀ t ∈ pkg, ∀ a ∈ (ent pool t).ancestors,
      a ∈ stateIds s ∨ a ∈ pkg := by
    intro t ht a ha
    have hanc : a ∈ (ent pool iter).ancestors := by
      rcases hpkg_mem t ht with h | h
      · exact wf_trans hwf h ha
      · subst h
        exact ha
    by_cases hB : a ∈ s.inBlock
    · exact Or.inl ((hmem_in a).mp hB)
    · right
      rw [hpkg]
      exact List.mem_append.mpr (Or.inl (mem_filter_decide_of hanc hB))
  obtain ⟨htpw, htpsig⟩ := TestPackage_true htp
  have hps2 : sumTxSize pool pkg ≤ packageSize := hps
  have hpg2 : sumSigOpsI pool pkg ≤ packageSigOpsCost := hpg
  have hidsW : stateIds s2 = stateIds s ++ sorted ∧ s2.vtx = none :: (stateIds s ++ sorted).map some := by
    rw [hs2]
    exact foldl_ATB_stateIds pool hInv.vtx_eq
  have hcfg := foldl_ATB_cfg pool sorted s
  have hflag := foldl_ATB_flag pool sorted s
  have hweq : s2.nBlockWeight = s.nBlockWeight + sumWeight pool sorted := foldl_ATB_weight pool sorted s
  have hsoeq : s2.nBlockSigOpsCost = s.nBlockSigOpsCost + sumSigOpsN pool sorted :=
    foldl_ATB_sigops pool sorted s
  have hszeq : s2.nBlockSize
      = if s.fNeedSizeAccounting then s.nBlockSize + sumSerSize pool sorted else s.nBlockSize :=
    foldl_ATB_size pool sorted s
  have hwbound : sumWeight pool sorted ≤ WITNESS_SCALE_FACTOR * packageSize := by
    calc sumWeight pool sorted = sumWeight pool pkg := sumWeight_perm pool hperm
    _ ≤ WITNESS_SCALE_FACTOR * sumTxSize pool pkg :=
        weight_le_four_size_sum pool pkg (fun i _ => wf_weight hwf i)
    _ ≤ WITNESS_SCALE_FACTOR * packageSize := Nat.mul_le_mul_left _ hps2
  have hsgbound : sumSigOpsI pool sorted ≤ packageSigOpsCost := by
    calc sumSigOpsI pool sorted = sumSigOpsI pool pkg := sumSigOpsI_perm pool hperm
    _ ≤ packageSigOpsCost := hpg2
  have hsz_new : s.fNeedSizeAccounting = true →
      s.nBlockSize + sumSerSize pool sorted ≤ s.nBlockMaxSize := by
    intro hfl
    have hgo : TPTgo s pool s.nBlockSize pkg = true := htpt
    have := TPTgo_size_bound hfl pkg s.nBlockSize hgo hInv.sz_le
    have hpermser : sumSerSize pool sorted = sumSerSize pool pkg := sumSerSize_perm pool hperm
    omega
  have hfin_pkg : ∀ i ∈ pkg, (ent pool i).isFinal = true := by
    intro i hi
    exact TPTgo_final pkg s.nBlockSize htpt i hi
  have hnd2 : (stateIds s ++ sorted).Nodup := by
    rw [List.nodup_append]
    refine ⟨hInv.nd, hperm.nodup_iff.mpr hpkgnd, ?_⟩
    intro x hx hx2
    exact hpkg_notin x (hperm.mem_iff.mp hx2) hx
  have hsorted_close : ∀ p, p < sorted.length →
      ∀ a ∈ (ent pool (sorted.getD p 0)).ancestors, a ∈ stateIds s ∨ a ∈ sorted.take p := by
    intro p hp a ha
    have htm : sorted.getD p 0 ∈ sorted := by
      rw [getD_eq_get hp]
      exact List.get_mem _ _ _
    have htpkg : sorted.getD p 0 ∈ pkg := hperm.mem_iff.mp htm
    rcases hpkg_closure _ htpkg a ha with h | h
    · exact Or.inl h
    · exact Or.inr (SortForBlock_anc_take pool hwf hpkgnd hp ha h)
  have hsig_cast : (s.nBlockSigOpsCost : Int) + sumSigOpsI pool sorted
      < (MAX_BLOCK_SIGOPS_COST : Int) := by
    have := hsgbound
    omega
  refine ⟨?_, hidsW.1⟩
  refine
    { vtx_eq := by rw [hidsW.1]; exact hidsW.2
      fees_eq := ?_
      sig_eq := ?_
      in_eq := ?_
      w_eq := ?_
      sz_eq := ?_
      so_eq := ?_
      fee_eq := ?_
      tx_eq := ?_
      w_le := ?_
      sz_le := ?_
      so_le := ?_
      nd := by rw [hidsW.1]; exact hnd2
      closed := ?_
      topo := ?_
      fin := ?_ }
  · rw [hidsW.1]
    have := foldl_ATB_fees pool sorted s
    rw [hs2, this, hInv.fees_eq]
    simp
  · rw [hidsW.1]
    have := foldl_ATB_sigv pool sorted s
    rw [hs2, this, hInv.sig_eq]
    simp
  · rw [hidsW.1]
    have := foldl_ATB_inBlock pool sorted s
    rw [hs2, this, hInv.in_eq, List.reverse_append]
  · rw [hidsW.1, hweq, hInv.w_eq, sumWeight_append]
    omega
  · intro hfl
    rw [hflag] at hfl
    rw [hidsW.1, hszeq, if_pos hfl, hInv.sz_eq hfl, sumSerSize_append]
    omega
  · rw [hidsW.1, hsoeq, hInv.so_eq, sumSigOpsN_append]
    omega
  · rw [hidsW.1]
    have := foldl_ATB_nFees pool sorted s
    rw [this, hInv.fee_eq, sumFees_append]
  · rw [hidsW.1]
    have := foldl_ATB_nBlockTx pool sorted s
    rw [this, hInv.tx_eq, List.length_append]
  · rw [hweq, hcfg.1]
    omega
  · rw [hszeq, hcfg.2.1]
    by_cases hfl : s.fNeedSizeAccounting
    · rw [if_pos hfl]
      exact hsz_new hfl
    · rw [if_neg hfl]
      exact hInv.sz_le
  · rw [hsoeq]
    have hcast := sumSigOpsI_eq_cast pool sorted
    have : (s.nBlockSigOpsCost : Int) + (sumSigOpsN pool sorted : Int)
        < (MAX_BLOCK_SIGOPS_COST : Int) := by
      rw [hcast] at hsig_cast
      exact hsig_cast
    have h2 : s.nBlockSigOpsCost + sumSigOpsN pool sorted < MAX_BLOCK_SIGOPS_COST := by
      exact_mod_cast this
    omega
  · rw [hidsW.1]
    intro i hi a ha
    rcases List.mem_append.mp hi with h | h
    · exact List.mem_append.mpr (Or.inl (hInv.closed i h a ha))
    · rcases hpkg_closure i (hperm.mem_iff.mp h) a ha with h2 | h2
      · exact List.mem_append.mpr (Or.inl h2)
      · exact List.mem_append.mpr (Or.inr (hperm.mem_iff.mpr h2))
  · rw [hidsW.1]
    exact topo_append hInv.topo hsorted_close
  · rw [hidsW.1]
    intro i hi
    rcases List.mem_append.mp hi with h | h
    · exact hInv.fin i h
    · exact hfin_pkg i (hperm.mem_iff.mp h)

/-! Frame and success facts for `TestForBlock`, and preservation of the
master invariant by a single priority-phase add. -/

theorem TestForBlock_shape (s : BState) (pool : List MemEntry) (i : Nat) :
    ∃ lf bf, (TestForBlock s pool i).2 = { s with lastFewTxs := lf, blockFinished := bf } := by
  unfold TestForBlock
  by_cases h1 : s.nBlockWeight + (ent pool i).txWeight ≥ s.nBlockMaxWeight
  · rw [if_pos h1]
    by_cases h2 : s.nBlockWeight > s.nBlockMaxWeight - 400 ∨ s.lastFewTxs > 50
    · rw [if_pos h2]
      exact ⟨s.lastFewTxs, true, rfl⟩
    · rw [if_neg h2]
      by_cases h3 : s.nBlockWeight > s.nBlockMaxWeight - 4000
      · rw [if_pos h3]
        exact ⟨s.lastFewTxs + 1, s.blockFinished, rfl⟩
      · rw [if_neg h3]
        exact ⟨s.lastFewTxs, s.blockFinished, rfl⟩
  · rw [if_neg h1]
    by_cases h2 : s.fNeedSizeAccounting = true ∧ s.nBlockSize + (ent pool i).serSize ≥ s.nBlockMaxSize
    · rw [if_pos h2]
      by_cases h3 : s.nBlockSize > s.nBlockMaxSize - 100 ∨ s.lastFewTxs > 50
      · rw [if_pos h3]
        exact ⟨s.lastFewTxs, true, rfl⟩
      · rw [if_neg h3]
        by_cases h4 : s.nBlockSize > s.nBlockMaxSize - 1000
        · rw [if_pos h4]
          exact ⟨s.lastFewTxs + 1, s.blockFinished, rfl⟩
        · rw [if_neg h4]
          exact ⟨s.lastFewTxs, s.blockFinished, rfl⟩
    · rw [if_neg h2]
      by_cases h3 : s.nBlockSigOpsCost + (ent pool i).sigOpCost ≥ MAX_BLOCK_SIGOPS_COST
      · rw [if_pos h3]
        by_cases h4 : s.nBlockSigOpsCost > MAX_BLOCK_SIGOPS_COST - 8
        · rw [if_pos h4]
          exact ⟨s.lastFewTxs, true, rfl⟩
        · rw [if_neg h4]
          exact ⟨s.lastFewTxs, s.blockFinished, rfl⟩
      · rw [if_neg h3]
        by_cases h4 : (ent pool i).isFinal
        · rw [if_neg (by simp [h4])]
          exact ⟨s.lastFewTxs, s.blockFinished, rfl⟩
        · rw [if_pos (by simp [h4])]
          exact ⟨s.lastFewTxs, s.blockFinished, rfl⟩

theorem BInv_frame {pool : List MemEntry} {s : BState} (hInv : BInv pool s)
    (lf : Nat) (bf : Bool) :
    BInv pool { s with lastFewTxs := lf, blockFinished := bf } :=
  { vtx_eq := hInv.vtx_eq, fees_eq := hInv.fees_eq, sig_eq := hInv.sig_eq,
    in_eq := hInv.in_eq, w_eq := hInv.w_eq, sz_eq := hInv.sz_eq,
    so_eq := hInv.so_eq, fee_eq := hInv.fee_eq, tx_eq := hInv.tx_eq,
    w_le := hInv.w_le, sz_le := hInv.sz_le, so_le := hInv.so_le,
    nd := hInv.nd, closed := hInv.closed, topo := hInv.topo, fin := hInv.fin }

theorem TestForBlock_true {s : BState} {pool : List MemEntry} {i : Nat}
    (h : (TestForBlock s pool i).1 = true) :
    s.nBlockWeight + (ent pool i).txWeight < s.nBlockMaxWeight ∧
    (s.fNeedSizeAccounting = true → s.nBlockSize + (ent pool i).serSize < s.nBlockMaxSize) ∧
    s.nBlockSigOpsCost + (ent pool i).sigOpCost < MAX_BLOCK_SIGOPS_COST ∧
    (ent pool i).isFinal = true ∧
    (TestForBlock s pool i).2 = s := by
  unfold TestForBlock at h ⊢
  by_cases h1 : s.nBlockWeight + (ent pool i).txWeight ≥ s.nBlockMaxWeight
  · rw [if_pos h1] at h
    exfalso
    by_cases h2 : s.nBlockWeight > s.nBlockMaxWeight - 400 ∨ s.lastFewTxs > 50
    · rw [if_pos h2] at h; cases h
    · rw [if_neg h2] at h
      by_cases h3 : s.nBlockWeight > s.nBlockMaxWeight - 4000
      · rw [if_pos h3] at h; cases h
      · rw [if_neg h3] at h; cases h
  · rw [if_neg h1] at h ⊢
    by_cases h2 : s.fNeedSizeAccounting = true ∧ s.nBlockSize + (ent pool i).serSize ≥ s.nBlockMaxSize
    · rw [if_pos h2] at h
      exfalso
      by_cases h3 : s.nBlockSize > s.nBlockMaxSize - 100 ∨ s.lastFewTxs > 50
      · rw [if_pos h3] at h; cases h
      · rw [if_neg h3] at h
        by_cases h4 : s.nBlockSize > s.nBlockMaxSize - 1000
        · rw [if_pos h4] at h; cases h
        · rw [if_neg h4] at h; cases h
    · rw [if_neg h2] at h ⊢
      by_cases h3 : s.nBlockSigOpsCost + (ent pool i).sigOpCost ≥ MAX_BLOCK_SIGOPS_COST
      · rw [if_pos h3] at h
        exfalso
        by_cases h4 : s.nBlockSigOpsCost > MAX_BLOCK_SIGOPS_COST - 8
        · rw [if_pos h4] at h; cases h
        · rw [if_neg h4] at h; cases h
      · rw [if_neg h3] at h ⊢
        by_cases h4 : (ent pool i).isFinal
        · rw [if_neg (by simp [h4])] at h ⊢
          refine ⟨by omega, fun hf => ?_, by omega, h4, rfl⟩
          have h5 : ¬ (s.nBlockSize + (ent pool i).serSize ≥ s.nBlockMaxSize) :=
            fun hge => h2 ⟨hf, hge⟩
          omega
        · rw [if_pos (by simp [h4])] at h
          cases h

theorem anc_sub_of_parents_in {pool : List MemEntry} (hwf : wfPool pool = true)
    {s : BState} (hInv : BInv pool s) {iter : Nat}
    (hpar : ∀ p ∈ (ent pool iter).parents, p ∈ s.inBlock) :
    ∀ a ∈ (ent pool iter).ancestors, a ∈ stateIds s := by
  intro a ha
  have hmem_in : ∀ x, x ∈ s.inBlock ↔ x ∈ stateIds s := by
    intro x
    rw [hInv.in_eq]
    exact List.mem_reverse
  rcases wf_cover hwf ha with h | ⟨p, hp, hap⟩
  · exact (hmem_in a).mp (hpar a h)
  · exact hInv.closed p ((hmem_in p).mp (hpar p hp)) a hap

theorem isStillDependent_false {s : BState} {pool : List MemEntry} {i : Nat}
    (h : isStillDependent s pool i = false) :
    ∀ p ∈ (ent pool i).parents, p ∈ s.inBlock := by
  unfold isStillDependent at h
  intro p hp
  by_contra hc
  have : (ent pool i).parents.any (fun p => decide (p ∉ s.inBlock)) = true :=
    List.any_eq_true.mpr ⟨p, hp, decide_eq_true hc⟩
  rw [h] at this
  cases this

theorem add_single_preserves (pool : List MemEntry) (hwf : wfPool pool = true)
    {s : BState} {iter : Nat} (hInv : BInv pool s)
    (hanc : ∀ a ∈ (ent pool iter).ancestors, a ∈ stateIds s)
    (hnotin : iter ∉ s.inBlock)
    (hw : s.nBlockWeight + (ent pool iter).txWeight ≤ s.nBlockMaxWeight)
    (hsz : s.fNeedSizeAccounting = true → s.nBlockSize + (ent pool iter).serSize ≤ s.nBlockMaxSize)
    (hso : s.nBlockSigOpsCost + (ent pool iter).sigOpCost ≤ MAX_BLOCK_SIGOPS_COST)
    (hfin : (ent pool iter).isFinal = true) :
    BInv pool (AddToBlock s pool iter) ∧
    stateIds (AddToBlock s pool iter) = stateIds s ++ [iter] := by
  have hfold : AddToBlock s pool iter = [iter].foldl (fun st i => AddToBlock st pool i) s := rfl
  have hmem_in : ∀ x, x ∈ s.inBlock ↔ x ∈ stateIds s := by
    intro x
    rw [hInv.in_eq]
    exact List.mem_reverse
  have hids : stateIds ([iter].foldl (fun st i => AddToBlock st pool i) s)
        = stateIds s ++ [iter] ∧
      ([iter].foldl (fun st i => AddToBlock st pool i) s).vtx
        = none :: (stateIds s ++ [iter]).map some :=
    foldl_ATB_stateIds pool hInv.vtx_eq
  rw [hfold]
  refine ⟨?_, hids.1⟩
  have hcfg := foldl_ATB_cfg pool [iter] s
  have hflag := foldl_ATB_flag pool [iter] s
  have hclose1 : ∀ p, p < ([iter] : List Nat).length →
      ∀ a ∈ (ent pool (([iter] : List Nat).getD p 0)).ancestors,
        a ∈ stateIds s ∨ a ∈ ([iter] : List Nat).take p := by
    intro p hp a ha
    have hp0 : p = 0 := by simpa using hp
    subst hp0
    exact Or.inl (hanc a (by simpa using ha))
  refine
    { vtx_eq := by rw [hids.1]; exact hids.2
      fees_eq := ?_
      sig_eq := ?_
      in_eq := ?_
      w_eq := ?_
      sz_eq := ?_
      so_eq := ?_
      fee_eq := ?_
      tx_eq := ?_
      w_le := ?_
      sz_le := ?_
      so_le := ?_
      nd := ?_
      closed := ?_
      topo := ?_
      fin := ?_ }
  · rw [hids.1, foldl_ATB_fees, hInv.fees_eq]
    simp
  · rw [hids.1, foldl_ATB_sigv, hInv.sig_eq]
    simp
  · rw [hids.1, foldl_ATB_inBlock, hInv.in_eq, List.reverse_append]
  · rw [hids.1, foldl_ATB_weight, hInv.w_eq, sumWeight_append]
    omega
  · intro hfl
    rw [hflag] at hfl
    rw [hids.1, foldl_ATB_size, if_pos hfl, hInv.sz_eq hfl, sumSerSize_append]
    omega
  · rw [hids.1, foldl_ATB_sigops, hInv.so_eq, sumSigOpsN_append]
    omega
  · rw [hids.1, foldl_ATB_nFees, hInv.fee_eq, sumFees_append]
  · rw [hids.1, foldl_ATB_nBlockTx, hInv.tx_eq, List.length_append]
  · rw [foldl_ATB_weight, hcfg.1]
    have : sumWeight pool [iter] = (ent pool iter).txWeight := by simp [sumWeight]
    omega
  · rw [foldl_ATB_size, hcfg.2.1]
    by_cases hfl : s.fNeedSizeAccounting
    · rw [if_pos hfl]
      have : sumSerSize pool [iter] = (ent pool iter).serSize := by simp [sumSerSize]
      have h2 := hsz hfl
      omega
    · rw [if_neg hfl]
      exact hInv.sz_le
  · rw [foldl_ATB_sigops]
    have : sumSigOpsN pool [iter] = (ent pool iter).sigOpCost := by simp [sumSigOpsN]
    omega
  · rw [hids.1, List.nodup_append]
    refine ⟨hInv.nd, List.nodup_singleton iter, ?_⟩
    intro x hx
    simp only [List.mem_singleton]
    intro he
    subst he
    exact hnotin ((hmem_in x).mpr hx)
  · rw [hids.1]
    intro i hi a ha
    rcases List.mem_append.mp hi with h | h
    · exact List.mem_append.mpr (Or.inl (hInv.closed i h a ha))
    · have : i = iter := by simpa using h
      subst this
      exact List.mem_append.mpr (Or.inl (hanc a ha))
  · rw [hids.1]
    exact topo_append hInv.topo hclose1
  · rw [hids.1]
    intro i hi
    rcases List.mem_append.mp hi with h | h
    · exact hInv.fin i h
    · have : i = iter := by simpa using h
      subst this
      exact hfin

theorem bool_not_true {b : Bool} (h : ¬ (b = true)) : b = false := by
  cases b
  · rfl
  · exact absurd rfl h

theorem addPriorityTxsLoop_BInv (pool : List MemEntry) (env : Env)
    (hwf : wfPool pool = true) (fPoS : Bool) (blockTime nBlockPrioritySize : Nat) :
    ∀ (fuel : Nat) (s : BState) (vec : List (Int × Nat)) (wait : List (Nat × Int)),
      BInv pool s →
      BInv pool (addPriorityTxsLoop pool env fPoS blockTime nBlockPrioritySize fuel s vec wait) := by
  intro fuel
  induction fuel with
  | zero => intro s vec wait h; exact h
  | succ n ih =>
    intro s vec wait hInv
    unfold addPriorityTxsLoop
    by_cases hend : vec.isEmpty || s.blockFinished
    · rw [if_pos hend]
      exact hInv
    · rw [if_neg hend]
      cases hpop : popBest vec with
      | none => exact hInv
      | some pr =>
        obtain ⟨⟨actualPriority, iter⟩, vec1⟩ := pr
        dsimp only
        by_cases h1 : iter ∈ s.inBlock
        · rw [if_pos h1]
          exact ih s vec1 wait hInv
        · rw [if_neg h1]
          by_cases h2 : (!s.fIncludeWitness && (ent pool iter).hasWitness) = true
          · rw [if_pos h2]
            exact ih s vec1 wait hInv
          · rw [if_neg h2]
            by_cases h3 : (ent pool iter).txTime > env.adjTime
              ∨ (fPoS = true ∧ (ent pool iter).txTime > blockTime)
            · rw [if_pos h3]
              exact ih s vec1 wait hInv
            · rw [if_neg h3]
              by_cases h4 : isStillDependent s pool iter = true
              · rw [if_pos h4]
                exact ih s vec1 _ hInv
              · rw [if_neg h4]
                have hdep : isStillDependent s pool iter = false := bool_not_true h4
                rcases hT : TestForBlock s pool iter with ⟨b, s1⟩
                cases b with
                | false =>
                  dsimp only
                  obtain ⟨lf, bf, hshape⟩ := TestForBlock_shape s pool iter
                  rw [hT] at hshape
                  simp only at hshape
                  have hInv1 : BInv pool s1 := by
                    rw [hshape]
                    exact BInv_frame hInv lf bf
                  exact ih s1 vec1 wait hInv1
                | true =>
                  dsimp only
                  have hTT := TestForBlock_true (by rw [hT] : (TestForBlock s pool iter).1 = true)
                  obtain ⟨hw, hsz, hso, hfin, hstate⟩ := hTT
                  rw [hT] at hstate
                  simp only at hstate
                  rw [hstate]
                  have hanc : ∀ a ∈ (ent pool iter).ancestors, a ∈ stateIds s :=
                    anc_sub_of_parents_in hwf hInv (isStillDependent_false hdep)
                  have hadd := add_single_preserves pool hwf hInv hanc h1
                    (Nat.le_of_lt hw) (fun hf => Nat.le_of_lt (hsz hf)) (Nat.le_of_lt hso) hfin
                  by_cases h5 : (AddToBlock s pool iter).nBlockSize ≥ nBlockPrioritySize
                    ∨ (!(env.allowFree actualPriority)) = true
                  · rw [if_pos h5]
                    exact hadd.1
                  · rw [if_neg h5]
                    exact ih _ _ _ hadd.1

theorem addPriorityTxsLoop_cfg (pool : List MemEntry) (env : Env) (fPoS : Bool)
    (blockTime nBlockPrioritySize : Nat) :
    ∀ (fuel : Nat) (s : BState) (vec : List (Int × Nat)) (wait : List (Nat × Int)),
      (addPriorityTxsLoop pool env fPoS blockTime nBlockPrioritySize fuel s vec wait).fNeedSizeAccounting
        = s.fNeedSizeAccounting ∧
      (addPriorityTxsLoop pool env fPoS blockTime nBlockPrioritySize fuel s vec wait).nBlockMaxWeight
        = s.nBlockMaxWeight ∧
      (addPriorityTxsLoop pool env fPoS blockTime nBlockPrioritySize fuel s vec wait).nBlockMaxSize
        = s.nBlockMaxSize ∧
      (addPriorityTxsLoop pool env fPoS blockTime nBlockPrioritySize fuel s vec wait).fIncludeWitness
        = s.fIncludeWitness ∧
      (addPriorityTxsLoop pool env fPoS blockTime nBlockPrioritySize fuel s vec wait).nHeight
        = s.nHeight := by
  intro fuel
  induction fuel with
  | zero => intro s vec wait; exact ⟨rfl, rfl, rfl, rfl, rfl⟩
  | succ n ih =>
    intro s vec wait
    unfold addPriorityTxsLoop
    by_cases hend : vec.isEmpty || s.blockFinished
    · rw [if_pos hend]
      exact ⟨rfl, rfl, rfl, rfl, rfl⟩
    · rw [if_neg hend]
      cases hpop : popBest vec with
      | none => exact ⟨rfl, rfl, rfl, rfl, rfl⟩
      | some pr =>
        obtain ⟨⟨actualPriority, iter⟩, vec1⟩ := pr
        dsimp only
        by_cases h1 : iter ∈ s.inBlock
        · rw [if_pos h1]
          exact ih s vec1 wait
        · rw [if_neg h1]
          by_cases h2 : (!s.fIncludeWitness && (ent pool iter).hasWitness) = true
          · rw [if_pos h2]
            exact ih s vec1 wait
          · rw [if_neg h2]
            by_cases h3 : (ent pool iter).txTime > env.adjTime
              ∨ (fPoS = true ∧ (ent pool iter).txTime > blockTime)
            · rw [if_pos h3]
              exact ih s vec1 wait
            · rw [if_neg h3]
              by_cases h4 : isStillDependent s pool iter = true
              · rw [if_pos h4]
                exact ih s vec1 _
              · rw [if_neg h4]
                rcases hT : TestForBlock s pool iter with ⟨b, s1⟩
                obtain ⟨lf, bf, hshape⟩ := TestForBlock_shape s pool iter
                rw [hT] at hshape
                simp only at hshape
                cases b with
                | false =>
                  dsimp only
                  rw [hshape]
                  exact ih _ vec1 wait
                | true =>
                  dsimp only
                  rw [hshape]
                  by_cases h5 : (AddToBlock { s with lastFewTxs := lf, blockFinished := bf }
                      pool iter).nBlockSize ≥ nBlockPrioritySize
                    ∨ (!(env.allowFree actualPriority)) = true
                  · rw [if_pos h5]
                    exact ⟨rfl, rfl, rfl, rfl, rfl⟩
                  · rw [if_neg h5]
                    have := ih (AddToBlock { s with lastFewTxs := lf, blockFinished := bf } pool iter)
                      (promoteChildren pool iter (vec1, wait)).1
                      (promoteChildren pool iter (vec1, wait)).2
                    exact this

theorem addPriorityTxs_pres (pool : List MemEntry) (env : Env) (hwf : wfPool pool = true)
    (fPoS : Bool) (blockTime : Nat) {s : BState} (hInv : BInv pool s)
    (hsz_any : s.nBlockSize = 1000 + sumSerSize pool (stateIds s)) :
    BInv pool (addPriorityTxs pool env fPoS blockTime s) ∧
    (addPriorityTxs pool env fPoS blockTime s).fNeedSizeAccounting = s.fNeedSizeAccounting ∧
    (addPriorityTxs pool env fPoS blockTime s).nBlockMaxWeight = s.nBlockMaxWeight ∧
    (addPriorityTxs pool env fPoS blockTime s).nBlockMaxSize = s.nBlockMaxSize ∧
    (addPriorityTxs pool env fPoS blockTime s).fIncludeWitness = s.fIncludeWitness ∧
    (addPriorityTxs pool env fPoS blockTime s).nHeight = s.nHeight := by
  unfold addPriorityTxs
  by_cases h0 : min s.nBlockMaxSize env.blockPrioritySize = 0
  · rw [if_pos h0]
    exact ⟨hInv, rfl, rfl, rfl, rfl, rfl⟩
  · rw [if_neg h0]
    have hInv1 : BInv pool { s with fNeedSizeAccounting := true } :=
      { vtx_eq := hInv.vtx_eq, fees_eq := hInv.fees_eq, sig_eq := hInv.sig_eq,
        in_eq := hInv.in_eq, w_eq := hInv.w_eq, sz_eq := fun _ => hsz_any,
        so_eq := hInv.so_eq, fee_eq := hInv.fee_eq, tx_eq := hInv.tx_eq,
        w_le := hInv.w_le, sz_le := hInv.sz_le, so_le := hInv.so_le,
        nd := hInv.nd, closed := hInv.closed, topo := hInv.topo, fin := hInv.fin }
    have hloop := addPriorityTxsLoop_BInv pool env hwf fPoS blockTime
      (min s.nBlockMaxSize env.blockPrioritySize) (priorityFuel pool)
      { s with fNeedSizeAccounting := true }
      ((List.range pool.length).map (fun i => ((ent pool i).priority, i))) [] hInv1
    have hcfg := addPriorityTxsLoop_cfg pool env fPoS blockTime
      (min s.nBlockMaxSize env.blockPrioritySize) (priorityFuel pool)
      { s with fNeedSizeAccounting := true }
      ((List.range pool.length).map (fun i => ((ent pool i).priority, i))) []
    refine ⟨?_, rfl, hcfg.2.1, hcfg.2.2.1, hcfg.2.2.2.1, hcfg.2.2.2.2⟩
    exact
      { vtx_eq := hloop.vtx_eq, fees_eq := hloop.fees_eq, sig_eq := hloop.sig_eq,
        in_eq := hloop.in_eq, w_eq := hloop.w_eq,
        sz_eq := fun _ => hloop.sz_eq hcfg.1,
        so_eq := hloop.so_eq, fee_eq := hloop.fee_eq, tx_eq := hloop.tx_eq,
        w_le := hloop.w_le, sz_le := hloop.sz_le, so_le := hloop.so_le,
        nd := hloop.nd, closed := hloop.closed, topo := hloop.topo, fin := hloop.fin }

/-! Support lemmas for the package-selection loop. -/

theorem mapBest_mem {m : List CTxMemPoolModifiedEntry} {me : CTxMemPoolModifiedEntry}
    (h : mapBest m = some me) : me ∈ m := by
  unfold mapBest at h
  suffices haux : ∀ (l : List CTxMemPoolModifiedEntry) (acc : Option CTxMemPoolModifiedEntry),
      (l.foldl (fun acc me2 =>
        match acc with
        | none => some me2
        | some b => if CompareModifiedEntry me2 b then some me2 else some b) acc) = some me →
      (acc = some me ∨ me ∈ l) by
    rcases haux m none h with h2 | h2
    · cases h2
    · exact h2
  intro l
  induction l with
  | nil =>
    intro acc h2
    exact Or.inl h2
  | cons x t ih =>
    intro acc h2
    rcases ih _ h2 with h3 | h3
    · cases acc with
      | none =>
        simp only at h3
        right
        rw [← Option.some_inj.mp h3]
        exact List.mem_cons_self x t
      | some b =>
        simp only at h3
        by_cases hc : CompareModifiedEntry x b
        · rw [if_pos hc] at h3
          right
          rw [← Option.some_inj.mp h3]
          exact List.mem_cons_self x t
        · rw [if_neg hc] at h3
          left
          exact h3
    · right
      exact List.mem_cons_of_mem x h3

theorem foldl_mapErase_mem :
    ∀ (l : List Nat) (m : List CTxMemPoolModifiedEntry) (me : CTxMemPoolModifiedEntry),
    me ∈ l.foldl mapErase m ↔ me ∈ m ∧ me.iterId ∉ l := by
  intro l
  induction l with
  | nil =>
    intro m me
    simp
  | cons x t ih =>
    intro m me
    rw [List.foldl_cons, ih, mapErase_mem]
    constructor
    · rintro ⟨⟨h1, h2⟩, h3⟩
      refine ⟨h1, ?_⟩
      intro hc
      rcases List.mem_cons.mp hc with h | h
      · exact h2 h
      · exact h3 h
    · rintro ⟨h1, h2⟩
      exact ⟨⟨h1, fun hc => h2 (by rw [hc]; exact List.mem_cons_self x t)⟩,
        fun hc => h2 (List.mem_cons_of_mem x hc)⟩

theorem foldl_mapErase_keyNodup :
    ∀ (l : List Nat) (m : List CTxMemPoolModifiedEntry), (mapKeys m).Nodup →
    (mapKeys (l.foldl mapErase m)).Nodup := by
  intro l
  induction l with
  | nil => intro m h; exact h
  | cons x t ih =>
    intro m h
    exact ih _ (mapErase_keyNodup x h)

theorem MInvP_congr {pool : List MemEntry} {B B2 : List Nat}
    {m : List CTxMemPoolModifiedEntry} (hBB : ∀ x, x ∈ B ↔ x ∈ B2)
    (hM : MInvP pool B m) : MInvP pool B2 m := by
  obtain ⟨hk, he⟩ := hM
  refine ⟨hk, ?_⟩
  intro me hme
  obtain ⟨h1, h2, h3, h4⟩ := he me hme
  have hfeq : (ent pool me.iterId).ancestors.filter (fun a => decide (a ∉ B))
      = (ent pool me.iterId).ancestors.filter (fun a => decide (a ∉ B2)) := by
    apply List.filter_congr
    intro a _
    simp only [decide_eq_decide]
    constructor
    · intro hx hc
      exact hx ((hBB a).mpr hc)
    · intro hx hc
      exact hx ((hBB a).mp hc)
  have hueq : uncSelf pool B me.iterId = uncSelf pool B2 me.iterId := by
    unfold uncSelf
    rw [hfeq]
  refine ⟨fun hc => h1 ((hBB me.iterId).mpr hc), h2, ?_, ?_⟩
  · rw [← hueq]
    exact h3
  · rw [← hueq]
    exact h4

theorem MInvP_subset {pool : List MemEntry} {B : List Nat}
    {m m2 : List CTxMemPoolModifiedEntry}
    (hsub : ∀ me ∈ m2, me ∈ m) (hk : (mapKeys m2).Nodup)
    (hM : MInvP pool B m) : MInvP pool B m2 :=
  ⟨hk, fun me hme => hM.2 me (hsub me hme)⟩

theorem base_package_bounds (pool : List MemEntry) (hwf : wfPool pool = true)
    (B : List Nat) (iter : Nat) :
    sumTxSize pool (uncSelf pool B iter) ≤ (ent pool iter).sizeWithAncestors ∧
    sumSigOpsI pool (uncSelf pool B iter) ≤ (ent pool iter).sigOpCostWithAncestors := by
  have hsz := wf_size_agg hwf iter
  have hsg := wf_sig_agg hwf iter
  have h1 : sumTxSize pool ((ent pool iter).ancestors.filter (fun a => decide (a ∉ B)))
      ≤ sumTxSize pool (ent pool iter).ancestors :=
    sumTxSize_sublist pool (List.filter_sublist _)
  have h2 : sumSigOpsI pool ((ent pool iter).ancestors.filter (fun a => decide (a ∉ B)))
      ≤ sumSigOpsI pool (ent pool iter).ancestors :=
    sumSigOpsI_sublist pool (List.filter_sublist _)
  constructor
  · rw [sumTxSize_uncSelf]
    omega
  · rw [sumSigOpsI_uncSelf]
    rw [hsg]
    linarith

theorem inBlock_closed {pool : List MemEntry} {s : BState} (hInv : BInv pool s) :
    ∀ j, j ∈ s.inBlock → ∀ a ∈ (ent pool j).ancestors, a ∈ s.inBlock := by
  intro j hj a ha
  rw [hInv.in_eq] at hj ⊢
  rw [List.mem_reverse] at hj ⊢
  exact hInv.closed j hj a ha

theorem package_facts (pool : List MemEntry) (hwf : wfPool pool = true)
    {s : BState} {iter : Nat} (hiter : iter ∉ s.inBlock) :
    (onlyUnconfirmed s (ent pool iter).ancestors ++ [iter]).Nodup ∧
    (∀ a ∈ onlyUnconfirmed s (ent pool iter).ancestors ++ [iter], a ∉ s.inBlock) := by
  constructor
  · rw [List.nodup_append]
    refine ⟨(wf_anc_nodup hwf iter).filter _, List.nodup_singleton iter, ?_⟩
    intro x hx
    have hxa := mem_filter_decide hx
    have hne := wf_anc_ne hwf hxa.1
    simp [hne]
  · intro a ha
    rcases List.mem_append.mp ha with h | h
    · exact (mem_filter_decide h).2
    · have heq : a = iter := by simpa using h
      subst heq
      exact hiter

theorem considerPackage_commit_MInvP (pool : List MemEntry) (env : Env)
    (hwf : wfPool pool = true) {s : BState} {m : List CTxMemPoolModifiedEntry}
    {iter : Nat} (hInv : BInv pool s) (hM : MInvP pool s.inBlock m)
    (hiter : iter ∉ s.inBlock) :
    MInvP pool
      ((SortForBlock pool (onlyUnconfirmed s (ent pool iter).ancestors ++ [iter])).foldl
        (fun st i => AddToBlock st pool i) s).inBlock
      (UpdatePackagesForAdded pool (onlyUnconfirmed s (ent pool iter).ancestors ++ [iter])
        ((SortForBlock pool (onlyUnconfirmed s (ent pool iter).ancestors ++ [iter])).foldl
          mapErase m)) := by
  have hpf := package_facts pool hwf hiter
  set pkg := onlyUnconfirmed s (ent pool iter).ancestors ++ [iter] with hpkg
  set sorted := SortForBlock pool pkg with hsorted
  have hperm : List.Perm sorted pkg := SortForBlock_perm pool pkg
  have hm2sub : ∀ me ∈ sorted.foldl mapErase m, me ∈ m :=
    fun me hme => ((foldl_mapErase_mem sorted m me).mp hme).1
  have hm2k : (mapKeys (sorted.foldl mapErase m)).Nodup :=
    foldl_mapErase_keyNodup sorted m hM.1
  have hM2 : MInvP pool s.inBlock (sorted.foldl mapErase m) :=
    MInvP_subset hm2sub hm2k hM
  have hres := UPFA_MInvP pool hwf hM2 hpf.2 hpf.1 (inBlock_closed hInv)
    (fun me hme => by
      have h2 := (foldl_mapErase_mem sorted m me).mp hme
      intro hc
      exact h2.2 (hperm.mem_iff.mpr hc))
  apply MInvP_congr _ hres
  intro x
  rw [foldl_ATB_inBlock]
  simp only [List.mem_append, List.mem_reverse, hperm.mem_iff, hpkg]
  tauto


theorem considerPackage_pres (pool : List MemEntry) (env : Env) (hwf : wfPool pool = true)
    {s : BState} {m : List CTxMemPoolModifiedEntry} {failedTx : List Nat}
    {iter : Nat} {mode : Option CTxMemPoolModifiedEntry}
    (hInv : BInv pool s) (hM : MInvP pool s.inBlock m)
    (hmode : ∀ me, mode = some me → me ∈ m ∧ me.iterId = iter)
    (hiter : iter ∉ s.inBlock) :
    (∀ s1, considerPackage pool env s m failedTx iter mode = PkgStep.stop s1 → s1 = s) ∧
    (∀ s1 m1 f1, considerPackage pool env s m failedTx iter mode = PkgStep.next s1 m1 f1 →
      BInv pool s1 ∧ MInvP pool s1.inBlock m1 ∧
      s1.fNeedSizeAccounting = s.fNeedSizeAccounting ∧
      s1.nBlockMaxWeight = s.nBlockMaxWeight ∧ s1.nBlockMaxSize = s.nBlockMaxSize ∧
      s1.fIncludeWitness = s.fIncludeWitness ∧ s1.nHeight = s.nHeight) := by
  have hcMInv := considerPackage_commit_MInvP pool env hwf hInv hM hiter
  have hcfg := foldl_ATB_cfg pool
    (SortForBlock pool (onlyUnconfirmed s (ent pool iter).ancestors ++ [iter])) s
  have hflag := foldl_ATB_flag pool
    (SortForBlock pool (onlyUnconfirmed s (ent pool iter).ancestors ++ [iter])) s
  unfold considerPackage
  cases mode with
  | none =>
    have hbounds := base_package_bounds pool hwf s.inBlock iter
    have hcommit := fun htp htpt =>
      commit_preserves pool hwf hInv hiter hbounds.1 hbounds.2 htp htpt
    dsimp only
    by_cases hfee : (ent pool iter).modFeesWithAncestors
        < env.minRelayFee (ent pool iter).sizeWithAncestors
    · rw [if_pos hfee]
      refine ⟨fun s1 h => ?_, fun s1 m1 f1 h => ?_⟩
      · cases h
        rfl
      · cases h
    · rw [if_neg hfee]
      cases htp : (TestPackage s (ent pool iter).sizeWithAncestors
          (ent pool iter).sigOpCostWithAncestors).1 with
      | false =>
        rw [if_pos (by decide)]
        refine ⟨fun s1 h => ?_, fun s1 m1 f1 h => ?_⟩
        · cases h
        · cases h
          exact ⟨hInv, hM, rfl, rfl, rfl, rfl, rfl⟩
      | true =>
        rw [if_neg (by decide)]
        cases htpt : (TestPackageTransactions s pool
            (onlyUnconfirmed s (ent pool iter).ancestors ++ [iter])).1 with
        | false =>
          rw [if_pos (by decide)]
          refine ⟨fun s1 h => ?_, fun s1 m1 f1 h => ?_⟩
          · cases h
          · cases h
            exact ⟨hInv, hM, rfl, rfl, rfl, rfl, rfl⟩
        | true =>
          rw [if_neg (by decide)]
          refine ⟨fun s1 h => ?_, fun s1 m1 f1 h => ?_⟩
          · cases h
          · cases h
            exact ⟨(hcommit htp htpt).1, hcMInv, hflag,
              hcfg.1, hcfg.2.1, hcfg.2.2.1, hcfg.2.2.2.1⟩
  | some me =>
    obtain ⟨hmem, hid⟩ := hmode me rfl
    have hbounds : sumTxSize pool (uncSelf pool s.inBlock iter) ≤ me.nSizeWithAncestors ∧
        sumSigOpsI pool (uncSelf pool s.inBlock iter) ≤ me.nSigOpCostWithAncestors := by
      obtain ⟨_, _, h3, h4⟩ := hM.2 me hmem
      rw [hid] at h3 h4
      exact ⟨h3, h4⟩
    have hcommit := fun htp htpt =>
      commit_preserves pool hwf hInv hiter hbounds.1 hbounds.2 htp htpt
    have hfailInv : MInvP pool s.inBlock (mapErase m iter) :=
      MInvP_subset (fun me0 hme0 => (mapErase_mem.mp hme0).1)
        (mapErase_keyNodup iter hM.1) hM
    dsimp only
    by_cases hfee : me.nModFeesWithAncestors < env.minRelayFee me.nSizeWithAncestors
    · rw [if_pos hfee]
      refine ⟨fun s1 h => ?_, fun s1 m1 f1 h => ?_⟩
      · cases h
        rfl
      · cases h
    · rw [if_neg hfee]
      cases htp : (TestPackage s me.nSizeWithAncestors me.nSigOpCostWithAncestors).1 with
      | false =>
        rw [if_pos (by decide)]
        refine ⟨fun s1 h => ?_, fun s1 m1 f1 h => ?_⟩
        · cases h
        · cases h
          exact ⟨hInv, hfailInv, rfl, rfl, rfl, rfl, rfl⟩
      | true =>
        rw [if_neg (by decide)]
        cases htpt : (TestPackageTransactions s pool
            (onlyUnconfirmed s (ent pool iter).ancestors ++ [iter])).1 with
        | false =>
          rw [if_pos (by decide)]
          refine ⟨fun s1 h => ?_, fun s1 m1 f1 h => ?_⟩
          · cases h
          · cases h
            exact ⟨hInv, hfailInv, rfl, rfl, rfl, rfl, rfl⟩
        | true =>
          rw [if_neg (by decide)]
          refine ⟨fun s1 h => ?_, fun s1 m1 f1 h => ?_⟩
          · cases h
          · cases h
            exact ⟨(hcommit htp htpt).1, hcMInv, hflag,
              hcfg.1, hcfg.2.1, hcfg.2.2.1, hcfg.2.2.2.1⟩

theorem addPackageTxsLoop_pres (pool : List MemEntry) (env : Env)
    (hwf : wfPool pool = true) :
    ∀ (fuel : Nat) (s : BState) (m : List CTxMemPoolModifiedEntry)
      (failedTx mi : List Nat),
      BInv pool s → MInvP pool s.inBlock m →
      BInv pool (addPackageTxsLoop pool env fuel s m failedTx mi) ∧
      (addPackageTxsLoop pool env fuel s m failedTx mi).fNeedSizeAccounting
        = s.fNeedSizeAccounting ∧
      (addPackageTxsLoop pool env fuel s m failedTx mi).nBlockMaxWeight = s.nBlockMaxWeight ∧
      (addPackageTxsLoop pool env fuel s m failedTx mi).nBlockMaxSize = s.nBlockMaxSize ∧
      (addPackageTxsLoop pool env fuel s m failedTx mi).fIncludeWitness = s.fIncludeWitness ∧
      (addPackageTxsLoop pool env fuel s m failedTx mi).nHeight = s.nHeight := by
  intro fuel
  induction fuel with
  | zero =>
    intro s m failedTx mi hI hM
    exact ⟨hI, rfl, rfl, rfl, rfl, rfl⟩
  | succ n ih =>
    intro s m failedTx mi hI hM
    unfold addPackageTxsLoop
    by_cases hend : (mi.isEmpty && m.isEmpty) = true
    · rw [if_pos hend]
      exact ⟨hI, rfl, rfl, rfl, rfl, rfl⟩
    · rw [if_neg hend]
      cases mi with
      | cons hd t =>
        dsimp only
        by_cases hskip : SkipMapTxEntry s m failedTx hd = true
        · rw [if_pos hskip]
          exact ih s m failedTx t hI hM
        · rw [if_neg hskip]
          have hnotin : hd ∉ s.inBlock := by
            intro hmem
            apply hskip
            unfold SkipMapTxEntry
            simp [hmem]
          cases hbest : mapBest m with
          | some modit =>
            have hmemb := mapBest_mem hbest
            dsimp only
            by_cases hcmp : CompareModifiedEntry modit (mkModEntry pool hd) = true
            · rw [if_pos hcmp]
              have hnotin2 : modit.iterId ∉ s.inBlock := (hM.2 modit hmemb).1
              have hpres := @considerPackage_pres pool env hwf s m failedTx modit.iterId
                (some modit) hI hM
                (fun me hme => by have h := Option.some.inj hme; subst h; exact ⟨hmemb, rfl⟩)
                hnotin2
              cases hstep : considerPackage pool env s m failedTx modit.iterId (some modit) with
              | stop s1 =>
                dsimp only
                rw [hpres.1 s1 hstep]
                exact ⟨hI, rfl, rfl, rfl, rfl, rfl⟩
              | next s1 m1 f1 =>
                dsimp only
                obtain ⟨hI1, hM1, e1, e2, e3, e4, e5⟩ := hpres.2 s1 m1 f1 hstep
                obtain ⟨jI, j1, j2, j3, j4, j5⟩ := ih s1 m1 f1 (hd :: t) hI1 hM1
                exact ⟨jI, j1.trans e1, j2.trans e2, j3.trans e3, j4.trans e4, j5.trans e5⟩
            · rw [if_neg hcmp]
              have hpres := @considerPackage_pres pool env hwf s m failedTx hd none hI hM
                (fun me hme => by simp at hme) hnotin
              cases hstep : considerPackage pool env s m failedTx hd none with
              | stop s1 =>
                dsimp only
                rw [hpres.1 s1 hstep]
                exact ⟨hI, rfl, rfl, rfl, rfl, rfl⟩
              | next s1 m1 f1 =>
                dsimp only
                obtain ⟨hI1, hM1, e1, e2, e3, e4, e5⟩ := hpres.2 s1 m1 f1 hstep
                obtain ⟨jI, j1, j2, j3, j4, j5⟩ := ih s1 m1 f1 t hI1 hM1
                exact ⟨jI, j1.trans e1, j2.trans e2, j3.trans e3, j4.trans e4, j5.trans e5⟩
          | none =>
            dsimp only
            have hpres := @considerPackage_pres pool env hwf s m failedTx hd none hI hM
              (fun me hme => by simp at hme) hnotin
            cases hstep : considerPackage pool env s m failedTx hd none with
            | stop s1 =>
              dsimp only
              rw [hpres.1 s1 hstep]
              exact ⟨hI, rfl, rfl, rfl, rfl, rfl⟩
            | next s1 m1 f1 =>
              dsimp only
              obtain ⟨hI1, hM1, e1, e2, e3, e4, e5⟩ := hpres.2 s1 m1 f1 hstep
              obtain ⟨jI, j1, j2, j3, j4, j5⟩ := ih s1 m1 f1 t hI1 hM1
              exact ⟨jI, j1.trans e1, j2.trans e2, j3.trans e3, j4.trans e4, j5.trans e5⟩
      | nil =>
        dsimp only
        cases hbest : mapBest m with
        | some modit =>
          have hmemb := mapBest_mem hbest
          dsimp only
          have hnotin2 : modit.iterId ∉ s.inBlock := (hM.2 modit hmemb).1
          have hpres := @considerPackage_pres pool env hwf s m failedTx modit.iterId
            (some modit) hI hM
            (fun me hme => by have h := Option.some.inj hme; subst h; exact ⟨hmemb, rfl⟩)
            hnotin2
          cases hstep : considerPackage pool env s m failedTx modit.iterId (some modit) with
          | stop s1 =>
            dsimp only
            rw [hpres.1 s1 hstep]
            exact ⟨hI, rfl, rfl, rfl, rfl, rfl⟩
          | next s1 m1 f1 =>
            dsimp only
            obtain ⟨hI1, hM1, e1, e2, e3, e4, e5⟩ := hpres.2 s1 m1 f1 hstep
            obtain ⟨jI, j1, j2, j3, j4, j5⟩ := ih s1 m1 f1 [] hI1 hM1
            exact ⟨jI, j1.trans e1, j2.trans e2, j3.trans e3, j4.trans e4, j5.trans e5⟩
        | none =>
          exact ⟨hI, rfl, rfl, rfl, rfl, rfl⟩

theorem addPackageTxs_pres (pool : List MemEntry) (env : Env)
    (hwf : wfPool pool = true) {s : BState} (hI : BInv pool s) :
    BInv pool (addPackageTxs pool env s) ∧
    (addPackageTxs pool env s).fNeedSizeAccounting = s.fNeedSizeAccounting ∧
    (addPackageTxs pool env s).nBlockMaxWeight = s.nBlockMaxWeight ∧
    (addPackageTxs pool env s).nBlockMaxSize = s.nBlockMaxSize ∧
    (addPackageTxs pool env s).fIncludeWitness = s.fIncludeWitness ∧
    (addPackageTxs pool env s).nHeight = s.nHeight := by
  have hnil : MInvP pool ([] : List Nat) ([] : List CTxMemPoolModifiedEntry) := by
    refine ⟨List.nodup_nil, ?_⟩
    intro me hme
    cases hme
  have hnd : s.inBlock.Nodup := by
    rw [hI.in_eq]
    exact List.nodup_reverse.mpr hI.nd
  have hM0 : MInvP pool s.inBlock (UpdatePackagesForAdded pool s.inBlock []) := by
    have := UPFA_MInvP pool hwf hnil
      (fun a _ ha => by cases ha) hnd
      (fun j hj => by cases hj)
      (fun me hme => by cases hme)
    exact this
  exact addPackageTxsLoop_pres pool env hwf (packageFuel pool) s
    (UpdatePackagesForAdded pool s.inBlock []) [] (ancestorScoreOrder pool) hI hM0

theorem BlockAssemblerInit_bounds (argWeight argSize : Option Nat) :
    4000 ≤ (BlockAssemblerInit argWeight argSize).1 ∧
    1000 ≤ (BlockAssemblerInit argWeight argSize).2.1 := by
  unfold BlockAssemblerInit
  refine ⟨le_max_left _ _, le_max_left _ _⟩

theorem initial_BInv (pool : List MemEntry) (cfg : Nat × Nat × Bool)
    (fw : Bool) (nH : Nat) (hw : 4000 ≤ cfg.1) (hs : 1000 ≤ cfg.2.1) :
    BInv pool (initialBState cfg fw nH) := by
  have hids : stateIds (initialBState cfg fw nH) = [] := rfl
  refine ⟨?_, ?_, ?_, ?_, ?_, ?_, ?_, ?_, ?_, ?_, ?_, ?_, ?_, ?_, ?_, ?_⟩
  · rw [hids]; rfl
  · rw [hids]; rfl
  · rw [hids]; rfl
  · rw [hids]; rfl
  · rw [hids]; rfl
  · intro _; rw [hids]; rfl
  · rw [hids]; rfl
  · rw [hids]; rfl
  · rw [hids]; rfl
  · exact hw
  · exact hs
  · show (400 : Nat) ≤ MAX_BLOCK_SIGOPS_COST
    decide
  · rw [hids]; exact List.nodup_nil
  · rw [hids]; intro i hi; cases hi
  · rw [hids]; intro p hp; cases hp
  · rw [hids]; intro i hi; cases hi

theorem CNB_success_facts (pool : List MemEntry) (env : Env) (spk : List Nat)
    (fPoS hrw fmw : Bool) (aw asz : Option Nat) (hwf : wfPool pool = true)
    {tpl : CBlockTemplate} {r : Option Int}
    (h : CreateNewBlock pool env spk fPoS hrw fmw aw asz = some (tpl, r)) :
    ∃ s2 : BState, BInv pool s2 ∧
      s2.fNeedSizeAccounting = (BlockAssemblerInit aw asz).2.2 ∧
      s2.nBlockMaxWeight = (BlockAssemblerInit aw asz).1 ∧
      s2.nBlockMaxSize = (BlockAssemblerInit aw asz).2.1 ∧
      tpl.vtx = s2.vtx ∧
      tpl.vTxFees = s2.vTxFees.set 0 (- s2.nFees) ∧
      tpl.vTxSigOpsCost = s2.vTxSigOpsCost.set 0
        ((WITNESS_SCALE_FACTOR * env.coinbaseLegacySigOps : Nat) : Int) ∧
      tpl.header.nNonce = 0 ∧
      tpl.header.nBits = env.nextWorkRequired fPoS ∧
      (fPoS = false → tpl.coinbase =
          { nTime := u32N env.adjTime, scriptPubKey := spk,
            value := s2.nFees + env.blockSubsidy (env.tipHeight + 1),
            scriptSigHeight := env.tipHeight + 1 } ∧
        r = none ∧
        tpl.header.nTime = (UpdateTime
          { nVersion := env.blockVersion, hashPrevBlock := env.hashPrevBlock,
            nTime := u32I (env.adjTime : Int), nBits := 0, nNonce := 0 }
          env.medianTimePast (env.adjTime : Int)).2.nTime) ∧
      (fPoS = true → tpl.coinbase =
          { nTime := u32N env.adjTime, scriptPubKey := [], value := 0,
            scriptSigHeight := env.tipHeight + 1 } ∧
        r = some (s2.nFees + env.posReward (env.tipHeight + 1)) ∧
        tpl.header.nTime = u32I (max
          (u32I (max (env.medianTimePast + BLOCK_LIMITER_TIME + 1)
            (maxTxTime pool
              { nTime := u32N env.adjTime, scriptPubKey := [], value := 0,
                scriptSigHeight := env.tipHeight + 1 } (stateIds s2))))
          (env.pastDrift env.tipTime))) := by
  unfold CreateNewBlock at h
  by_cases hg1 : (fPoS && !hrw) = true
  · rw [if_pos hg1] at h
    cases h
  · rw [if_neg hg1] at h
    by_cases hg2 : (!env.allocOk) = true
    · rw [if_pos hg2] at h
      cases h
    · rw [if_neg hg2] at h
      dsimp only at h
      have h2 := Option.some.inj h
      have htpl := congrArg Prod.fst h2
      have hr := congrArg Prod.snd h2
      simp only at htpl hr
      have hcb := BlockAssemblerInit_bounds aw asz
      have hI0 := initial_BInv pool (BlockAssemblerInit aw asz)
        (env.witnessEnabled && fmw) (env.tipHeight + 1) hcb.1 hcb.2
      have hP := addPriorityTxs_pres pool env hwf fPoS env.dummyTxTime hI0 rfl
      have hK := addPackageTxs_pres pool env hwf hP.1
      refine ⟨addPackageTxs pool env (addPriorityTxs pool env fPoS env.dummyTxTime
        (initialBState (BlockAssemblerInit aw asz) (env.witnessEnabled && fmw)
          (env.tipHeight + 1))), hK.1, ?_, ?_, ?_, ?_, ?_, ?_, ?_, ?_, ?_, ?_⟩
      · exact hK.2.1.trans hP.2.1
      · exact hK.2.2.1.trans hP.2.2.1
      · exact hK.2.2.2.1.trans hP.2.2.2.1
      · rw [← htpl]
      · rw [← htpl]
      · rw [← htpl]
      · rw [← htpl]
      · rw [← htpl]
      · intro hpos
        subst hpos
        rw [← htpl, ← hr]
        exact ⟨rfl, rfl, rfl⟩
      · intro hpos
        subst hpos
        rw [← htpl, ← hr]
        exact ⟨rfl, rfl, rfl⟩

/-- C1: every successful `CreateNewBlock` template respects the three
caps: coinbase-reserved weight within `nBlockMaxWeight`, size (when
accounted) within `nBlockMaxSize`, and sigop cost within
`MAX_BLOCK_SIGOPS_COST`. -/
theorem claim_C1 (pool : List MemEntry) (env : Env) (spk : List Nat)
    (fPoS hrw fmw : Bool) (aw asz : Option Nat) (hwf : wfPool pool = true)
    (tpl : CBlockTemplate) (r : Option Int)
    (h : CreateNewBlock pool env spk fPoS hrw fmw aw asz = some (tpl, r)) :
    4000 + sumWeight pool (blockIds tpl) ≤ (BlockAssemblerInit aw asz).1 ∧
    ((BlockAssemblerInit aw asz).2.2 = true →
      1000 + sumSerSize pool (blockIds tpl) ≤ (BlockAssemblerInit aw asz).2.1) ∧
    400 + sumSigOpsN pool (blockIds tpl) ≤ MAX_BLOCK_SIGOPS_COST := by
  obtain ⟨s2, hI, hf, hw, hs, hvtx, -⟩ :=
    CNB_success_facts pool env spk fPoS hrw fmw aw asz hwf h
  have hids : blockIds tpl = stateIds s2 := by
    unfold blockIds stateIds
    rw [hvtx]
  refine ⟨?_, ?_, ?_⟩
  · rw [hids, ← hI.w_eq, ← hw]
    exact hI.w_le
  · intro hflag
    have hf2 : s2.fNeedSizeAccounting = true := hf.trans hflag
    rw [hids, ← hI.sz_eq hf2, ← hs]
    exact hI.sz_le
  · rw [hids, ← hI.so_eq]
    exact hI.so_le

theorem claim_C1_witness :
    4000 + sumWeight demoPool (blockIds demoTPoW) ≤ (BlockAssemblerInit none none).1 ∧
    ((BlockAssemblerInit none none).2.2 = true →
      1000 + sumSerSize demoPool (blockIds demoTPoW) ≤ (BlockAssemblerInit none none).2.1) ∧
    400 + sumSigOpsN demoPool (blockIds demoTPoW) ≤ MAX_BLOCK_SIGOPS_COST :=
  claim_C1 demoPool demoEnv [1, 2, 3] false false true none none (by decide)
    demoTPoW none (by decide)

/-- C2: in every successful template every unconfirmed ancestor of a
committed transaction appears at a strictly earlier index, and
`SortForBlock` realizes such an order: it permutes the package into
ancestor-count order, which is topological because an entry's ancestor
count strictly exceeds each of its ancestors' counts (Invariant A). -/
theorem claim_C2 (pool : List MemEntry) (env : Env) (spk : List Nat)
    (fPoS hrw fmw : Bool) (aw asz : Option Nat) (hwf : wfPool pool = true)
    (tpl : CBlockTemplate) (r : Option Int)
    (h : CreateNewBlock pool env spk fPoS hrw fmw aw asz = some (tpl, r)) :
    (∀ p, p < (blockIds tpl).length →
      ∀ a ∈ (ent pool ((blockIds tpl).getD p 0)).ancestors, a ∈ (blockIds tpl).take p) ∧
    (∀ pkg : List Nat, List.Perm (SortForBlock pool pkg) pkg ∧
      List.Sorted (AncestorCountLE pool) (SortForBlock pool pkg)) ∧
    (∀ i a : Nat, a ∈ (ent pool i).ancestors →
      (ent pool a).countWithAncestors < (ent pool i).countWithAncestors) := by
  obtain ⟨s2, hI, -, -, -, hvtx, -⟩ :=
    CNB_success_facts pool env spk fPoS hrw fmw aw asz hwf h
  have hids : blockIds tpl = stateIds s2 := by
    unfold blockIds stateIds
    rw [hvtx]
  refine ⟨?_, ?_, ?_⟩
  · rw [hids]
    exact hI.topo
  · intro pkg
    exact ⟨SortForBlock_perm pool pkg, SortForBlock_sorted pool pkg⟩
  · intro i a ha
    exact wf_count hwf ha

theorem claim_C2_witness :
    (∀ p, p < (blockIds demoTPoW).length →
      ∀ a ∈ (ent demoPool ((blockIds demoTPoW).getD p 0)).ancestors,
        a ∈ (blockIds demoTPoW).take p) ∧
    (∀ pkg : List Nat, List.Perm (SortForBlock demoPool pkg) pkg ∧
      List.Sorted (AncestorCountLE demoPool) (SortForBlock demoPool pkg)) ∧
    (∀ i a : Nat, a ∈ (ent demoPool i).ancestors →
      (ent demoPool a).countWithAncestors < (ent demoPool i).countWithAncestors) :=
  claim_C2 demoPool demoEnv [1, 2, 3] false false true none none (by decide)
    demoTPoW none (by decide)

/-- C3: per call of `UpdatePackagesForAdded` over the newly committed set
`A`, the entry maintained for a source entry `j` outside `A` subtracts
from its aggregates exactly the own size, modified fee and sigop cost of
each ancestor of `j` appearing in `A` — starting from the base cached
aggregates on a fresh insert, and from the previously maintained
aggregates on an in-place update. -/
theorem claim_C3 (pool : List MemEntry) (hwf : wfPool pool = true)
    (A : List Nat) (m : List CTxMemPoolModifiedEntry) (j : Nat)
    (hjA : j ∉ A) (hA : A.Nodup) :
    (mapFind m j = none →
      A.filter (fun a => decide (a ∈ (ent pool j).ancestors)) ≠ [] →
      mapFind (UpdatePackagesForAdded pool A m) j = some
        { iterId := j,
          nSizeWithAncestors := (ent pool j).sizeWithAncestors
            - sumTxSize pool (A.filter (fun a => decide (a ∈ (ent pool j).ancestors))),
          nModFeesWithAncestors := (ent pool j).modFeesWithAncestors
            - sumModFees pool (A.filter (fun a => decide (a ∈ (ent pool j).ancestors))),
          nSigOpCostWithAncestors := (ent pool j).sigOpCostWithAncestors
            - sumSigOpsI pool (A.filter (fun a => decide (a ∈ (ent pool j).ancestors))) }) ∧
    (∀ me0, mapFind m j = some me0 →
      sumTxSize pool (A.filter (fun a => decide (a ∈ (ent pool j).ancestors)))
        ≤ me0.nSizeWithAncestors →
      me0.nSizeWithAncestors < U64 →
      mapFind (UpdatePackagesForAdded pool A m) j = some
        { iterId := me0.iterId,
          nSizeWithAncestors := me0.nSizeWithAncestors
            - sumTxSize pool (A.filter (fun a => decide (a ∈ (ent pool j).ancestors))),
          nModFeesWithAncestors := me0.nModFeesWithAncestors
            - sumModFees pool (A.filter (fun a => decide (a ∈ (ent pool j).ancestors))),
          nSigOpCostWithAncestors := me0.nSigOpCostWithAncestors
            - sumSigOpsI pool (A.filter (fun a => decide (a ∈ (ent pool j).ancestors))) }) := by
  have hUP := UPFA_find pool hwf A m j
  rw [if_neg hjA, hits_eq pool hjA] at hUP
  constructor
  · intro hnone hDne
    rw [hnone] at hUP
    obtain ⟨a, t, hD⟩ := List.exists_cons_of_ne_nil hDne
    rw [hD, foldl_step_none_cons] at hUP
    have hsub : ∀ x ∈ a :: t, x ∈ (ent pool j).ancestors := by
      rw [← hD]
      intro x hx
      exact (mem_filter_decide hx).2
    have hnd2 : (a :: t).Nodup := by
      rw [← hD]
      exact hA.filter _
    have hsp : List.Subperm (a :: t) (ent pool j).ancestors := hnd2.subperm hsub
    have hszanc := wf_size_agg hwf j
    have hsumle := sumTxSize_subperm pool hsp
    have hsz : sumTxSize pool (a :: t) ≤ (mkModEntry pool j).nSizeWithAncestors := by
      show sumTxSize pool (a :: t) ≤ (ent pool j).sizeWithAncestors
      omega
    have hlt : (mkModEntry pool j).nSizeWithAncestors < U64 := wf_szlt hwf j
    rw [upd_fold_eq pool (a :: t) (mkModEntry pool j) hsz hlt] at hUP
    rw [hUP, hD]
    rfl
  · intro me0 hsome hszb hltb
    rw [hsome, foldl_step_some] at hUP
    rw [upd_fold_eq pool _ me0 hszb hltb] at hUP
    rw [hUP]

theorem claim_C3_witness :
    (mapFind ([] : List CTxMemPoolModifiedEntry) 2 = none →
      [0].filter (fun a => decide (a ∈ (ent demoPool3 2).ancestors)) ≠ [] →
      mapFind (UpdatePackagesForAdded demoPool3 [0] []) 2 = some
        { iterId := 2,
          nSizeWithAncestors := (ent demoPool3 2).sizeWithAncestors
            - sumTxSize demoPool3 ([0].filter (fun a => decide (a ∈ (ent demoPool3 2).ancestors))),
          nModFeesWithAncestors := (ent demoPool3 2).modFeesWithAncestors
            - sumModFees demoPool3 ([0].filter (fun a => decide (a ∈ (ent demoPool3 2).ancestors))),
          nSigOpCostWithAncestors := (ent demoPool3 2).sigOpCostWithAncestors
            - sumSigOpsI demoPool3 ([0].filter (fun a => decide (a ∈ (ent demoPool3 2).ancestors))) }) ∧
    (∀ me0, mapFind ([] : List CTxMemPoolModifiedEntry) 2 = some me0 →
      sumTxSize demoPool3 ([0].filter (fun a => decide (a ∈ (ent demoPool3 2).ancestors)))
        ≤ me0.nSizeWithAncestors →
      me0.nSizeWithAncestors < U64 →
      mapFind (UpdatePackagesForAdded demoPool3 [0] []) 2 = some
        { iterId := me0.iterId,
          nSizeWithAncestors := me0.nSizeWithAncestors
            - sumTxSize demoPool3 ([0].filter (fun a => decide (a ∈ (ent demoPool3 2).ancestors))),
          nModFeesWithAncestors := me0.nModFeesWithAncestors
            - sumModFees demoPool3 ([0].filter (fun a => decide (a ∈ (ent demoPool3 2).ancestors))),
          nSigOpCostWithAncestors := me0.nSigOpCostWithAncestors
            - sumSigOpsI demoPool3 ([0].filter (fun a => decide (a ∈ (ent demoPool3 2).ancestors))) }) :=
  claim_C3 demoPool3 (by decide) [0] [] 2 (by decide) (by decide)

/-- C4: in a successful template the coinbase slot of `vTxFees` carries
the negated fee total of the committed transactions; a proof-of-work
coinbase pays the fees plus the block subsidy, while a proof-of-stake run
returns the fees plus the stake reward through the out-parameter and
leaves the coinbase output empty and worthless. -/
theorem claim_C4 (pool : List MemEntry) (env : Env) (spk : List Nat)
    (fPoS hrw fmw : Bool) (aw asz : Option Nat) (hwf : wfPool pool = true)
    (tpl : CBlockTemplate) (r : Option Int)
    (h : CreateNewBlock pool env spk fPoS hrw fmw aw asz = some (tpl, r)) :
    tpl.vTxFees.getD 0 0 = - sumFees pool (blockIds tpl) ∧
    (fPoS = false →
      tpl.coinbase.value = sumFees pool (blockIds tpl) + env.blockSubsidy (env.tipHeight + 1) ∧
      r = none) ∧
    (fPoS = true →
      r = some (sumFees pool (blockIds tpl) + env.posReward (env.tipHeight + 1)) ∧
      tpl.coinbase.scriptPubKey = [] ∧ tpl.coinbase.value = 0) := by
  obtain ⟨s2, hI, -, -, -, hvtx, hfees, -, -, -, hpow, hpos⟩ :=
    CNB_success_facts pool env spk fPoS hrw fmw aw asz hwf h
  have hids : blockIds tpl = stateIds s2 := by
    unfold blockIds stateIds
    rw [hvtx]
  have hsum : sumFees pool (blockIds tpl) = s2.nFees := by
    rw [hids, ← hI.fee_eq]
  have hgetD : tpl.vTxFees.getD 0 0 = - s2.nFees := by
    rw [hfees, hI.fees_eq]
    rfl
  refine ⟨?_, ?_, ?_⟩
  · rw [hgetD, hsum]
  · intro hp
    obtain ⟨hcb, hr, -⟩ := hpow hp
    refine ⟨?_, hr⟩
    rw [hcb, hsum]
  · intro hp
    obtain ⟨hcb, hr, -⟩ := hpos hp
    refine ⟨?_, ?_, ?_⟩
    · rw [hr, hsum]
    · rw [hcb]
    · rw [hcb]

theorem claim_C4_witness :
    demoTPoS.vTxFees.getD 0 0 = - sumFees demoPool (blockIds demoTPoS) ∧
    (true = false →
      demoTPoS.coinbase.value
        = sumFees demoPool (blockIds demoTPoS) + demoEnv.blockSubsidy (demoEnv.tipHeight + 1) ∧
      (some 302000 : Option Int) = none) ∧
    (true = true →
      (some 302000 : Option Int)
        = some (sumFees demoPool (blockIds demoTPoS) + demoEnv.posReward (demoEnv.tipHeight + 1)) ∧
      demoTPoS.coinbase.scriptPubKey = [] ∧ demoTPoS.coinbase.value = 0) :=
  claim_C4 demoPool demoEnv [] true true true none none (by decide)
    demoTPoS (some 302000) (by decide)

theorem foldl_max_le_init (l : List Int) (a : Int) : a ≤ l.foldl max a := by
  induction l generalizing a with
  | nil => exact le_refl a
  | cons x t ih => exact le_trans (le_max_left a x) (ih (max a x))

theorem foldl_max_le_mem {l : List Int} {x : Int} (hx : x ∈ l) (a : Int) :
    x ≤ l.foldl max a := by
  induction l generalizing a with
  | nil => cases hx
  | cons y t ih =>
    rcases List.mem_cons.mp hx with rfl | hmem
    · exact le_trans (le_max_right a x) (foldl_max_le_init t (max a x))
    · exact ih hmem (max a y)

theorem foldl_max_lt {l : List Int} {a c : Int} (ha : a < c) (hl : ∀ x ∈ l, x < c) :
    l.foldl max a < c := by
  induction l generalizing a with
  | nil => exact ha
  | cons y t ih =>
    exact ih (max_lt ha (hl y (List.mem_cons_self y t))) (fun x hx => hl x (List.mem_cons_of_mem y hx))

theorem maxTxTime_nonneg (pool : List MemEntry) (cb : CoinbaseTx) (ids : List Nat) :
    0 ≤ maxTxTime pool cb ids :=
  foldl_max_le_init _ 0

theorem maxTxTime_ge_tx (pool : List MemEntry) (cb : CoinbaseTx) {ids : List Nat}
    {i : Nat} (hi : i ∈ ids) :
    ((ent pool i).txTime : Int) ≤ maxTxTime pool cb ids :=
  foldl_max_le_mem (List.mem_cons_of_mem _ (List.mem_map_of_mem _ hi)) 0

theorem maxTxTime_lt (pool : List MemEntry) (hwf : wfPool pool = true)
    {cb : CoinbaseTx} (hcb : (cb.nTime : Int) < (U32 : Int)) (ids : List Nat) :
    maxTxTime pool cb ids < (U32 : Int) := by
  apply foldl_max_lt
  · decide
  · intro x hx
    rcases List.mem_cons.mp hx with rfl | hmem
    · exact hcb
    · obtain ⟨i, -, rfl⟩ := List.mem_map.mp hmem
      exact_mod_cast wf_txtime hwf i

/-- C5 counterexample: a proof-of-work run over a mempool holding a
final transaction dated in the future commits it, and the resulting
header time stays below that transaction's time — the package phase
performs no transaction-time check in proof-of-work mode. -/
theorem claim_C5_counterexample :
    futureRun = some ((futureRun.map Prod.fst).getD default, none) ∧
    0 ∈ blockIds ((futureRun.map Prod.fst).getD default) ∧
    ((futureRun.map Prod.fst).getD default).header.nTime
      < ((ent futurePool 0).txTime : Int) :=
  ⟨by decide, by decide, by decide⟩

/-- C5 (amended): every transaction of a successful template is final at
the assembly's height and cutoff, and in proof-of-stake mode — where the
header time is raised to at least `GetMaxTransactionTime` — no committed
transaction's time exceeds the final header time.  (The proof-of-work
half of the original claim is refuted by `futureRun`.) -/
theorem claim_C5_amended (pool : List MemEntry) (env : Env) (spk : List Nat)
    (fPoS hrw fmw : Bool) (aw asz : Option Nat) (hwf : wfPool pool = true)
    (tpl : CBlockTemplate) (r : Option Int)
    (h : CreateNewBlock pool env spk fPoS hrw fmw aw asz = some (tpl, r))
    (hmtp0 : 0 ≤ env.medianTimePast)
    (hmtp1 : env.medianTimePast + BLOCK_LIMITER_TIME + 1 < (U32 : Int))
    (hpd0 : 0 ≤ env.pastDrift env.tipTime)
    (hpd1 : env.pastDrift env.tipTime < (U32 : Int)) :
    (∀ i ∈ blockIds tpl, (ent pool i).isFinal = true) ∧
    (fPoS = true → ∀ i ∈ blockIds tpl, ((ent pool i).txTime : Int) ≤ tpl.header.nTime) := by
  obtain ⟨s2, hI, -, -, -, hvtx, -, -, -, -, -, hpos⟩ :=
    CNB_success_facts pool env spk fPoS hrw fmw aw asz hwf h
  have hids : blockIds tpl = stateIds s2 := by
    unfold blockIds stateIds
    rw [hvtx]
  constructor
  · intro i hi
    rw [hids] at hi
    exact hI.fin i hi
  · intro hp i hi
    rw [hids] at hi
    obtain ⟨-, -, hT⟩ := hpos hp
    set cb : CoinbaseTx :=
      { nTime := u32N env.adjTime, scriptPubKey := [], value := 0,
        scriptSigHeight := env.tipHeight + 1 } with hcb
    have hcbt : ((cb.nTime : Nat) : Int) < (U32 : Int) := by
      have : u32N env.adjTime < U32 := Nat.mod_lt _ (by decide)
      exact_mod_cast this
    have hM0 : 0 ≤ maxTxTime pool cb (stateIds s2) := maxTxTime_nonneg pool cb _
    have hM1 : maxTxTime pool cb (stateIds s2) < (U32 : Int) := maxTxTime_lt pool hwf hcbt _
    have hMi : ((ent pool i).txTime : Int) ≤ maxTxTime pool cb (stateIds s2) :=
      maxTxTime_ge_tx pool cb hi
    set A : Int := env.medianTimePast + BLOCK_LIMITER_TIME + 1 with hA
    have hin0 : 0 ≤ max A (maxTxTime pool cb (stateIds s2)) := le_trans hM0 (le_max_right _ _)
    have hin1 : max A (maxTxTime pool cb (stateIds s2)) < (U32 : Int) := max_lt hmtp1 hM1
    have hinner : u32I (max A (maxTxTime pool cb (stateIds s2)))
        = max A (maxTxTime pool cb (stateIds s2)) := u32I_eq_self hin0 hin1
    rw [hT, hinner]
    have hout0 : 0 ≤ max (max A (maxTxTime pool cb (stateIds s2))) (env.pastDrift env.tipTime) :=
      le_trans hin0 (le_max_left _ _)
    have hout1 : max (max A (maxTxTime pool cb (stateIds s2))) (env.pastDrift env.tipTime)
        < (U32 : Int) := max_lt hin1 hpd1
    rw [u32I_eq_self hout0 hout1]
    exact le_trans hMi (le_trans (le_max_right _ _) (le_max_left _ _))

theorem claim_C5_amended_witness :
    (∀ i ∈ blockIds demoTPoS, (ent demoPool i).isFinal = true) ∧
    (true = true → ∀ i ∈ blockIds demoTPoS,
      ((ent demoPool i).txTime : Int) ≤ demoTPoS.header.nTime) :=
  claim_C5_amended demoPool demoEnv [] true true true none none (by decide)
    demoTPoS (some 302000) (by decide) (by decide) (by decide) (by decide) (by decide)

/-- C6: when `SignBlock` completes the kernel-search path on an unsigned
proof-of-stake template, every transaction of the returned block —
including the inserted coinstake — has a time no later than the rewritten
header time, which is raised to at least the block's maximum transaction
time before signing. -/
theorem claim_C6 (env : SEnv) (pblock : SBlock) (lastSearchTime : Int) (b' : SBlock)
    (hnp : pblock.IsProofOfStake = false)
    (htimes : ∀ t ∈ pblock.vtx, t.nTime < U32)
    (hcst : ∀ t, env.createCoinStake = some t → t.nTime < U32)
    (hmtp1 : env.bestMtp + BLOCK_LIMITER_TIME + 1 < (U32 : Int))
    (hpd1 : env.pastDrift env.bestTime < (U32 : Int))
    (h : SignBlock env pblock lastSearchTime = some b') :
    ∀ t ∈ b'.vtx, (t.nTime : Int) ≤ b'.nTime := by
  unfold SignBlock at h
  cases hv : pblock.vtx with
  | nil =>
    rw [hv] at h
    cases h
  | cons t0 rest =>
    rw [hv] at h
    dsimp only at h
    split at h
    · cases h
    · split at h
      · rename_i hcond
        simp [hnp] at hcond
      · split at h
        · split at h
          · rename_i txCS hcs
            split at h
            · split at h
              · rename_i hsit hcsgood hsign
                have hb := Option.some.inj h
                have hbv : b'.vtx = { t0 with nTime := txCS.nTime } :: txCS :: rest := by
                  rw [← hb]
                  rfl
                have hbt : b'.nTime = u32I (max
                    (u32I (max (env.bestMtp + BLOCK_LIMITER_TIME + 1)
                      ((({ t0 with nTime := txCS.nTime } :: rest).map
                        (fun t => (t.nTime : Int))).foldl max 0)))
                    (env.pastDrift env.bestTime)) := by
                  rw [← hb]
                  rfl
                have hcsb : txCS.nTime < U32 := hcst txCS hcs
                have hM0 : (0 : Int) ≤ (({ t0 with nTime := txCS.nTime } :: rest).map
                    (fun t => (t.nTime : Int))).foldl max 0 := foldl_max_le_init _ 0
                have hM1 : (({ t0 with nTime := txCS.nTime } :: rest).map
                    (fun t => (t.nTime : Int))).foldl max 0 < (U32 : Int) := by
                  apply foldl_max_lt
                  · decide
                  · intro x hx
                    rcases List.mem_map.mp hx with ⟨u, hu, rfl⟩
                    rcases List.mem_cons.mp hu with rfl | hur
                    · exact_mod_cast hcsb
                    · have : u ∈ pblock.vtx := by
                        rw [hv]
                        exact List.mem_cons_of_mem t0 hur
                      exact_mod_cast htimes u this
                have hin0 : (0 : Int) ≤ max (env.bestMtp + BLOCK_LIMITER_TIME + 1)
                    ((({ t0 with nTime := txCS.nTime } :: rest).map
                      (fun t => (t.nTime : Int))).foldl max 0) :=
                  le_trans hM0 (le_max_right _ _)
                have hin1 : max (env.bestMtp + BLOCK_LIMITER_TIME + 1)
                    ((({ t0 with nTime := txCS.nTime } :: rest).map
                      (fun t => (t.nTime : Int))).foldl max 0) < (U32 : Int) :=
                  max_lt hmtp1 hM1
                rw [u32I_eq_self hin0 hin1] at hbt
                rw [u32I_eq_self (le_trans hin0 (le_max_left _ _)) (max_lt hin1 hpd1)] at hbt
                intro t ht
                rw [hbv] at ht
                have hle : (t.nTime : Int) ≤ (({ t0 with nTime := txCS.nTime } :: rest).map
                    (fun t => (t.nTime : Int))).foldl max 0 := by
                  rcases List.mem_cons.mp ht with rfl | ht2
                  · exact foldl_max_le_mem (List.mem_map_of_mem _ (List.mem_cons_self _ _)) 0
                  · rcases List.mem_cons.mp ht2 with rfl | ht3
                    · exact foldl_max_le_mem (List.mem_map_of_mem
                        (fun u : STx => ((u.nTime : Nat) : Int)) (List.mem_cons_self _ _)) 0
                    · exact foldl_max_le_mem (List.mem_map_of_mem _
                        (List.mem_cons_of_mem _ ht3)) 0
                rw [hbt]
                exact le_trans hle (le_trans (le_max_right _ _) (le_max_left _ _))
              · cases h
            · cases h
          · cases h
        · cases h

theorem claim_C6_witness :
    (((((SignBlock demoSEnv demoSBlock 0).getD
        { vtx := [], nTime := 0, nBits := 0, signedBlock := false }).vtx.getD 1
        default).nTime : Nat) : Int)
      ≤ ((SignBlock demoSEnv demoSBlock 0).getD
        { vtx := [], nTime := 0, nBits := 0, signedBlock := false }).nTime :=
  claim_C6 demoSEnv demoSBlock 0
    ((SignBlock demoSEnv demoSBlock 0).getD
      { vtx := [], nTime := 0, nBits := 0, signedBlock := false })
    (by decide) (by decide) (by decide) (by decide) (by decide) (by decide)
    (((SignBlock demoSEnv demoSBlock 0).getD
        { vtx := [], nTime := 0, nBits := 0, signedBlock := false }).vtx.getD 1 default)
    (by decide)

/-- C7: `CreateNewBlock` returns no template exactly when it is asked for
a proof-of-stake block without a stake-reward out-parameter or when the
template allocation fails; every produced template has `nNonce = 0`. -/
theorem claim_C7 (pool : List MemEntry) (env : Env) (spk : List Nat)
    (fPoS hrw fmw : Bool) (aw asz : Option Nat) :
    (CreateNewBlock pool env spk fPoS hrw fmw aw asz = none ↔
      (fPoS = true ∧ hrw = false) ∨ env.allocOk = false) ∧
    (∀ tpl r, CreateNewBlock pool env spk fPoS hrw fmw aw asz = some (tpl, r) →
      tpl.header.nNonce = 0) := by
  constructor
  · constructor
    · intro h
      unfold CreateNewBlock at h
      by_cases hg1 : (fPoS && !hrw) = true
      · left
        simpa using hg1
      · rw [if_neg hg1] at h
        by_cases hg2 : (!env.allocOk) = true
        · right
          simpa using hg2
        · rw [if_neg hg2] at h
          cases h
    · intro hor
      unfold CreateNewBlock
      rcases hor with ⟨h1, h2⟩ | h3
      · rw [if_pos (by simp [h1, h2])]
      · by_cases hg1 : (fPoS && !hrw) = true
        · rw [if_pos hg1]
        · rw [if_neg hg1, if_pos (by simp [h3])]
  · intro tpl r h
    unfold CreateNewBlock at h
    by_cases hg1 : (fPoS && !hrw) = true
    · rw [if_pos hg1] at h
      cases h
    · rw [if_neg hg1] at h
      by_cases hg2 : (!env.allocOk) = true
      · rw [if_pos hg2] at h
        cases h
      · rw [if_neg hg2] at h
        dsimp only at h
        have h2 := congrArg (fun p : CBlockTemplate × Option Int => p.1.header.nNonce)
          (Option.some.inj h)
        exact h2.symm

/-- C8: `UpdateTime` recomputes the candidate time as the maximum of the
limiter floor over the previous block's median time past and the adjusted
time, overwrites the header time only when strictly newer, returns the
delta against the old time, and never decreases the header time. -/
theorem claim_C8 (pblock : BlockHeader) (mtpPrev adjTime : Int)
    (hnew0 : 0 ≤ max (mtpPrev + BLOCK_LIMITER_TIME + 1) adjTime)
    (hnew1 : max (mtpPrev + BLOCK_LIMITER_TIME + 1) adjTime < (U32 : Int)) :
    (UpdateTime pblock mtpPrev adjTime).1
      = max (mtpPrev + BLOCK_LIMITER_TIME + 1) adjTime - pblock.nTime ∧
    (UpdateTime pblock mtpPrev adjTime).2.nTime
      = (if pblock.nTime < max (mtpPrev + BLOCK_LIMITER_TIME + 1) adjTime
         then max (mtpPrev + BLOCK_LIMITER_TIME + 1) adjTime
         else pblock.nTime) ∧
    pblock.nTime ≤ (UpdateTime pblock mtpPrev adjTime).2.nTime := by
  unfold UpdateTime
  dsimp only
  by_cases hlt : pblock.nTime < max (mtpPrev + BLOCK_LIMITER_TIME + 1) adjTime
  · rw [if_pos hlt, if_pos hlt]
    refine ⟨rfl, ?_, ?_⟩
    · show u32I (max (mtpPrev + BLOCK_LIMITER_TIME + 1) adjTime) = _
      exact u32I_eq_self hnew0 hnew1
    · show pblock.nTime ≤ u32I (max (mtpPrev + BLOCK_LIMITER_TIME + 1) adjTime)
      rw [u32I_eq_self hnew0 hnew1]
      exact le_of_lt hlt
  · rw [if_neg hlt, if_neg hlt]
    exact ⟨rfl, rfl, le_refl _⟩

theorem claim_C8_witness :
    (UpdateTime { nVersion := 1, hashPrevBlock := 0, nTime := 100, nBits := 0, nNonce := 0 }
        50 200).1 = max (50 + BLOCK_LIMITER_TIME + 1) 200 - 100 ∧
    (UpdateTime { nVersion := 1, hashPrevBlock := 0, nTime := 100, nBits := 0, nNonce := 0 }
        50 200).2.nTime
      = (if (100 : Int) < max (50 + BLOCK_LIMITER_TIME + 1) 200
         then max (50 + BLOCK_LIMITER_TIME + 1) 200 else (100 : Int)) ∧
    (100 : Int) ≤ (UpdateTime
      { nVersion := 1, hashPrevBlock := 0, nTime := 100, nBits := 0, nNonce := 0 }
        50 200).2.nTime :=
  claim_C8 { nVersion := 1, hashPrevBlock := 0, nTime := 100, nBits := 0, nNonce := 0 }
    50 200 (by decide) (by decide)

/-- C9: the template's three parallel vectors stay aligned with the
coinbase slot at index 0 — the dummy entry is pushed on all three before
selection, each `AddToBlock` appends exactly one element to each vector
and bumps `nBlockTx` by one, and the finished template keeps the three
vectors at equal length with slot 0 still the coinbase placeholder. -/
theorem claim_C9 (pool : List MemEntry) (env : Env) (spk : List Nat)
    (fPoS hrw fmw : Bool) (aw asz : Option Nat) (hwf : wfPool pool = true)
    (tpl : CBlockTemplate) (r : Option Int)
    (h : CreateNewBlock pool env spk fPoS hrw fmw aw asz = some (tpl, r)) :
    tpl.vtx.length = tpl.vTxFees.length ∧
    tpl.vtx.length = tpl.vTxSigOpsCost.length ∧
    tpl.vtx.getD 0 (some 0) = none ∧
    (initialBState (BlockAssemblerInit aw asz) (env.witnessEnabled && fmw)
        (env.tipHeight + 1)).vtx = [none] ∧
    (initialBState (BlockAssemblerInit aw asz) (env.witnessEnabled && fmw)
        (env.tipHeight + 1)).vTxFees = [-1] ∧
    (initialBState (BlockAssemblerInit aw asz) (env.witnessEnabled && fmw)
        (env.tipHeight + 1)).vTxSigOpsCost = [-1] ∧
    (∀ (s : BState) (i : Nat),
      (AddToBlock s pool i).vtx = s.vtx ++ [some i] ∧
      (AddToBlock s pool i).vTxFees = s.vTxFees ++ [(ent pool i).fee] ∧
      (AddToBlock s pool i).vTxSigOpsCost
        = s.vTxSigOpsCost ++ [((ent pool i).sigOpCost : Int)] ∧
      (AddToBlock s pool i).nBlockTx = s.nBlockTx + 1) := by
  obtain ⟨s2, hI, -, -, -, hvtx, hfees, hsig, -⟩ :=
    CNB_success_facts pool env spk fPoS hrw fmw aw asz hwf h
  have hlen1 : tpl.vtx.length = tpl.vTxFees.length := by
    rw [hvtx, hfees, List.length_set, hI.vtx_eq, hI.fees_eq]
    simp
  have hlen2 : tpl.vtx.length = tpl.vTxSigOpsCost.length := by
    rw [hvtx, hsig, List.length_set, hI.vtx_eq, hI.sig_eq]
    simp
  refine ⟨hlen1, hlen2, ?_, rfl, rfl, rfl, ?_⟩
  · rw [hvtx, hI.vtx_eq]
    rfl
  · intro s i
    exact ⟨rfl, rfl, rfl, rfl⟩

theorem claim_C9_witness :
    demoTPoW.vtx.length = demoTPoW.vTxFees.length ∧
    demoTPoW.vtx.length = demoTPoW.vTxSigOpsCost.length ∧
    demoTPoW.vtx.getD 0 (some 0) = none ∧
    (initialBState (BlockAssemblerInit none none) (demoEnv.witnessEnabled && true)
        (demoEnv.tipHeight + 1)).vtx = [none] ∧
    (initialBState (BlockAssemblerInit none none) (demoEnv.witnessEnabled && true)
        (demoEnv.tipHeight + 1)).vTxFees = [-1] ∧
    (initialBState (BlockAssemblerInit none none) (demoEnv.witnessEnabled && true)
        (demoEnv.tipHeight + 1)).vTxSigOpsCost = [-1] ∧
    (∀ (s : BState) (i : Nat),
      (AddToBlock s demoPool i).vtx = s.vtx ++ [some i] ∧
      (AddToBlock s demoPool i).vTxFees = s.vTxFees ++ [(ent demoPool i).fee] ∧
      (AddToBlock s demoPool i).vTxSigOpsCost
        = s.vTxSigOpsCost ++ [((ent demoPool i).sigOpCost : Int)] ∧
      (AddToBlock s demoPool i).nBlockTx = s.nBlockTx + 1) :=
  claim_C9 demoPool demoEnv [1, 2, 3] false false true none none (by decide)
    demoTPoW none (by decide)

/-- C10: the package fit predicates have no side effect on the block in
progress — `TestPackage` and `TestPackageTransactions` return the state
exactly as given, and `TestForBlock` changes at most the `lastFewTxs`
counter and the `blockFinished` flag. -/
theorem claim_C10 :
    (∀ (s : BState) (packageSize : Nat) (packageSigOpsCost : Int),
      (TestPackage s packageSize packageSigOpsCost).2 = s) ∧
    (∀ (s : BState) (pool : List MemEntry) (package : List Nat),
      (TestPackageTransactions s pool package).2 = s) ∧
    (∀ (s : BState) (pool : List MemEntry) (i : Nat),
      ∃ lf bf, (TestForBlock s pool i).2
        = { s with lastFewTxs := lf, blockFinished := bf }) := by
  refine ⟨?_, ?_, ?_⟩
  · intro s packageSize packageSigOpsCost
    unfold TestPackage
    by_cases h1 : s.nBlockWeight + WITNESS_SCALE_FACTOR * packageSize ≥ s.nBlockMaxWeight
    · rw [if_pos h1]
    · rw [if_neg h1]
      by_cases h2 : (s.nBlockSigOpsCost : Int) + packageSigOpsCost ≥ (MAX_BLOCK_SIGOPS_COST : Int)
      · rw [if_pos h2]
      · rw [if_neg h2]
  · intro s pool package
    rfl
  · intro s pool i
    exact TestForBlock_shape s pool i
